import Mathlib

/-!
# kubectl-check-cert: a verification development

A shallow embedding of the two programs of the repository:

* `Krawler`  : the per-node agent (`agent/krawler.go`, `agent/type.go`), which reads the
  kubelet command line and configuration and resolves which certificate file to report;
* `CheckCert`: the orchestrator (`cmd/check_cert.go`), which collects rows from its
  workers, sorts them and prints the report.

Go strings are modelled by `String` (Unicode text; the order `<` on `String` is the
lexicographic order of the characters, which on UTF-8 text coincides with the byte order Go
uses).  Library functions (`strings`, `bytes`, `path`, `cast`, `sort`, `encoding/json`) are
modelled from their documentation, on lists of characters.
-/

set_option autoImplicit false
set_option maxRecDepth 20000

/-! ## Library functions on character lists -/

namespace GoLib

/-- Whether `sep` starts the list `s` (the test made by `strings.Index` at one position). -/
def startsWith : List Char → List Char → Bool
  | [], _ => true
  | _ :: _, [] => false
  | a :: as, b :: bs => a == b && startsWith as bs

/-- Worker of `strings.Split` for a non-empty separator: scans left to right, cutting at each
leftmost occurrence of `sep`; `skip` counts the characters of a matched separator that are
still to be passed over. -/
def splitGo (sep : List Char) : Nat → List Char → List (List Char)
  | _, [] => [[]]
  | skip + 1, _ :: cs => splitGo sep skip cs
  | 0, c :: cs =>
    if startsWith sep (c :: cs) then
      [] :: splitGo sep (sep.length - 1) cs
    else
      match splitGo sep 0 cs with
      | w :: ws => (c :: w) :: ws
      | [] => [[c]]

/-- Go `strings.Split(s, sep)` for a non-empty separator `sep`. -/
def stringsSplit (s sep : String) : List String :=
  (splitGo sep.toList 0 s.toList).map String.mk

/-- Go `strings.Join(elems, sep)`. -/
def stringsJoin (elems : List String) (sep : String) : String :=
  String.mk (List.intercalate sep.toList (elems.map String.toList))

/-- Removal of the leading and trailing characters that belong to `cutset`. -/
def trimChars (cutset : List Char) (s : List Char) : List Char :=
  ((s.dropWhile (fun c => cutset.contains c)).reverse.dropWhile
    (fun c => cutset.contains c)).reverse

/-- Go `strings.Trim(s, cutset)` (and `bytes.Trim` on the bytes of a string). -/
def stringsTrim (s cutset : String) : String :=
  String.mk (trimChars cutset.toList s.toList)

/-- Go `strconv.ParseBool`: the accepted spellings of true and false; anything else is an
error, reported here as `none`. -/
def parseBool (s : String) : Option Bool :=
  if s = "1" ∨ s = "t" ∨ s = "T" ∨ s = "TRUE" ∨ s = "true" ∨ s = "True" then some true
  else if s = "0" ∨ s = "f" ∨ s = "F" ∨ s = "FALSE" ∨ s = "false" ∨ s = "False" then some false
  else none

/-- One step of `path.Clean` on the stack of kept elements (top first): empty and `.`
elements are dropped, `..` removes the element before it when there is one that is not
itself `..`, is dropped at the root, and is kept otherwise. -/
def cleanStep (rooted : Bool) (stack : List (List Char)) (c : List Char) : List (List Char) :=
  if c = [] ∨ c = ['.'] then stack
  else if c = ['.', '.'] then
    match stack with
    | [] => if rooted then [] else [c]
    | top :: rest => if top = ['.', '.'] then c :: stack else rest
  else c :: stack

/-- Go `path.Clean` on a character list. -/
def cleanChars (p : List Char) : List Char :=
  match p with
  | [] => ['.']
  | c :: _ =>
    let rooted : Bool := c == '/'
    let stack := (splitGo ['/'] 0 p).foldl (cleanStep rooted) []
    if rooted then '/' :: List.intercalate ['/'] stack.reverse
    else if stack = [] then ['.']
    else List.intercalate ['/'] stack.reverse

/-- Go `path.Join`: the elements from the first non-empty one on are joined with slashes
and the result is cleaned; when every element is empty the result is empty. -/
def pathJoin (elems : List String) : String :=
  match (elems.map String.toList).dropWhile (fun e => e.isEmpty) with
  | [] => ""
  | es => String.mk (cleanChars (List.intercalate ['/'] es))

/-- A plain path element: not empty, without a slash, and neither `.` nor `..`. -/
def PlainName (n : List Char) : Prop := n ≠ [] ∧ '/' ∉ n ∧ n ≠ ['.'] ∧ n ≠ ['.', '.']

end GoLib

/-! ## The agent: `agent/type.go` and `agent/krawler.go` -/

namespace Krawler

open GoLib

def configFlag : String := "config"
def certDirFlag : String := "cert-dir"
def kubeConfigFlag : String := "kubeconfig"
def rotateCertFlag : String := "rotate-certificates"
def rotateServerCertFlag : String := "rotate-server-certificates"
def tlsCertFlag : String := "tls-cert-file"
def tlsKeyFlag : String := "tls-key-file"
def featureGatesFlag : String := "feature-gates"
def rotateCertOption : String := "rotateCertificates"
def rotateServerCertOption : String := "serverTLSBootstrap"
def tlsCertOption : String := "tlsCertFile"
def tlsKeyOption : String := "tlsKeyFile"
def featureGatesOption : String := "featureGates"
def rotateKubeletServerCertFeature : String := "RotateKubeletServerCertificate"
def defaultKubeletServerCertPath : String := "/var/lib/kubelet/pki/"
def entryType : String := "kubelet"

/-- A Go `map[string]string`: an association list in which the most recent assignment of a
key comes first, so that `List.lookup` returns the value a Go lookup returns. -/
abbrev Commands := List (String × String)

/-- Go `m[k]` on a `map[string]string`: the zero value `""` for a missing key. -/
def Commands.get (m : Commands) (k : String) : String := (m.lookup k).getD ""

/-- The body of the loop of `GetCommandsFromCmdline` for one piece `c` of the command line. -/
def commandStep (cmds : Commands) (c : String) : Commands :=
  let c := stringsTrim c "\x00"
  let s := stringsSplit c "="
  let value := if s.length = 1 then "true" else stringsJoin s.tail "="
  (s.headD "", stringsTrim value "\n") :: cmds

/-- `GetCommandsFromCmdline` (krawler.go:216): the command line is cut at every `--`, each
piece is stripped of NUL characters at its ends and cut at `=`; the part before the first
`=` is the key, the rest (or `"true"` when there is no `=`) is the value. -/
def GetCommandsFromCmdline (cmdline : String) : Commands :=
  (stringsSplit cmdline "--").foldl commandStep []

/-- A value of the dynamic type `interface{}` as `yaml.Unmarshal` produces it.  A float is
carried by its decimal rendering. -/
inductive YamlValue where
  | null : YamlValue
  | bool (b : Bool) : YamlValue
  | int (i : Int) : YamlValue
  | float (text : String) : YamlValue
  | str (s : String) : YamlValue
  | seq (items : List YamlValue) : YamlValue
  | map (fields : List (YamlValue × YamlValue)) : YamlValue

/-- The decoded configuration file, a Go `map[string]interface{}`. -/
abbrev ConfigData := List (String × YamlValue)

/-- Library `cast.ToString` on a decoded YAML value: scalars are rendered, `nil` and the
values that cannot be cast give the empty string. -/
def castToString : YamlValue → String
  | .str s => s
  | .bool b => if b then "true" else "false"
  | .int i => toString i
  | .float text => text
  | _ => ""

/-- Library `cast.ToBool` on a string: `strconv.ParseBool`, with `false` on error. -/
def castToBoolString (s : String) : Bool := (parseBool s).getD false

/-- Library `cast.ToBool` on a decoded YAML value: a bool is itself, an int is true when
non-zero, a string goes through `strconv.ParseBool`, everything else is false. -/
def castToBool : YamlValue → Bool
  | .bool b => b
  | .int i => i != 0
  | .str s => castToBoolString s
  | _ => false

/-- Lookup of the string key `k` in a decoded YAML mapping (`map[interface{}]interface{}`):
only a key that is the string `k` matches. -/
def yamlMapLookup (k : String) : List (YamlValue × YamlValue) → Option YamlValue
  | [] => none
  | (.str s, v) :: rest => if s = k then some v else yamlMapLookup k rest
  | _ :: rest => yamlMapLookup k rest

/-- The configuration data `main` works with (krawler.go:57-66): the decoded content
`fileData` of the file named by `--config` when that flag is present, the empty map
otherwise. -/
def configDataOf (commands : Commands) (fileData : ConfigData) : ConfigData :=
  match commands.lookup configFlag with
  | some _ => fileData
  | none => []

/-- Lines 68-72 of `main`: the certificate path from the flag, else from the option. -/
def tempCertPath (commands : Commands) (configData : ConfigData) : String :=
  match commands.lookup tlsCertFlag with
  | some data => data
  | none =>
    match configData.lookup tlsCertOption with
    | some data => castToString data
    | none => ""

/-- Lines 74-78 of `main`: the key path from the flag, else from the option. -/
def tempKeyPath (commands : Commands) (configData : ConfigData) : String :=
  match commands.lookup tlsKeyFlag with
  | some data => data
  | none =>
    match configData.lookup tlsKeyOption with
    | some data => castToString data
    | none => ""

/-- Lines 80-84 of `main`: the legacy rotation boolean from the flag, else from the option. -/
def isServerRotateCertA (commands : Commands) (configData : ConfigData) : Bool :=
  match commands.lookup rotateServerCertFlag with
  | some data => castToBoolString data
  | none =>
    match configData.lookup rotateServerCertOption with
    | some data => castToBool data
    | none => false

/-- The loop of lines 86-91 of `main` over the items of `--feature-gates`: an item whose
name is the rotation feature assigns the boolean from `value[1]`; when such an item has no
`=` the index is out of range and the program stops (`none`). -/
def featureGatesLoop : List String → Bool → Option Bool
  | [], b => some b
  | v :: rest, b =>
    let value := stringsSplit v "="
    if value.headD "" = rotateKubeletServerCertFeature then
      match value.tail with
      | [] => none
      | v1 :: _ => featureGatesLoop rest (castToBoolString v1)
    else featureGatesLoop rest b

/-- Lines 92-96 of `main`: when the option `featureGates` is a mapping that has the rotation
feature, its value is assigned, after the loop over the flag. -/
def featureGatesOptionStep (configData : ConfigData) (b : Bool) : Bool :=
  match configData.lookup featureGatesOption with
  | some (.map features) =>
    match yamlMapLookup rotateKubeletServerCertFeature features with
    | some data => castToBool data
    | none => b
  | _ => b

/-- Lines 86-96 of `main`: the feature-gate boolean, `none` when the loop stops the program. -/
def isServerRotateCertB (commands : Commands) (configData : ConfigData) : Option Bool :=
  (featureGatesLoop (stringsSplit (commands.get featureGatesFlag) ",") false).map
    (featureGatesOptionStep configData)

/-- Line 98 of `main`. -/
def isServerRotateCert (commands : Commands) (configData : ConfigData) : Option Bool :=
  (isServerRotateCertB commands configData).map
    (fun b => isServerRotateCertA commands configData && b)

/-- Lines 54 and 100-106 of `main`, given the rotation boolean. -/
def choosePath (commands : Commands) (configData : ConfigData) (rotate : Bool) : String :=
  if tempCertPath commands configData ≠ "" ∧ tempKeyPath commands configData ≠ "" then
    tempCertPath commands configData
  else if rotate then
    pathJoin [defaultKubeletServerCertPath, "kubelet-server-current.pem"]
  else
    match commands.lookup certDirFlag with
    | some data => pathJoin [data, "kubelet.crt"]
    | none => pathJoin [defaultKubeletServerCertPath, "kubelet.crt"]

/-- The server certificate path `main` resolves (krawler.go:45-106) from the parsed command
line and the configuration data; `none` when the program stops before resolving it. -/
def kubeletServerCertPath (commands : Commands) (configData : ConfigData) : Option String :=
  (isServerRotateCert commands configData).map (choosePath commands configData)

/-- Lines 114-118 of `main`: client rotation from the flag, else from the option. -/
def isClientRotateCert (commands : Commands) (configData : ConfigData) : Bool :=
  match commands.lookup rotateCertFlag with
  | some data => castToBoolString data
  | none =>
    match configData.lookup rotateCertOption with
    | some data => castToBool data
    | none => false

/-- Path resolution from the raw command line of the kubelet process and the decoded
content of its configuration file. -/
def resolveServerCertPath (cmdline : String) (fileData : ConfigData) : Option String :=
  let commands := GetCommandsFromCmdline cmdline
  kubeletServerCertPath commands (configDataOf commands fileData)

end Krawler

/-! ## The orchestrator: `cmd/check_cert.go` -/

namespace CheckCert

open GoLib

/-- A Go `time.Time`, carried by its calendar reading: date, time of day, nanoseconds and
the offset of its zone in seconds east of UTC. -/
structure Time where
  year : Int
  month : Nat
  day : Nat
  hour : Nat
  minute : Nat
  second : Nat
  nsec : Nat
  offset : Int
  deriving DecidableEq, Repr

/-- The zero value `time.Time{}`: January 1 of year 1, 00:00:00 UTC. -/
def Time.zero : Time := ⟨1, 1, 1, 0, 0, 0, 0, 0⟩

/-- Modelled from the spec: the declaration of the type `Entry` of package `cmd` is not
among the sources; the fields are those `check_cert.go` uses, the same as the agent's
`Entry` (`agent/type.go`) and the spec's `CertificateEntry`. -/
structure Entry where
  Type_ : String
  Node : String
  Name : String
  Days : Int
  Due : Time
  Path : String
  deriving DecidableEq, Repr

/-- Modelled from the spec: the declaration of the type `Output` of package `cmd` is not
among the sources; it is the agent's `Output` (`agent/type.go`), the list under the JSON key
`entry`. -/
structure Output where
  Entries : List Entry
  deriving DecidableEq, Repr

/-- The type `serverCertification` (check_cert.go:79): one collected row. -/
structure serverCertification where
  Entry : Entry
  Warning : String
  deriving DecidableEq, Repr

/-- Go `a < b` on strings: the lexicographic order of the characters. -/
def strLt (a b : String) : Bool := decide (a.toList < b.toList)

/-- The `less` function given to `sort.Slice` (check_cert.go:621-641), on the two rows it
compares. -/
def less (x y : serverCertification) : Bool :=
  if x.Entry.Type_ = "scheduler" ∧ y.Entry.Type_ = "kubelet" then true
  else if x.Entry.Type_ = "kubelet" ∧ y.Entry.Type_ = "scheduler" then false
  else if strLt x.Entry.Type_ y.Entry.Type_ then true
  else if strLt y.Entry.Type_ x.Entry.Type_ then false
  else if strLt x.Entry.Node y.Entry.Node then true
  else if strLt y.Entry.Node x.Entry.Node then false
  else strLt x.Entry.Name y.Entry.Name

/-- The inner loop of the library's insertion sort: the new element `x` moves towards the
front past every element it is less than.  The sorted part is given last element first. -/
def insertBack {α : Type} (lt : α → α → Bool) (x : α) : List α → List α
  | [] => [x]
  | y :: ys => if lt x y then y :: insertBack lt x ys else x :: y :: ys

/-- Library `sort.Slice`, modelled by the insertion sort the library runs on short slices.
The theorems on it use only that the result is a permutation of the input in which no
element is less than an earlier one, which is what `sort.Slice` gives for every `less`
that is a strict weak order. -/
def sortSlice {α : Type} (lt : α → α → Bool) (l : List α) : List α :=
  (l.foldl (fun sorted x => insertBack lt x sorted) []).reverse

/-- The rows of the report (check_cert.go:621-649): the collected rows after the sort. -/
def reportRows (serverCertifications : List serverCertification) : List serverCertification :=
  sortSlice less serverCertifications

/-- Ascending lexicographic order of the triples (type, node, name), equality included. -/
def tripleLe (x y : serverCertification) : Bool :=
  strLt x.Entry.Type_ y.Entry.Type_
    || (x.Entry.Type_ == y.Entry.Type_
        && (strLt x.Entry.Node y.Entry.Node
            || (x.Entry.Node == y.Entry.Node && !strLt y.Entry.Name x.Entry.Name)))

/-- The order the report is claimed to have, for a row `x` that comes before a row `y`: a
kubelet row does not come before a scheduler row, and unless the pair is a scheduler row
before a kubelet row, the triples (type, node, name) are in ascending order. -/
def rowsInOrder (x y : serverCertification) : Bool :=
  !(x.Entry.Type_ == "kubelet" && y.Entry.Type_ == "scheduler")
    && ((x.Entry.Type_ == "scheduler" && y.Entry.Type_ == "kubelet") || tripleLe x y)

/-- The order of the report: every pair of rows, in the order they appear, is in order. -/
def ReportOrder (rows : List serverCertification) : Prop :=
  rows.Pairwise (fun x y => rowsInOrder x y = true)

/-- A type that does not sort strictly between `kubelet` and `scheduler`. -/
def OutsideGap (t : String) : Prop := ¬ (strLt "kubelet" t = true ∧ strLt t "scheduler" = true)

/-- The type under which the comparison of two rows is the plain lexicographic one:
`kubelet` and `scheduler` exchanged. -/
def sortType (t : String) : String :=
  if t = "kubelet" then "scheduler" else if t = "scheduler" then "kubelet" else t

/-- A row with the given type, node and name, the other fields zero. -/
def rowOf (type node name : String) : serverCertification :=
  ⟨⟨type, node, name, 0, Time.zero, ""⟩, ""⟩

instance ReportOrder.decidable : DecidablePred ReportOrder :=
  fun rows => inferInstanceAs (Decidable (rows.Pairwise (fun x y => rowsInOrder x y = true)))

/-- The key of a row: its type with `kubelet` and `scheduler` exchanged, then node, then
name, ordered lexicographically. -/
def sortKey (x : serverCertification) : Lex (String × Lex (String × String)) :=
  toLex (sortType x.Entry.Type_, toLex (x.Entry.Node, x.Entry.Name))

instance OutsideGap.decidable : DecidablePred OutsideGap :=
  fun t => inferInstanceAs (Decidable (¬ (strLt "kubelet" t = true ∧ strLt t "scheduler" = true)))

/-- The triple (type, node, name) of a row, ordered lexicographically. -/
def tripleKey (x : serverCertification) : Lex (String × Lex (String × String)) :=
  toLex (x.Entry.Type_, toLex (x.Entry.Node, x.Entry.Name))

end CheckCert

/-! ## Library `encoding/json` and `time`: reading a document -/

namespace GoLib

/-- A JSON value as the scanner of `encoding/json` reads it; a number is kept as its
literal, the form in which the decoder converts it. -/
inductive Json where
  | null : Json
  | bool (b : Bool) : Json
  | num (literal : List Char) : Json
  | str (s : String) : Json
  | arr (items : List Json) : Json
  | obj (members : List (String × Json)) : Json

/-- Removal of leading JSON white space: space, tab, carriage return, line feed. -/
def skipWs : List Char → List Char
  | [] => []
  | c :: cs => if c = ' ' ∨ c = '\t' ∨ c = '\r' ∨ c = '\n' then skipWs cs else c :: cs

/-- The value of a hexadecimal digit. -/
def hexVal (c : Char) : Option Nat :=
  if '0' ≤ c ∧ c ≤ '9' then some (c.toNat - 48)
  else if 'a' ≤ c ∧ c ≤ 'f' then some (c.toNat - 87)
  else if 'A' ≤ c ∧ c ≤ 'F' then some (c.toNat - 55)
  else none

/-- The code unit written by four hexadecimal digits. -/
def hex4 (a b c d : Char) : Option Nat :=
  match hexVal a, hexVal b, hexVal c, hexVal d with
  | some x, some y, some z, some w => some (((x * 16 + y) * 16 + z) * 16 + w)
  | _, _, _, _ => none

/-- Whether a text starts with a `\u` escape: its code unit and what follows it. -/
def unicodeEscape : List Char → Option (Nat × List Char)
  | '\\' :: 'u' :: a :: b :: c :: d :: rest => (hex4 a b c d).map (fun n => (n, rest))
  | _ => none

/-- One step of `parseString` on a non-empty text, `rec` reading what follows: the closing
quote ends the string, a backslash starts an escape, a raw control character is an error. -/
def stringStep (rec : List Char → Option (List Char × List Char)) (c : Char)
    (rest : List Char) : Option (List Char × List Char) :=
  if c = '"' then some ([], rest)
  else if c = '\\' then
    match rest with
    | [] => none
    | e :: rest1 =>
      let put (x : Char) := (rec rest1).map (fun r => (x :: r.1, r.2))
      if e = '"' then put '"'
      else if e = '\\' then put '\\'
      else if e = '/' then put '/'
      else if e = 'b' then put (Char.ofNat 8)
      else if e = 'f' then put (Char.ofNat 12)
      else if e = 'n' then put '\n'
      else if e = 'r' then put '\r'
      else if e = 't' then put '\t'
      else if e = 'u' then
        match unicodeEscape (c :: rest) with
        | none => none
        | some (n, rest2) =>
          if 0xD800 ≤ n ∧ n < 0xE000 then
            match unicodeEscape rest2 with
            | some (m, rest3) =>
              if n < 0xDC00 ∧ 0xDC00 ≤ m ∧ m < 0xE000 then
                (rec rest3).map (fun r =>
                  (Char.ofNat ((n - 0xD800) * 0x400 + (m - 0xDC00) + 0x10000) :: r.1, r.2))
              else (rec rest2).map (fun r => (Char.ofNat 0xFFFD :: r.1, r.2))
            | none => (rec rest2).map (fun r => (Char.ofNat 0xFFFD :: r.1, r.2))
          else (rec rest2).map (fun r => (Char.ofNat n :: r.1, r.2))
      else none
  else if c.toNat < 32 then none
  else (rec rest).map (fun r => (c :: r.1, r.2))

/-- Worker of `parseString`; the first argument bounds the number of steps. -/
def parseStringAux : Nat → List Char → Option (List Char × List Char)
  | 0, _ => none
  | _ + 1, [] => none
  | fuel + 1, c :: rest => stringStep (parseStringAux fuel) c rest

/-- The rest of a JSON string after its opening quote: the decoded characters and what
follows the closing quote.  A raw control character and an unknown escape are errors; a
surrogate escape that is not the first half of a valid pair decodes to U+FFFD.  Every step
reads a character, so the length of the text is enough steps (`parseStringAux_stable`). -/
def parseString (cs : List Char) : Option (List Char × List Char) :=
  parseStringAux cs.length cs

/-- The leading decimal digits of a text and what follows them. -/
def spanDigits : List Char → List Char × List Char
  | [] => ([], [])
  | c :: cs =>
    if c.isDigit then ((spanDigits cs).1.cons c, (spanDigits cs).2) else ([], c :: cs)

/-- The optional exponent of a JSON number. -/
def parseExponent (lit rest : List Char) : Option (List Char × List Char) :=
  match rest with
  | e :: r =>
    if e = 'e' ∨ e = 'E' then
      match r with
      | s :: r2 =>
        if s = '+' ∨ s = '-' then
          match spanDigits r2 with
          | ([], _) => none
          | (ds, r3) => some (lit ++ e :: s :: ds, r3)
        else
          match spanDigits r with
          | ([], _) => none
          | (ds, r3) => some (lit ++ e :: ds, r3)
      | [] => none
    else some (lit, rest)
  | [] => some (lit, rest)

/-- The optional fraction of a JSON number, then its exponent. -/
def parseFraction (lit rest : List Char) : Option (List Char × List Char) :=
  match rest with
  | '.' :: r =>
    match spanDigits r with
    | ([], _) => none
    | (ds, r2) => parseExponent (lit ++ '.' :: ds) r2
  | _ => parseExponent lit rest

/-- The digits of a JSON number after its sign, then its fraction and exponent: a single
zero, or digits that start with another digit. -/
def numberBody (sign : List Char) : List Char → Option (List Char × List Char)
  | '0' :: r => parseFraction (sign ++ ['0']) r
  | c :: r =>
    if c.isDigit then parseFraction (sign ++ c :: (spanDigits r).1) (spanDigits r).2 else none
  | [] => none

/-- A JSON number: its literal and what follows it. -/
def parseNumber : List Char → Option (List Char × List Char)
  | '-' :: r => numberBody ['-'] r
  | cs => numberBody [] cs

/-- What follows the character `close` when the text starts with it. -/
def closes (close : Char) : List Char → Option (List Char)
  | [] => none
  | c :: r => if c = close then some r else none

/-- One JSON value, with the white space before it, and what follows it; `members` and
`elements` read the inside of a non-empty object and of a non-empty array. -/
def valueStep (members : List Char → Option (List (String × Json) × List Char))
    (elements : List Char → Option (List Json × List Char)) (cs : List Char) :
    Option (Json × List Char) :=
  match skipWs cs with
  | [] => none
  | c :: r =>
    if c = '{' then
      match closes '}' (skipWs r) with
      | some r2 => some (.obj [], r2)
      | none => (members (skipWs r)).map (fun p => (.obj p.1, p.2))
    else if c = '[' then
      match closes ']' (skipWs r) with
      | some r2 => some (.arr [], r2)
      | none => (elements (skipWs r)).map (fun p => (.arr p.1, p.2))
    else if c = '"' then (parseString r).map (fun p => (.str (String.mk p.1), p.2))
    else if startsWith ['t', 'r', 'u', 'e'] (c :: r) then some (.bool true, r.drop 3)
    else if startsWith ['f', 'a', 'l', 's', 'e'] (c :: r) then some (.bool false, r.drop 4)
    else if startsWith ['n', 'u', 'l', 'l'] (c :: r) then some (.null, r.drop 3)
    else (parseNumber (c :: r)).map (fun p => (.num p.1, p.2))

/-- The elements of a non-empty array up to its closing bracket; `value` reads one value
and `elements` the elements after a comma. -/
def elementsStep (value : List Char → Option (Json × List Char))
    (elements : List Char → Option (List Json × List Char)) (cs : List Char) :
    Option (List Json × List Char) :=
  match value cs with
  | none => none
  | some (v, r) =>
    match closes ',' (skipWs r) with
    | some r2 => (elements r2).map (fun p => (v :: p.1, p.2))
    | none =>
      match closes ']' (skipWs r) with
      | some r2 => some ([v], r2)
      | none => none

/-- The members of a non-empty object up to its closing brace; `value` reads one value and
`members` the members after a comma. -/
def membersStep (value : List Char → Option (Json × List Char))
    (members : List Char → Option (List (String × Json) × List Char)) (cs : List Char) :
    Option (List (String × Json) × List Char) :=
  match closes '"' (skipWs cs) with
  | none => none
  | some r =>
    match parseString r with
    | none => none
    | some (k, r1) =>
      match closes ':' (skipWs r1) with
      | none => none
      | some r2 =>
        match value r2 with
        | none => none
        | some (v, r3) =>
          match closes ',' (skipWs r3) with
          | some r4 => (members r4).map (fun p => ((String.mk k, v) :: p.1, p.2))
          | none =>
            match closes '}' (skipWs r3) with
            | some r4 => some ([(String.mk k, v)], r4)
            | none => none

mutual

/-- One JSON value; the first argument bounds the number of nested calls. -/
def parseValue : Nat → List Char → Option (Json × List Char)
  | 0, _ => none
  | fuel + 1, cs => valueStep (parseMembers fuel) (parseElements fuel) cs

/-- The elements of a non-empty array; the first argument bounds the nested calls. -/
def parseElements : Nat → List Char → Option (List Json × List Char)
  | 0, _ => none
  | fuel + 1, cs => elementsStep (parseValue fuel) (parseElements fuel) cs

/-- The members of a non-empty object; the first argument bounds the nested calls. -/
def parseMembers : Nat → List Char → Option (List (String × Json) × List Char)
  | 0, _ => none
  | fuel + 1, cs => membersStep (parseValue fuel) (parseMembers fuel) cs

end

/-- A whole JSON document: one value, white space allowed around it, nothing after it.
Twice the length of the text bounds the nested calls: with more the result is the same
(`parseValue_stable`). -/
def parseJson (s : String) : Option Json :=
  match parseValue (2 * s.length + 1) s.toList with
  | some (v, rest) => if skipWs rest = [] then some v else none
  | none => none

/-- The value of a text of decimal digits, `none` when it has another character. -/
def digitsVal : List Char → Nat → Option Nat
  | [], acc => some acc
  | c :: cs, acc => if c.isDigit then digitsVal cs (acc * 10 + (c.toNat - 48)) else none

/-- Conversion of a JSON number literal to a Go `int` (`strconv.ParseInt` in base 10 on 64
bits): an optional minus sign and digits only, within range. -/
def parseInt (lit : List Char) : Option Int :=
  match lit with
  | [] => none
  | '-' :: ds =>
    match ds, digitsVal ds 0 with
    | _ :: _, some n => if n ≤ 2 ^ 63 then some (-(n : Int)) else none
    | _, _ => none
  | ds =>
    match digitsVal ds 0 with
    | some n => if n < 2 ^ 63 then some (n : Int) else none
    | none => none

/-- The folding `encoding/json` applies to a key before comparing it with a field name:
ASCII upper case to lower case, and the two characters that fold to `s` and `k`. -/
def foldChar (c : Char) : Char :=
  if 'A' ≤ c ∧ c ≤ 'Z' then Char.ofNat (c.toNat + 32)
  else if c = Char.ofNat 0x17F then 's'
  else if c = Char.ofNat 0x212A then 'k'
  else c

/-- Whether the key of a JSON member selects the struct field tagged `name`. -/
def keyMatches (name key : String) : Bool :=
  key.toList.map foldChar == name.toList.map foldChar

end GoLib

namespace CheckCert

open GoLib

/-- The value of two decimal digits. -/
def twoDigits (a b : Char) : Option Nat :=
  if a.isDigit ∧ b.isDigit then some ((a.toNat - 48) * 10 + (b.toNat - 48)) else none

/-- Whether a year is a leap year. -/
def isLeap (year : Int) : Bool := year % 4 = 0 && (year % 100 != 0 || year % 400 = 0)

/-- The number of days of a month. -/
def daysIn (year : Int) (month : Nat) : Nat :=
  if month = 2 then (if isLeap year then 29 else 28)
  else if month = 4 ∨ month = 6 ∨ month = 9 ∨ month = 11 then 30
  else 31

/-- The nanoseconds written by the digits of a fraction of a second: the first nine digits,
completed with zeros. -/
def fracNanos (ds : List Char) : Nat :=
  ((ds.take 9 ++ List.replicate (9 - ds.length) '0').foldl
    (fun acc c => acc * 10 + (c.toNat - 48)) 0)

/-- The zone of an RFC 3339 timestamp, which ends the text: `Z`, or a sign, hours and
minutes; the offset in seconds east of UTC. -/
def parseZone : List Char → Option Int
  | ['Z'] => some 0
  | [sg, h1, h2, ':', m1, m2] =>
    match twoDigits h1 h2, twoDigits m1 m2 with
    | some hh, some mm =>
      if hh < 24 ∧ mm < 60 then
        if sg = '+' then some ((hh * 3600 + mm * 60 : Nat) : Int)
        else if sg = '-' then some (-((hh * 3600 + mm * 60 : Nat) : Int))
        else none
      else none
    | _, _ => none
  | _ => none

/-- Library `time.Time.UnmarshalJSON` on the content of a JSON string: a timestamp in the
RFC 3339 form `YYYY-MM-DDTHH:MM:SS[.fraction](Z|±HH:MM)` with fields in range. -/
def parseRFC3339 (s : String) : Option Time :=
  match s.toList with
  | y1 :: y2 :: y3 :: y4 :: '-' :: mo1 :: mo2 :: '-' :: d1 :: d2 :: 'T' :: h1 :: h2 :: ':'
      :: mi1 :: mi2 :: ':' :: s1 :: s2 :: rest =>
    match twoDigits y1 y2, twoDigits y3 y4, twoDigits mo1 mo2, twoDigits d1 d2,
        twoDigits h1 h2, twoDigits mi1 mi2, twoDigits s1 s2 with
    | some yh, some yl, some mo, some d, some h, some mi, some sec =>
      let year : Int := ((yh * 100 + yl : Nat) : Int)
      if 1 ≤ mo ∧ mo ≤ 12 ∧ 1 ≤ d ∧ d ≤ daysIn year mo ∧ h < 24 ∧ mi < 60 ∧ sec < 60 then
        match rest with
        | '.' :: r =>
          match spanDigits r with
          | ([], _) => none
          | (ds, r2) => (parseZone r2).map (fun off => ⟨year, mo, d, h, mi, sec, fracNanos ds, off⟩)
        | r => (parseZone r).map (fun off => ⟨year, mo, d, h, mi, sec, 0, off⟩)
      else none
    | _, _, _, _, _, _, _ => none
  | _ => none

/-- The zero value of `Entry`. -/
def Entry.zero : Entry := ⟨"", "", "", 0, Time.zero, ""⟩

/-- Decoding of a JSON value into a string field: a string is stored, `null` leaves the
field as it is, anything else is an error. -/
def decodeString (v : Json) (old : String) : Option String :=
  match v with
  | .str s => some s
  | .null => some old
  | _ => none

/-- Decoding of one member of a JSON object into the field of `Entry` its key selects; a
member that selects no field is skipped. -/
def decodeEntryMember (e : Entry) (m : String × Json) : Option Entry :=
  if keyMatches "type" m.1 then (decodeString m.2 e.Type_).map (fun s => { e with Type_ := s })
  else if keyMatches "node" m.1 then (decodeString m.2 e.Node).map (fun s => { e with Node := s })
  else if keyMatches "name" m.1 then (decodeString m.2 e.Name).map (fun s => { e with Name := s })
  else if keyMatches "days" m.1 then
    match m.2 with
    | .num lit => (parseInt lit).map (fun n => { e with Days := n })
    | .null => some e
    | _ => none
  else if keyMatches "due" m.1 then
    match m.2 with
    | .str s => (parseRFC3339 s).map (fun t => { e with Due := t })
    | .null => some e
    | _ => none
  else if keyMatches "path" m.1 then (decodeString m.2 e.Path).map (fun s => { e with Path := s })
  else some e

/-- Decoding of the members of a JSON object into an `Entry`, in the order of the text. -/
def decodeEntryMembers : List (String × Json) → Entry → Option Entry
  | [], e => some e
  | m :: ms, e =>
    match decodeEntryMember e m with
    | some e2 => decodeEntryMembers ms e2
    | none => none

/-- Decoding of a JSON value into a fresh `Entry`: an object fills the fields, `null` leaves
the zero value, anything else is an error. -/
def decodeEntry (v : Json) : Option Entry :=
  match v with
  | .obj ms => decodeEntryMembers ms Entry.zero
  | .null => some Entry.zero
  | _ => none

/-- Decoding of the elements of a JSON array into entries. -/
def decodeEntryList : List Json → Option (List Entry)
  | [] => some []
  | v :: vs =>
    match decodeEntry v, decodeEntryList vs with
    | some e, some es => some (e :: es)
    | _, _ => none

/-- Decoding of the members of the top-level object into `Output`: a member whose key
selects the field `entry` must be an array of entries or `null`, the others are skipped. -/
def decodeOutputMembers : List (String × Json) → Output → Option Output
  | [], o => some o
  | m :: ms, o =>
    if keyMatches "entry" m.1 then
      match m.2 with
      | .arr vs =>
        match decodeEntryList vs with
        | some es => decodeOutputMembers ms ⟨es⟩
        | none => none
      | .null => decodeOutputMembers ms ⟨[]⟩
      | _ => none
    else decodeOutputMembers ms o

/-- Library `json.Unmarshal` into an `Output`: the text must be a JSON document, and the
document an object (whose members are decoded) or `null` (which leaves the zero value). -/
def unmarshalOutput (s : String) : Option Output :=
  match parseJson s with
  | some (.obj ms) => decodeOutputMembers ms ⟨[]⟩
  | some .null => some ⟨[]⟩
  | _ => none

/-- The function `isJSON` (check_cert.go:137): the decoded value and whether
`json.Unmarshal` returned no error.  After an error the callers do not read the value,
given here as the zero value. -/
def isJSON (s : String) : Output × Bool :=
  match unmarshalOutput s with
  | some o => (o, true)
  | none => (⟨[]⟩, false)

/-- What the remote stream of `ExecPod` can do: the executor cannot be built, the stream
fails, or the stream ends with the captured standard output and standard error. -/
inductive StreamOutcome where
  | executorError (url : String) (msg : String) : StreamOutcome
  | streamError (msg : String) : StreamOutcome
  | done (stdout : String) (stderr : String) : StreamOutcome

/-- The function `ExecPod` (check_cert.go:656-694) on the outcome of the remote stream: the
returned text and the returned error (`none` for `nil`).  On an error the text is empty. -/
def ExecPod (command : List String) (outcome : StreamOutcome) : String × Option String :=
  match outcome with
  | .executorError url msg => ("", some (url ++ ": " ++ msg))
  | .streamError msg => ("", some (stringsJoin command " " ++ ": " ++ msg))
  | .done stdout _ => (stdout, none)

/-- The retry loop of the agent worker (check_cert.go:559-570) from attempt `i` on, with
`n` attempts left: the values of `command` and `err` after the loop.  `outcomes i` is the
outcome of the remote stream at attempt `i`. -/
def retryLoop (outcomes : Nat → StreamOutcome) :
    Nat → Nat → String × Option String → String × Option String
  | 0, _, state => state
  | n + 1, i, _ =>
    let r := ExecPod ["krawler"] (outcomes i)
    if r.2 = none then r else retryLoop outcomes n (i + 1) r

/-- The agent worker (check_cert.go:550-600) for one agent pod on node `nodeName`: the rows
it sends on the channel, in order.  `checkKubeletWithCA` is the value of the shared boolean
when the worker reads it, `now` the value of `time.Now()`, `err` the value of the shared
variable `err` before the loop. -/
def agentWorker (checkKubeletWithCA : Bool) (nodeName : String) (now : Time)
    (err : Option String) (outcomes : Nat → StreamOutcome) : List serverCertification :=
  let command := (retryLoop outcomes 5 1 ("", err)).1
  if (isJSON command).2 then
    (isJSON command).1.Entries.map (fun v =>
      ⟨v, if v.Name = "server-cert" ∧ checkKubeletWithCA = false then "Can be ignored this."
          else ""⟩)
  else
    [⟨⟨"kubelet", nodeName, "Error", 0, now, ""⟩, command⟩]

end CheckCert

/-! ## Library `time` and float64 arithmetic: the days left -/

namespace GoLib

/-- Rounding of a rational to the nearest integer, a tie going to the even one. -/
def roundHalfEven (x : ℚ) : ℤ :=
  if x - ⌊x⌋ < 1 / 2 then ⌊x⌋
  else if 1 / 2 < x - ⌊x⌋ then ⌊x⌋ + 1
  else if ⌊x⌋ % 2 = 0 then ⌊x⌋
  else ⌊x⌋ + 1

/-- Rounding of a positive rational to a significand of 53 binary digits: with `e` the
binary exponent of `x`, the nearest multiple of `2 ^ (e - 52)`, ties to even. -/
def roundPos (x : ℚ) : ℚ :=
  (roundHalfEven (x / 2 ^ (Int.log 2 x - 52)) : ℚ) * 2 ^ (Int.log 2 x - 52)

/-- The float64 nearest to a rational (IEEE 754 round to nearest, ties to even), for values
in the range of the normal numbers, which is where the durations handled here lie. -/
def float64 (x : ℚ) : ℚ :=
  if x = 0 then 0 else if 0 < x then roundPos x else - roundPos (-x)

/-- Go conversion `int(f)` of a float64: the fraction is discarded (truncation towards
zero). -/
def truncToInt (x : ℚ) : ℤ := if 0 ≤ x then ⌊x⌋ else ⌈x⌉

/-- Library constant `time.Hour`, in nanoseconds. -/
def Hour : Int := 60 * 60 * 1000000000

/-- Library `Duration.Hours`: `float64(d / Hour) + float64(d % Hour) / (60 * 60 * 1e9)`, the
integer division and remainder truncating towards zero, each float64 operation rounded. -/
def durationHours (d : Int) : ℚ :=
  float64 (float64 (Int.tdiv d Hour) + float64 (float64 (Int.tmod d Hour) / 3600000000000))

/-- The smallest `Duration`. -/
def minDuration : Int := - 2 ^ 63
/-- The largest `Duration`. -/
def maxDuration : Int := 2 ^ 63 - 1

end GoLib

namespace CheckCert

open GoLib

/-- The number of days from 1970-01-01 to a date of the proleptic Gregorian calendar. -/
def daysFromCivil (year : Int) (month day : Nat) : Int :=
  let y : Int := if month ≤ 2 then year - 1 else year
  let era : Int := y / 400
  let yoe : Int := y - era * 400
  let mp : Int := if month ≤ 2 then (month : Int) + 9 else (month : Int) - 3
  let doy : Int := (153 * mp + 2) / 5 + (day : Int) - 1
  let doe : Int := yoe * 365 + yoe / 4 - yoe / 100 + doy
  era * 146097 + doe - 719468

/-- The instant of a `Time`, in nanoseconds since 1970-01-01T00:00:00Z. -/
def Time.unixNano (t : Time) : Int :=
  ((daysFromCivil t.year t.month t.day * 86400 + (t.hour : Int) * 3600 + (t.minute : Int) * 60
    + (t.second : Int) - t.offset) * 1000000000) + (t.nsec : Int)

/-- Library `Time.Sub`: the duration `t - u` in nanoseconds, the smallest or largest
`Duration` when the difference does not fit. -/
def Time.Sub (t u : Time) : Int :=
  if t.unixNano - u.unixNano < minDuration then minDuration
  else if maxDuration < t.unixNano - u.unixNano then maxDuration
  else t.unixNano - u.unixNano

/-- The expression `int(c.NotAfter.Sub(timeNow).Hours() / 24)` (check_cert.go:708,
krawler.go:210) on the duration `d = c.NotAfter.Sub(timeNow)`. -/
def expiresIn (d : Int) : Int := truncToInt (float64 (durationHours d / 24))

/-- What `pem.Decode` followed by `x509.ParseCertificate` make of a certificate text: no
PEM block, a block that is not a certificate (with the error text of the parser), or a
certificate, of which only `NotAfter` is used. -/
inductive CertParse where
  | noBlock : CertParse
  | invalid (msg : String) : CertParse
  | cert (notAfter : Time) : CertParse

/-- The function `GetDateAndDaysFromCert` (check_cert.go:697-711): the date, the days and
the error (`none` for `nil`).  `parse` stands for the two library decoders and `timeNow`
for `time.Now()`. -/
def GetDateAndDaysFromCert (parse : String → CertParse) (timeNow : Time) (cert : String) :
    Time × Int × Option String :=
  match parse cert with
  | .noBlock => (Time.zero, 0, some "failed to parse certificate PEM")
  | .invalid msg => (Time.zero, 0, some ("failed to parse certificate: " ++ msg))
  | .cert notAfter => (notAfter, expiresIn (notAfter.Sub timeNow), none)

/-- The days the specification states: the exact quotient of `notAfter - now` by 24 hours,
rounded down. -/
def specDays (notAfter now : Time) : Int :=
  Int.fdiv (notAfter.unixNano - now.unixNano) (24 * Hour)

end CheckCert

namespace Krawler

open GoLib

/-- The agent's `GetDateAndDaysFromCert` (krawler.go:198-213): the date and the days, with
the same expression for the days as the orchestrator's; `none` when the certificate does
not parse and the program exits. -/
def GetDateAndDaysFromCert (parse : String → CheckCert.CertParse) (timeNow : CheckCert.Time)
    (cert : String) : Option (CheckCert.Time × Int) :=
  match parse cert with
  | .cert notAfter => some (notAfter, CheckCert.expiresIn (notAfter.Sub timeNow))
  | _ => none

end Krawler

/-! ## The orchestrator: the control-plane workers -/

namespace CheckCert

open GoLib

/-- The certificate flags of the api-server (check_cert.go:67). -/
def certOptions : List String :=
  ["etcd-certfile", "tls-cert-file", "kubelet-client-certificate", "proxy-client-cert-file"]

/-- The constant `kubeletCAFlag` (check_cert.go:43). -/
def kubeletCAFlag : String := "kubelet-certificate-authority"

/-- Modelled from the spec: the constant `kubeConfigFlag` of package `cmd` is declared in a
file that is not among the sources; the spec names the flag `--kubeconfig`, and the agent
declares the constant of the same name as `kubeconfig` (agent/type.go:11). -/
def kubeConfigFlag : String := "kubeconfig"

/-- What a worker reads of its pod: the node name and the command of the first container. -/
structure Pod where
  NodeName : String
  Command : List String
  deriving DecidableEq, Repr

/-- What a worker goroutine did: the rows it sent on the channel, in order, whether it set
the shared boolean `checkKubeletWithCA`, and whether it stopped in a run-time panic (an
index out of range, a call on a `nil` value), which ends the program. -/
structure WorkerRun where
  rows : List serverCertification
  setCA : Bool
  panicked : Bool
  deriving DecidableEq, Repr

/-- The test and the slice of check_cert.go:312-313: for an argument that begins with `--`,
the pieces of `strings.Split(c[2:], "=")`; `none` for another argument. -/
def optionPieces (c : String) : Option (List String) :=
  if startsWith ['-', '-'] c.toList then some (stringsSplit (String.mk (c.toList.drop 2)) "=")
  else none

/-- The body of check_cert.go:321-355 for the certificate flag `name` with the value
`path`: the rows sent and whether the body panicked.  `exec` gives the outcome of the remote
stream for a command run in the pod.  The error of `ExecPod` is the variable `err` of line
321; line 326 declares another `err` inside the `else` block, so that the `err` read at
line 353 is `nil` whenever the file could be read, and `err.Error()` panics. -/
def apiServerCert (parse : String → CertParse) (now : Time)
    (exec : List String → StreamOutcome) (node name path : String) :
    List serverCertification × Bool :=
  let r := ExecPod ["cat", path] (exec ["cat", path])
  match r.2 with
  | some e =>
    if e ≠ "" then ([⟨⟨"apiserver", node, name, 0, Time.zero, path⟩, e⟩], false)
    else ([], false)
  | none =>
    match GetDateAndDaysFromCert parse now r.1 with
    | (date, days, none) => ([⟨⟨"apiserver", node, name, days, date, path⟩, ""⟩], false)
    | (_, _, some e) => if e ≠ "" then ([], true) else ([], false)

/-- One turn of the loop over `certOptions` (check_cert.go:319-357) for the pieces `s` of an
argument: when `co` is `s[0]`, the value `s[1]` is read, which panics when the argument has
no `=`. -/
def apiServerOption (parse : String → CertParse) (now : Time)
    (exec : List String → StreamOutcome) (node : String) (s : List String)
    (run : WorkerRun) (co : String) : WorkerRun :=
  if run.panicked then run
  else if co = s.headD "" then
    match s[1]? with
    | none => ⟨run.rows, run.setCA, true⟩
    | some path =>
      let r := apiServerCert parse now exec node (s.headD "") path
      ⟨run.rows ++ r.1, run.setCA, r.2⟩
  else run

/-- One turn of the loop over the command of the api-server (check_cert.go:310-359): the
condition of line 314 reads `s[1]` when `s[0]` is `kubeletCAFlag`. -/
def apiServerArg (parse : String → CertParse) (now : Time)
    (exec : List String → StreamOutcome) (node : String) (run : WorkerRun) (c : String) :
    WorkerRun :=
  if run.panicked then run
  else
    match optionPieces c with
    | none => run
    | some s =>
      if s.headD "" = kubeletCAFlag then
        match s[1]? with
        | none => ⟨run.rows, run.setCA, true⟩
        | some v =>
          certOptions.foldl (apiServerOption parse now exec node s)
            ⟨run.rows, run.setCA || v != "", false⟩
      else certOptions.foldl (apiServerOption parse now exec node s) run

/-- The api-server worker (check_cert.go:306-364) for one pod.  `now` is the reading of the
clock, taken as the same at each certificate. -/
def apiServerWorker (parse : String → CertParse) (now : Time)
    (exec : List String → StreamOutcome) (p : Pod) : WorkerRun :=
  p.Command.foldl (apiServerArg parse now exec p.NodeName) ⟨[], false, false⟩

/-- Library `clientcmdapi.AuthInfo`: the two fields the workers read. -/
structure AuthInfo where
  ClientCertificateData : String
  ClientCertificate : String
  deriving DecidableEq, Repr

/-- Library `clientcmdapi.Config`: the current context, the map from a context name to the
`AuthInfo` field of the context, and the map from a user name to its `AuthInfo`.  Both
maps hold pointers: a name that is absent gives `nil`. -/
structure RawConfig where
  CurrentContext : String
  Contexts : List (String × String)
  AuthInfos : List (String × AuthInfo)
  deriving DecidableEq, Repr

/-- The body of check_cert.go:375-433 (and 451-509) for the value `path0` of the kubeconfig
flag: the rows sent and whether the body panicked.  `load` stands for the library
`clientcmd.NewClientConfigFromBytes` followed by `RawConfig`: on an error the first returns
a `nil` configuration, on which the call `cfg.RawConfig()` panics; on success `RawConfig`
returns a `nil` error.  The closure `errorResult` sends a row and returns to the body, which
goes on. -/
def kubeconfigBody (typ : String) (load : String → Except String RawConfig)
    (parse : String → CertParse) (now : Time) (exec : List String → StreamOutcome)
    (node path0 : String) : List serverCertification × Bool :=
  let errorResult (e : String) : serverCertification :=
    ⟨⟨typ, node, "client-cert", 0, Time.zero, "-"⟩, e⟩
  let final (rows : List serverCertification) (cert path : String) :
      List serverCertification × Bool :=
    let g := GetDateAndDaysFromCert parse now cert
    (rows ++ [⟨⟨typ, node, "client-cert", g.2.1, g.1, path⟩, ""⟩], false)
  let r := ExecPod ["cat", path0] (exec ["cat", path0])
  let rows1 := match r.2 with
    | some e => [errorResult e]
    | none => []
  match load r.1 with
  | .error e => (rows1 ++ [errorResult e], true)
  | .ok raw =>
    match raw.Contexts.lookup raw.CurrentContext with
    | none => (rows1, true)
    | some user =>
      match raw.AuthInfos.lookup user with
      | none => (rows1, true)
      | some u =>
        if u.ClientCertificateData ≠ "" then final rows1 u.ClientCertificateData path0
        else if u.ClientCertificate ≠ "" then
          let r2 := ExecPod ["cat", u.ClientCertificate] (exec ["cat", u.ClientCertificate])
          let rows2 := match r2.2 with
            | some e => rows1 ++ [errorResult e]
            | none => rows1
          final rows2 r2.1 u.ClientCertificate
        else (rows1, true)

/-- The loop over the command of a controller-manager or scheduler pod (check_cert.go:
369-435, 445-511): the first argument whose `s[0]` is `kubeConfigFlag` is handled, reading
`s[1]`, and ends the loop. -/
def kubeconfigScan (typ : String) (load : String → Except String RawConfig)
    (parse : String → CertParse) (now : Time) (exec : List String → StreamOutcome)
    (node : String) : List String → WorkerRun
  | [] => ⟨[], false, false⟩
  | c :: cs =>
    match optionPieces c with
    | none => kubeconfigScan typ load parse now exec node cs
    | some s =>
      if s.headD "" = kubeConfigFlag then
        match s[1]? with
        | none => ⟨[], false, true⟩
        | some path0 =>
          let r := kubeconfigBody typ load parse now exec node path0
          ⟨r.1, false, r.2⟩
      else kubeconfigScan typ load parse now exec node cs

/-- The controller-manager worker (check_cert.go:366-440) for one pod. -/
def controllerManagerWorker (load : String → Except String RawConfig)
    (parse : String → CertParse) (now : Time) (exec : List String → StreamOutcome)
    (p : Pod) : WorkerRun :=
  kubeconfigScan "controller-manager" load parse now exec p.NodeName p.Command

/-- The scheduler worker (check_cert.go:442-516) for one pod. -/
def schedulerWorker (load : String → Except String RawConfig)
    (parse : String → CertParse) (now : Time) (exec : List String → StreamOutcome)
    (p : Pod) : WorkerRun :=
  kubeconfigScan "scheduler" load parse now exec p.NodeName p.Command

/-- No argument of the list is an option whose name is `kubeConfigFlag`. -/
def NoKubeconfigFlag (cmd : List String) : Prop :=
  ∀ c ∈ cmd, ∀ s, optionPieces c = some s → s.headD "" ≠ kubeConfigFlag

instance (cmd : List String) : Decidable (NoKubeconfigFlag cmd) :=
  decidable_of_iff (∀ c ∈ cmd, (optionPieces c).all (fun s => s.headD "" ≠ kubeConfigFlag))
    (by
      unfold NoKubeconfigFlag
      constructor
      · intro h c hc s hs
        have := h c hc
        simpa [hs] using this
      · intro h c hc
        cases hs : optionPieces c with
        | none => simp
        | some s => simpa using h c hc s hs)

end CheckCert

/-! ## The agent: `main`, its entries -/

namespace Krawler

open GoLib

/-- The type `Entry` (type.go:38-45); `Days` is a Go `int`. -/
structure Entry where
  Type_ : String
  Node : String
  Name : String
  Days : Int
  Due : CheckCert.Time
  Path : String
  deriving DecidableEq, Repr

/-- The type `Output` (type.go:33-35), encoded under the JSON key `entry`. -/
structure Output where
  Entries : List Entry
  deriving DecidableEq, Repr

/-- The function `NewEntry` (type.go:48-57). -/
def NewEntry (node name : String) (days : Int) (due : CheckCert.Time) (path : String) : Entry :=
  ⟨entryType, node, name, days, due, path⟩

/-- What `main` reads of its surroundings: the environment variable `NODENAME`, the content
of the files (`none` for a file that cannot be read), the output of the shell command that
finds the process of the kubelet (`none` when it fails), the library decoders of YAML, of a
kubeconfig and of a certificate, and the clock. -/
structure Env where
  nodeName : String
  readFile : String → Option String
  pidOutput : Option String
  yaml : String → Option ConfigData
  load : String → Except String CheckCert.RawConfig
  parse : String → CheckCert.CertParse
  now : CheckCert.Time

/-- The function `ReadorDie` (krawler.go:239-247): the content of the file without the line
feeds at its ends; `none` when the program exits. -/
def ReadorDie (readFile : String → Option String) (fileName : String) : Option String :=
  (readFile fileName).map (fun body => stringsTrim body "\n")

/-- The function `Execute` (krawler.go:178-195) on the output of the command. -/
def Execute (output : Option String) : Option String :=
  output.map (fun out => stringsTrim out "\n")

/-- Lines 123-160 of `main`: the text and the path of the client certificate, from the
kubeconfig the flag names; `none` when the program exits or panics (no flag, a file that
cannot be read, a kubeconfig that does not decode or lacks the context or the user, a user
without certificate). -/
def clientCert (env : Env) (commands : Commands) : Option (String × String) :=
  match commands.lookup kubeConfigFlag with
  | none => none
  | some kubeConfigPath =>
    match ReadorDie env.readFile kubeConfigPath with
    | none => none
    | some text =>
      match env.load text with
      | .error _ => none
      | .ok rawConfig =>
        match rawConfig.Contexts.lookup rawConfig.CurrentContext with
        | none => none
        | some user =>
          match rawConfig.AuthInfos.lookup user with
          | none => none
          | some u =>
            if u.ClientCertificateData ≠ "" then some (u.ClientCertificateData, kubeConfigPath)
            else if u.ClientCertificate ≠ "" then
              (ReadorDie env.readFile (stringsTrim u.ClientCertificate "\n")).map
                (fun file => (file, u.ClientCertificate))
            else none

/-- The function `main` (krawler.go:25-166) up to the list of entries it encodes; `none` when
the program exits or panics before.  The content of `/etc/hostname` is read when `NODENAME`
is empty, and the value read is dropped. -/
def mainEntries (env : Env) : Option (List Entry) :=
  let hostName := env.nodeName
  match (if hostName = "" then ReadorDie env.readFile "/etc/hostname" else some "") with
  | none => none
  | some _ =>
    match Execute env.pidOutput with
    | none => none
    | some result =>
      match ReadorDie env.readFile ("/tmp/proc/" ++ result ++ "/cmdline") with
      | none => none
      | some cmdline =>
        let commands := GetCommandsFromCmdline cmdline
        let fileData : Option ConfigData :=
          match commands.lookup configFlag with
          | some configPath => (ReadorDie env.readFile configPath).bind env.yaml
          | none => some []
        match fileData with
        | none => none
        | some configData =>
          match kubeletServerCertPath commands configData with
          | none => none
          | some certPath =>
            match (ReadorDie env.readFile certPath).bind
                (GetDateAndDaysFromCert env.parse env.now) with
            | none => none
            | some (date, days) =>
              match (clientCert env commands).bind
                  (fun c => (GetDateAndDaysFromCert env.parse env.now c.1).map
                    (fun r => (r, c.2))) with
              | none => none
              | some ((date2, days2), path2) =>
                some [NewEntry hostName "server-cert" days date certPath,
                  NewEntry hostName "client-cert" days2 date2 path2]

/-- A node on which `NODENAME` is empty and `/etc/hostname` holds `worker-7`, with a kubelet
started with a kubeconfig that embeds its client certificate. -/
def sampleEnv : Env where
  nodeName := ""
  readFile := fun f =>
    if f = "/etc/hostname" then some "worker-7\n"
    else if f = "/tmp/proc/812/cmdline" then
      some "/usr/bin/kubelet\x00--kubeconfig=/etc/kubernetes/kubelet.conf\x00"
    else if f = "/var/lib/kubelet/pki/kubelet.crt" then some "SERVER PEM"
    else if f = "/etc/kubernetes/kubelet.conf" then some "KUBECONFIG"
    else none
  pidOutput := some "812\n"
  yaml := fun _ => none
  load := fun _ => .ok ⟨"ctx", [("ctx", "system:node:worker-7")],
    [("system:node:worker-7", ⟨"CLIENT PEM", ""⟩)]⟩
  parse := fun _ => .cert ⟨2030, 1, 1, 0, 0, 0, 0, 0⟩
  now := ⟨2026, 1, 1, 0, 0, 0, 0, 0⟩

end Krawler

/-! ## The shape of a kubelet command line -/

namespace Krawler

open GoLib

/-- The text has no two hyphens in a row. -/
def NoDashDash (l : List Char) : Prop := ¬ (['-', '-'] <:+: l)

/-- One part of a command line: a flag `--k=v` (or `--k` when `value` is `none`), followed
by `pad` NUL characters; the program name is such a part without value. -/
structure FlagToken where
  key : String
  value : Option String
  pad : Nat
  deriving DecidableEq, Repr

/-- The text of a part after its two hyphens. -/
def FlagToken.piece (t : FlagToken) : List Char :=
  t.key.toList
    ++ (match t.value with
        | some v => '=' :: v.toList
        | none => [])
    ++ List.replicate t.pad '\x00'

/-- The command line made of the program name and of the flags, each flag after two
hyphens: the form of `/proc/<pid>/cmdline` when every part is followed by one NUL, the
form of the string of `TestParsingFlag` (krawler_test.go:107) when none is. -/
def cmdlineOf (prog : FlagToken) (toks : List FlagToken) : String :=
  String.mk (prog.piece ++ (toks.map (fun t => '-' :: '-' :: t.piece)).flatten)

instance (l : List Char) : Decidable (NoDashDash l) :=
  inferInstanceAs (Decidable (¬ (['-', '-'] <:+: l)))

/-- The conditions on the value of a part, when it has one: no two hyphens in a row, no NUL
at its end, and no line feed at its ends. -/
def ValueOk : Option String → Prop
  | none => True
  | some v =>
    NoDashDash v.toList ∧ v.toList.getLast? ≠ some '\x00'
    ∧ v.toList.head? ≠ some '\n' ∧ v.toList.getLast? ≠ some '\n'

instance : (o : Option String) → Decidable (ValueOk o)
  | none => isTrue trivial
  | some v =>
    inferInstanceAs (Decidable (NoDashDash v.toList ∧ v.toList.getLast? ≠ some '\x00'
      ∧ v.toList.head? ≠ some '\n' ∧ v.toList.getLast? ≠ some '\n'))

/-- The conditions on a part: the key has no `=`, no two hyphens in a row, and no NUL at
its ends; the value is as `ValueOk` states. -/
def FlagToken.WellFormed (t : FlagToken) : Prop :=
  '=' ∉ t.key.toList ∧ NoDashDash t.key.toList
  ∧ t.key.toList.head? ≠ some '\x00' ∧ t.key.toList.getLast? ≠ some '\x00'
  ∧ ValueOk t.value

instance (t : FlagToken) : Decidable t.WellFormed :=
  inferInstanceAs (Decidable ('=' ∉ t.key.toList ∧ NoDashDash t.key.toList
    ∧ t.key.toList.head? ≠ some '\x00' ∧ t.key.toList.getLast? ≠ some '\x00'
    ∧ ValueOk t.value))

/-- The command line of a kubelet as `/proc/<pid>/cmdline` holds it: the program name. -/
def sampleProgram : FlagToken := ⟨"/usr/bin/kubelet", none, 1⟩

/-- The command line of a kubelet as `/proc/<pid>/cmdline` holds it: the flags. -/
def sampleFlags : List FlagToken :=
  [⟨"kubeconfig", some "/etc/kubernetes/kubelet.conf", 1⟩,
    ⟨"feature-gates", some "RotateKubeletServerCertificate=true", 1⟩,
    ⟨"rotate-certificates", none, 1⟩]

end Krawler

/-! ## The agent: the JSON document it prints -/

namespace GoLib

/-- The escape `encoding/json` writes for a character of a string, with the escaping of
HTML characters that `json.Encoder` applies: the quote and the backslash after a
backslash, the short escapes of line feed, carriage return and tab, `\u00xx` (lower-case
hexadecimal digits) for the other control characters and for the characters `<`, `>` and
`&`, `U+2028` and `U+2029`, and every other character as it is.  (Releases of the library
from 1.22 on write backspace and form feed as the escapes `\b` and `\f`, which decode to
the same characters.) -/
def escapeChar (c : Char) : List Char :=
  if c = '"' then ['\\', '"']
  else if c = '\\' then ['\\', '\\']
  else if c = '\n' then ['\\', 'n']
  else if c = '\r' then ['\\', 'r']
  else if c = '\t' then ['\\', 't']
  else if c.toNat < 32 ∨ c = '<' ∨ c = '>' ∨ c = '&' then
    ['\\', 'u', '0', '0', Nat.digitChar (c.toNat / 16), Nat.digitChar (c.toNat % 16)]
  else if c = Char.ofNat 0x2028 then ['\\', 'u', '2', '0', '2', '8']
  else if c = Char.ofNat 0x2029 then ['\\', 'u', '2', '0', '2', '9']
  else [c]

/-- The JSON string `encoding/json` writes for a text. -/
def encodeString (s : List Char) : List Char :=
  '"' :: (s.flatMap escapeChar ++ ['"'])

/-- Go `strconv.AppendInt` in base 10. -/
def formatInt (i : Int) : List Char :=
  if i < 0 then '-' :: Nat.toDigits 10 i.natAbs else Nat.toDigits 10 i.toNat

/-- The last `w` decimal digits of `n`, with leading zeros. -/
def padDigits : Nat → Nat → List Char
  | 0, _ => []
  | w + 1, n => padDigits w (n / 10) ++ [Nat.digitChar (n % 10)]

/-- Removal of the zeros at the end of a text of digits. -/
def stripZeros (l : List Char) : List Char :=
  (l.reverse.dropWhile (fun c => c = '0')).reverse

/-- One member of a JSON object as the encoder writes it: the key, which needs no escape,
between quotes, a colon, and the value. -/
def memberText (key : String) (value : List Char) : List Char :=
  '"' :: (key.toList ++ '"' :: ':' :: value)

end GoLib

namespace Krawler

open GoLib CheckCert

/-- The fraction of a second in the layout `RFC3339Nano`: nothing for zero nanoseconds,
else a point and the nine digits without the zeros at their end. -/
def renderFraction (nsec : Nat) : List Char :=
  if stripZeros (padDigits 9 nsec) = [] then [] else '.' :: stripZeros (padDigits 9 nsec)

/-- The zone in the layout `Z07:00`: `Z` for the offset zero, else the sign, the hours and
the minutes of the offset, whose seconds are dropped. -/
def renderZone (offset : Int) : List Char :=
  if offset = 0 then ['Z']
  else
    (if Int.tdiv offset 60 < 0 then '-' else '+')
      :: (padDigits 2 (offset.natAbs / 60 / 60) ++ ':' :: padDigits 2 (offset.natAbs / 60 % 60))

/-- Library `Time.Format(time.RFC3339Nano)` on a time whose year has four digits. -/
def renderTime (t : Time) : List Char :=
  padDigits 4 t.year.toNat ++ '-' :: (padDigits 2 t.month ++ '-' :: (padDigits 2 t.day
    ++ 'T' :: (padDigits 2 t.hour ++ ':' :: (padDigits 2 t.minute ++ ':' :: (padDigits 2 t.second
    ++ (renderFraction t.nsec ++ renderZone t.offset))))))

/-- Library `Time.MarshalJSON`: the time in the layout `RFC3339Nano` as a JSON string; an
error (`none`) for a year outside of the range 0 to 9999 and for a zone of 24 hours or
more. -/
def marshalTime (t : Time) : Option (List Char) :=
  if t.year < 0 ∨ 10000 ≤ t.year ∨ 24 ≤ t.offset.natAbs / 60 / 60 then none
  else some ('"' :: (renderTime t ++ ['"']))

/-- The JSON object `encoding/json` writes for an `Entry` whose time is written `due`: the
fields in the order of the declaration (type.go:38-45), under the keys of their tags. -/
def entryText (e : Entry) (due : List Char) : List Char :=
  '{' :: (memberText "type" (encodeString e.Type_.toList) ++ ',' ::
    (memberText "node" (encodeString e.Node.toList) ++ ',' ::
    (memberText "name" (encodeString e.Name.toList) ++ ',' ::
    (memberText "days" (formatInt e.Days) ++ ',' ::
    (memberText "due" due ++ ',' ::
    (memberText "path" (encodeString e.Path.toList) ++ ['}']))))))

/-- The encoding of an `Entry`, an error when its time cannot be encoded. -/
def encodeEntry (e : Entry) : Option (List Char) :=
  (marshalTime e.Due).map (entryText e)

/-- The elements of the array of entries, with commas between them. -/
def encodeEntries : List Entry → Option (List Char)
  | [] => some []
  | [e] => encodeEntry e
  | e :: es =>
    match encodeEntry e, encodeEntries es with
    | some a, some b => some (a ++ ',' :: b)
    | _, _ => none

/-- The document `json.NewEncoder(buffer).Encode(o)` writes (krawler.go:166-169): the
object with the member `entry`, followed by a line feed; `none` when the encoder returns an
error.  The list stands for a slice that is not `nil`, as `main` builds it; a `nil` slice
is written `null`. -/
def encodeOutput (o : Output) : Option String :=
  (encodeEntries o.Entries).map
    (fun body => String.mk ('{' :: (memberText "entry" ('[' :: (body ++ [']'])) ++ ['}', '\n'])))

/-- The function `main` (krawler.go:25-175): the text printed on the standard output when
the program ends without exit or panic. -/
def mainOutput (env : Env) : Option String :=
  (mainEntries env).bind (fun e => encodeOutput ⟨e⟩)

/-- The orchestrator's `Entry` with the fields of an agent's `Entry`. -/
def Entry.toRow (e : Entry) : CheckCert.Entry :=
  ⟨e.Type_, e.Node, e.Name, e.Days, e.Due, e.Path⟩

/-- What Go guarantees of a `time.Time` and of an `int`: a calendar date, a time of day,
and 64 bits. -/
def Entry.InRange (e : Entry) : Prop :=
  1 ≤ e.Due.month ∧ e.Due.month ≤ 12 ∧ 1 ≤ e.Due.day ∧ e.Due.day ≤ daysIn e.Due.year e.Due.month
  ∧ e.Due.hour < 24 ∧ e.Due.minute < 60 ∧ e.Due.second < 60 ∧ e.Due.nsec < 1000000000
  ∧ -2 ^ 63 ≤ e.Days ∧ e.Days < 2 ^ 63

/-- The times `Time.MarshalJSON` and `Time.UnmarshalJSON` carry without loss: a year from 0
to 9999 and a zone of whole minutes, less than 24 hours. -/
def Marshalable (t : Time) : Prop :=
  0 ≤ t.year ∧ t.year < 10000 ∧ t.offset % 60 = 0 ∧ t.offset.natAbs < 86400

/-- A character of the rendering of a time: a digit or one of its separators. -/
def TimeChar (c : Char) : Prop :=
  c.isDigit = true ∨ c = '-' ∨ c = ':' ∨ c = 'T' ∨ c = 'Z' ∨ c = '+' ∨ c = '.'

/-- The JSON value the reader makes of the encoding of an `Entry`. -/
def entryJson (e : Entry) : Json :=
  .obj [("type", .str e.Type_), ("node", .str e.Node), ("name", .str e.Name),
    ("days", .num (formatInt e.Days)), ("due", .str (String.mk (renderTime e.Due))),
    ("path", .str e.Path)]

instance (e : Entry) : Decidable e.InRange :=
  inferInstanceAs (Decidable (1 ≤ e.Due.month ∧ e.Due.month ≤ 12 ∧ 1 ≤ e.Due.day
    ∧ e.Due.day ≤ daysIn e.Due.year e.Due.month
    ∧ e.Due.hour < 24 ∧ e.Due.minute < 60 ∧ e.Due.second < 60 ∧ e.Due.nsec < 1000000000
    ∧ -2 ^ 63 ≤ e.Days ∧ e.Days < 2 ^ 63))

instance (t : Time) : Decidable (Marshalable t) :=
  inferInstanceAs (Decidable (0 ≤ t.year ∧ t.year < 10000 ∧ t.offset % 60 = 0
    ∧ t.offset.natAbs < 86400))

/-- Modelled from the spec: the object the claim describes for one entry, with the keys
`type`, `node`, `name`, `days`, `due`, `path` in that order, the type `kubelet`, and the
time in its RFC 3339 rendering. -/
def claimedEntry (e : Entry) : List Char :=
  "\x7b\"type\":\"kubelet\",\"node\":".toList ++ encodeString e.Node.toList
    ++ ",\"name\":".toList ++ encodeString e.Name.toList
    ++ ",\"days\":".toList ++ formatInt e.Days
    ++ ",\"due\":\"".toList ++ renderTime e.Due
    ++ "\",\"path\":".toList ++ encodeString e.Path.toList ++ "\x7d".toList

/-- Modelled from the spec: the single document the claim describes, the object with the
array `entry` of the entries, followed by a line feed. -/
def claimedDocument (es : List Entry) : String :=
  String.mk ("\x7b\"entry\":[".toList ++ List.intercalate [','] (es.map claimedEntry)
    ++ "]\x7d\n".toList)

end Krawler

/-! ## The agent: the rotation booleans as the specification states them -/

namespace Krawler

open GoLib

/-- Modelled from the spec: the legacy boolean under flag precedence, the value of the flag
`rotate-server-certificates` when the flag is present, else the value of the option
`serverTLSBootstrap` when the configuration has it, else false. -/
def specLegacyBoolean (commands : Commands) (configData : ConfigData) : Bool :=
  match commands.lookup rotateServerCertFlag with
  | some value => castToBoolString value
  | none =>
    match configData.lookup rotateServerCertOption with
    | some value => castToBool value
    | none => false

/-- Modelled from the spec: the setting of the feature `RotateKubeletServerCertificate` in
the items of the flag `--feature-gates`: the value of the last item `name=value` whose name
is the feature, `none` when no item sets it. -/
def specFlagGate (items : List String) : Option Bool :=
  items.foldl
    (fun acc item =>
      let s := stringsSplit item "="
      if s.headD "" = rotateKubeletServerCertFeature ∧ s.length ≠ 1 then
        some (castToBoolString (stringsJoin s.tail "="))
      else acc)
    none

/-- Modelled from the spec: the setting of the feature in the mapping `featureGates` of the
configuration, `none` when the configuration does not set it. -/
def specConfigGate (configData : ConfigData) : Option Bool :=
  match configData.lookup featureGatesOption with
  | some (.map features) =>
    (yamlMapLookup rotateKubeletServerCertFeature features).map castToBool
  | _ => none

/-- Modelled from the spec: the feature gate under flag precedence, the setting of the flag
`--feature-gates` when it sets the feature, else the setting of the configuration, else
false. -/
def specFeatureGate (commands : Commands) (configData : ConfigData) : Bool :=
  match specFlagGate (stringsSplit (commands.get featureGatesFlag) ",") with
  | some b => b
  | none => (specConfigGate configData).getD false

end Krawler

/-! # Theorems -/

/-! ## Paths: `path.Join` and `path.Clean` -/

namespace GoLib

theorem splitGo_ne_nil (sep : List Char) (skip : Nat) (s : List Char) :
    splitGo sep skip s ≠ [] := by
  induction s generalizing skip with
  | nil => cases skip <;> simp [splitGo]
  | cons c cs ih =>
    cases skip with
    | succ n => simpa [splitGo] using ih n
    | zero =>
      unfold splitGo
      split
      · simp
      · split <;> simp

/-- Cutting at a one-character separator distributes over a separator inside the text. -/
theorem splitGo_slash_append (a b : List Char) :
    splitGo ['/'] 0 (a ++ '/' :: b) = splitGo ['/'] 0 a ++ splitGo ['/'] 0 b := by
  induction a with
  | nil => simp [splitGo, startsWith]
  | cons c cs ih =>
    by_cases hc : c = '/'
    · subst hc
      simp [splitGo, startsWith, ih]
    · have h1 : startsWith ['/'] (c :: (cs ++ '/' :: b)) = false := by
        simp [startsWith, hc, Ne.symm hc]
      have h2 : startsWith ['/'] (c :: cs) = false := by
        simp [startsWith, hc, Ne.symm hc]
      rw [List.cons_append, splitGo, splitGo, h1, h2, ih]
      cases hs : splitGo ['/'] 0 cs with
      | nil => exact absurd hs (splitGo_ne_nil _ _ _)
      | cons w ws => simp

theorem intercalate_append_singleton (sep k : List Char) (l : List (List Char)) :
    ∃ pre, List.intercalate sep (l ++ [k]) = pre ++ k := by
  induction l with
  | nil => exact ⟨[], by simp [List.intercalate]⟩
  | cons x xs ih =>
    obtain ⟨pre, hpre⟩ := ih
    cases xs with
    | nil => exact ⟨x ++ sep, by simp [List.intercalate, List.intersperse]⟩
    | cons y ys =>
      refine ⟨x ++ sep ++ pre, ?_⟩
      have : List.intercalate sep (x :: y :: ys ++ [k])
          = x ++ sep ++ List.intercalate sep (y :: ys ++ [k]) := by
        simp [List.intercalate, List.intersperse]
      rw [this, hpre, List.append_assoc (x ++ sep)]

/-- Cleaning a non-empty path followed by a slash and a plain file name gives a path that
ends in that file name. -/
theorem cleanChars_append_name (c : Char) (cs k : List Char)
    (hk : splitGo ['/'] 0 k = [k]) (h0 : k ≠ []) (h1 : k ≠ ['.']) (h2 : k ≠ ['.', '.']) :
    ∃ pre, cleanChars (c :: cs ++ '/' :: k) = pre ++ k := by
  have hstep : ∀ r st, cleanStep r st k = k :: st := by
    intro r st
    simp [cleanStep, h0, h1, h2]
  have hstack : ∀ r, (splitGo ['/'] 0 (c :: cs ++ '/' :: k)).foldl (cleanStep r) []
      = k :: (splitGo ['/'] 0 (c :: cs)).foldl (cleanStep r) [] := by
    intro r
    rw [splitGo_slash_append, hk, List.foldl_append]
    simp [hstep]
  obtain ⟨pre, hpre⟩ := intercalate_append_singleton ['/'] k
    ((splitGo ['/'] 0 (c :: cs)).foldl (cleanStep (c == '/')) []).reverse
  have hunf : cleanChars (c :: cs ++ '/' :: k) =
      if (c == '/') = true then
        '/' :: List.intercalate ['/'] ((splitGo ['/'] 0 (c :: cs ++ '/' :: k)).foldl
          (cleanStep (c == '/')) []).reverse
      else if (splitGo ['/'] 0 (c :: cs ++ '/' :: k)).foldl (cleanStep (c == '/')) [] = [] then ['.']
      else List.intercalate ['/'] ((splitGo ['/'] 0 (c :: cs ++ '/' :: k)).foldl
          (cleanStep (c == '/')) []).reverse := rfl
  rw [hunf, hstack, List.reverse_cons, hpre]
  by_cases hr : (c == '/') = true
  · exact ⟨'/' :: pre, by simp [hr]⟩
  · exact ⟨pre, by simp [hr]⟩

/-- A path joined with the file name `kubelet.crt` ends in that file name. -/
theorem pathJoin_kubelet_crt_suffix (d : String) :
    ∃ pre : List Char, (pathJoin [d, "kubelet.crt"]).toList = pre ++ "kubelet.crt".toList := by
  cases hd : d.toList with
  | nil =>
    refine ⟨[], ?_⟩
    have : d = "" := by
      apply String.ext; simpa using hd
    subst this
    decide
  | cons c cs =>
    have hjoin : (pathJoin [d, "kubelet.crt"]).toList
        = cleanChars (c :: cs ++ '/' :: "kubelet.crt".toList) := by
      have hd2 : d.data = c :: cs := hd
      simp [pathJoin, hd2, List.intercalate, List.intersperse]
    rw [hjoin]
    exact cleanChars_append_name c cs _ (by decide) (by decide) (by decide) (by decide)

/-- No path joined with `kubelet.crt` is the rotated certificate file. -/
theorem pathJoin_kubelet_crt_ne (d : String) :
    pathJoin [d, "kubelet.crt"] ≠ "/var/lib/kubelet/pki/kubelet-server-current.pem" := by
  intro h
  obtain ⟨pre, hpre⟩ := pathJoin_kubelet_crt_suffix d
  rw [h] at hpre
  have := congrArg (fun l => l.reverse.head?) hpre
  simp at this

theorem splitGo_slash_free (x : List Char) (h : '/' ∉ x) : splitGo ['/'] 0 x = [x] := by
  induction x with
  | nil => simp [splitGo]
  | cons c cs ih =>
    have hc : c ≠ '/' := fun e => h (by simp [e])
    have hcs : '/' ∉ cs := fun e => h (by simp [e])
    have h1 : startsWith ['/'] (c :: cs) = false := by simp [startsWith, Ne.symm hc]
    rw [splitGo, h1, ih hcs]
    simp

/-- Cutting a slash-separated list of slash-free names gives the names back. -/
theorem splitGo_intercalate (x : List Char) (xs : List (List Char))
    (h : ∀ c ∈ x :: xs, '/' ∉ c) :
    splitGo ['/'] 0 (List.intercalate ['/'] (x :: xs)) = x :: xs := by
  induction xs generalizing x with
  | nil => simpa [List.intercalate] using splitGo_slash_free x (h x (by simp))
  | cons y ys ih =>
    have e : List.intercalate ['/'] (x :: y :: ys) = x ++ '/' :: List.intercalate ['/'] (y :: ys) := by
      simp [List.intercalate, List.intersperse]
    rw [e, splitGo_slash_append, splitGo_slash_free x (h x (by simp)),
      ih y (fun c hc => h c (by simp at hc ⊢; tauto))]
    rfl

theorem foldl_cleanStep_plain (r : Bool) (names st : List (List Char))
    (h : ∀ n ∈ names, PlainName n) :
    names.foldl (cleanStep r) st = names.reverse ++ st := by
  induction names generalizing st with
  | nil => simp
  | cons n ns ih =>
    obtain ⟨h0, -, h1, h2⟩ := h n (by simp)
    have hs : cleanStep r st n = n :: st := by simp [cleanStep, h0, h1, h2]
    rw [List.foldl_cons, hs, ih _ (fun m hm => h m (by simp [hm]))]
    simp

/-- An absolute path made of plain names is already clean. -/
theorem cleanChars_plain (n : List Char) (ns : List (List Char))
    (h : ∀ m ∈ n :: ns, PlainName m) :
    cleanChars ('/' :: List.intercalate ['/'] (n :: ns)) = '/' :: List.intercalate ['/'] (n :: ns) := by
  have hsplit : splitGo ['/'] 0 ('/' :: List.intercalate ['/'] (n :: ns)) = [] :: n :: ns := by
    have := splitGo_slash_append [] (List.intercalate ['/'] (n :: ns))
    rw [List.nil_append] at this
    rw [this, splitGo_intercalate n ns (fun c hc => (h c hc).2.1)]
    rfl
  have hunf : cleanChars ('/' :: List.intercalate ['/'] (n :: ns)) =
      '/' :: List.intercalate ['/'] ((splitGo ['/'] 0 ('/' :: List.intercalate ['/'] (n :: ns))).foldl
          (cleanStep true) []).reverse := rfl
  rw [hunf, hsplit, List.foldl_cons]
  have h0 : cleanStep true [] [] = [] := by simp [cleanStep]
  rw [h0, foldl_cleanStep_plain true (n :: ns) [] h]
  simp

theorem intercalate_snoc (sep k x : List Char) (xs : List (List Char)) :
    List.intercalate sep (x :: xs ++ [k]) = List.intercalate sep (x :: xs) ++ sep ++ k := by
  induction xs generalizing x with
  | nil => simp [List.intercalate, List.intersperse]
  | cons y ys ih =>
    have e1 : List.intercalate sep (x :: y :: ys ++ [k])
        = x ++ sep ++ List.intercalate sep (y :: ys ++ [k]) := by
      simp [List.intercalate, List.intersperse]
    have e2 : List.intercalate sep (x :: y :: ys)
        = x ++ sep ++ List.intercalate sep (y :: ys) := by
      simp [List.intercalate, List.intersperse]
    rw [e1, e2, ih y]
    simp

/-- For a certificate directory that is an absolute path of plain names, joining it with
`kubelet.crt` is the directory, a slash and the file name. -/
theorem pathJoin_plain_dir (n : String) (ns : List String)
    (h : ∀ m ∈ n :: ns, PlainName m.toList) :
    pathJoin ["/" ++ stringsJoin (n :: ns) "/", "kubelet.crt"]
      = "/" ++ stringsJoin (n :: ns) "/" ++ "/kubelet.crt" := by
  have hk : PlainName "kubelet.crt".toList := by
    refine ⟨by decide, by decide, by decide, by decide⟩
  have hall : ∀ m ∈ n.toList :: (ns.map String.toList ++ ["kubelet.crt".toList]), PlainName m := by
    intro m hm
    simp only [List.mem_cons, List.mem_append, List.mem_map, List.mem_singleton,
      List.not_mem_nil, or_false] at hm
    rcases hm with rfl | ⟨a, ha, rfl⟩ | rfl
    · exact h n (by simp)
    · exact h a (by simp [ha])
    · exact hk
  have hclean := cleanChars_plain n.toList (ns.map String.toList ++ ["kubelet.crt".toList]) hall
  have hsn := intercalate_snoc ['/'] "kubelet.crt".toList n.toList (ns.map String.toList)
  apply String.ext
  have hl : (pathJoin ["/" ++ stringsJoin (n :: ns) "/", "kubelet.crt"]).data
      = cleanChars ('/' :: List.intercalate ['/']
          (n.toList :: (ns.map String.toList ++ ["kubelet.crt".toList]))) := by
    rw [← List.cons_append, hsn]
    simp [pathJoin, stringsJoin, List.intercalate, List.intersperse]
  rw [hl, hclean, ← List.cons_append, hsn]
  simp [stringsJoin]

end GoLib

/-! ## The agent: path resolution (C1 to C4) -/

namespace Krawler

open GoLib

/-- The rotated server certificate file, `path.Join(defaultKubeletServerCertPath,
"kubelet-server-current.pem")`. -/
theorem rotatedPath_eq :
    pathJoin [defaultKubeletServerCertPath, "kubelet-server-current.pem"]
      = "/var/lib/kubelet/pki/kubelet-server-current.pem" := by decide

/-- The default server certificate file, `path.Join(defaultKubeletServerCertPath,
"kubelet.crt")`. -/
theorem defaultPath_eq :
    pathJoin [defaultKubeletServerCertPath, "kubelet.crt"]
      = "/var/lib/kubelet/pki/kubelet.crt" := by decide

/-- Flag precedence holds for `tls-cert-file`: a present flag is the value used. -/
theorem tempCertPath_flag (commands : Commands) (configData : ConfigData) (x : String)
    (h : commands.lookup tlsCertFlag = some x) : tempCertPath commands configData = x := by
  simp [tempCertPath, h]

/-- Flag precedence holds for `tls-key-file`: a present flag is the value used. -/
theorem tempKeyPath_flag (commands : Commands) (configData : ConfigData) (y : String)
    (h : commands.lookup tlsKeyFlag = some y) : tempKeyPath commands configData = y := by
  simp [tempKeyPath, h]

/-- Flag precedence holds for `rotate-server-certificates`. -/
theorem isServerRotateCertA_flag (commands : Commands) (configData : ConfigData) (x : String)
    (h : commands.lookup rotateServerCertFlag = some x) :
    isServerRotateCertA commands configData = castToBoolString x := by
  simp [isServerRotateCertA, h]

/-- Flag precedence holds for `rotate-certificates`. -/
theorem isClientRotateCert_flag (commands : Commands) (configData : ConfigData) (x : String)
    (h : commands.lookup rotateCertFlag = some x) :
    isClientRotateCert commands configData = castToBoolString x := by
  simp [isClientRotateCert, h]

/-- For the feature gate the precedence is the other way round: whenever the option
`featureGates` has the rotation feature, its value is the one used, whatever the flag says. -/
theorem isServerRotateCertB_option (commands : Commands) (configData : ConfigData)
    (features : List (YamlValue × YamlValue)) (data : YamlValue)
    (h1 : configData.lookup featureGatesOption = some (.map features))
    (h2 : yamlMapLookup rotateKubeletServerCertFeature features = some data) :
    isServerRotateCertB commands configData
      = (featureGatesLoop (stringsSplit (commands.get featureGatesFlag) ",") false).map
          (fun _ => castToBool data) := by
  have : featureGatesOptionStep configData = fun _ => castToBool data := by
    funext b
    simp [featureGatesOptionStep, h1, h2]
  rw [isServerRotateCertB, this]

/-- When the certificate and key flags are both set and non-empty, the path is the
certificate flag whenever the resolution reaches the choice of the path. -/
theorem kubeletServerCertPath_tls_pair (commands : Commands) (configData : ConfigData)
    (x y : String) (hx : commands.lookup tlsCertFlag = some x)
    (hy : commands.lookup tlsKeyFlag = some y) (hx0 : x ≠ "") (hy0 : y ≠ "") :
    kubeletServerCertPath commands configData
      = (isServerRotateCert commands configData).map (fun _ => x) := by
  have : choosePath commands configData = fun _ => x := by
    funext r
    simp [choosePath, tempCertPath_flag _ _ _ hx, tempKeyPath_flag _ _ _ hy, hx0, hy0]
  rw [kubeletServerCertPath, this]

/-- C1 (the code departs from the claim): on the command line
`--config=... --rotate-server-certificates=true --feature-gates=RotateKubeletServerCertificate=true`
with a configuration whose `featureGates` sets `RotateKubeletServerCertificate: false`, the
flag is present and its loop yields true, yet the feature-gate boolean the agent uses is
the configuration value false, and the resolved path is the default `kubelet.crt` instead
of the rotated file. -/
theorem C1_feature_gate_option_overrides_flag :
    (GetCommandsFromCmdline "/usr/bin/kubelet\x00--config=/var/lib/kubelet/config.yaml\x00--rotate-server-certificates=true\x00--feature-gates=RotateKubeletServerCertificate=true\x00").lookup
        featureGatesFlag = some "RotateKubeletServerCertificate=true"
    ∧ featureGatesLoop (stringsSplit "RotateKubeletServerCertificate=true" ",") false = some true
    ∧ isServerRotateCertB
        (GetCommandsFromCmdline "/usr/bin/kubelet\x00--config=/var/lib/kubelet/config.yaml\x00--rotate-server-certificates=true\x00--feature-gates=RotateKubeletServerCertificate=true\x00")
        [(featureGatesOption, .map [(.str rotateKubeletServerCertFeature, .bool false)])]
        = some false
    ∧ resolveServerCertPath
        "/usr/bin/kubelet\x00--config=/var/lib/kubelet/config.yaml\x00--rotate-server-certificates=true\x00--feature-gates=RotateKubeletServerCertificate=true\x00"
        [(featureGatesOption, .map [(.str rotateKubeletServerCertFeature, .bool false)])]
        = some "/var/lib/kubelet/pki/kubelet.crt"
    ∧ resolveServerCertPath
        "/usr/bin/kubelet\x00--config=/var/lib/kubelet/config.yaml\x00--rotate-server-certificates=true\x00--feature-gates=RotateKubeletServerCertificate=true\x00"
        []
        = some "/var/lib/kubelet/pki/kubelet-server-current.pem" := by
  decide

/-- The legacy boolean of the agent is the one the specification states. -/
theorem isServerRotateCertA_eq_spec (commands : Commands) (configData : ConfigData) :
    isServerRotateCertA commands configData = specLegacyBoolean commands configData := by
  unfold isServerRotateCertA specLegacyBoolean
  rfl

/-- The resolved path is the rotated file exactly when the two booleans the agent computes
are true, when the certificate/key pair is not both set. -/
theorem kubeletServerCertPath_rotated_iff (commands : Commands) (configData : ConfigData)
    (h : ¬ (tempCertPath commands configData ≠ "" ∧ tempKeyPath commands configData ≠ "")) :
    kubeletServerCertPath commands configData
        = some "/var/lib/kubelet/pki/kubelet-server-current.pem"
      ↔ isServerRotateCertA commands configData = true
        ∧ isServerRotateCertB commands configData = some true := by
  have hne : ∀ d : String, pathJoin [d, "kubelet.crt"]
      ≠ "/var/lib/kubelet/pki/kubelet-server-current.pem" := pathJoin_kubelet_crt_ne
  cases hB : isServerRotateCertB commands configData with
  | none => simp [kubeletServerCertPath, isServerRotateCert, hB]
  | some b =>
    cases hA : isServerRotateCertA commands configData <;> cases b <;>
      simp only [kubeletServerCertPath, isServerRotateCert, hB, hA, Option.map_some', choosePath,
        if_neg h, Bool.and_false, Bool.and_true, Bool.false_and, Bool.true_and, Option.some.injEq,
        rotatedPath_eq, if_true, Bool.false_eq_true, if_false, and_true, and_false, and_self,
        iff_false, reduceCtorEq, false_and] <;>
      first
        | trivial
        | (cases commands.lookup certDirFlag <;> simp [hne, defaultPath_eq])

theorem stringsJoin_singleton (v : String) : stringsJoin [v] "=" = v := by
  unfold stringsJoin
  simp [List.intercalate]

theorem specFlagGate_fold_some (items : List String) (x : Bool) :
    ∃ y, items.foldl
        (fun acc item =>
          let s := stringsSplit item "="
          if s.headD "" = rotateKubeletServerCertFeature ∧ s.length ≠ 1 then
            some (castToBoolString (stringsJoin s.tail "="))
          else acc)
        (some x) = some y := by
  induction items generalizing x with
  | nil => exact ⟨x, rfl⟩
  | cons v rest ih =>
    simp only [List.foldl_cons]
    split_ifs
    · exact ih _
    · exact ih x

/-- The assignment from the configuration gives the setting the specification reads in the
configuration, when there is one. -/
theorem featureGatesOptionStep_eq_spec (configData : ConfigData) (b : Bool) :
    featureGatesOptionStep configData b = (specConfigGate configData).getD b := by
  unfold featureGatesOptionStep specConfigGate
  cases hcfg : configData.lookup featureGatesOption with
  | none => rfl
  | some y =>
    cases y with
    | map features =>
      cases hy : yamlMapLookup rotateKubeletServerCertFeature features <;> simp [hy]
    | _ => rfl

/-- The loop over the items of the flag gives the setting the specification reads in the
flag, when every item that names the feature has the form `name=value`. -/
theorem featureGatesLoop_eq_spec (items : List String) (b : Bool) (acc : Option Bool)
    (hacc : acc = none ∨ acc = some b)
    (hitems : ∀ v ∈ items, (stringsSplit v "=").headD "" = rotateKubeletServerCertFeature →
      (stringsSplit v "=").length = 2) :
    featureGatesLoop items b
      = some ((items.foldl
          (fun acc item =>
            let s := stringsSplit item "="
            if s.headD "" = rotateKubeletServerCertFeature ∧ s.length ≠ 1 then
              some (castToBoolString (stringsJoin s.tail "="))
            else acc)
          acc).getD b) := by
  induction items generalizing b acc with
  | nil =>
    rcases hacc with rfl | rfl <;> rfl
  | cons v rest ih =>
    have hrest : ∀ w ∈ rest, (stringsSplit w "=").headD "" = rotateKubeletServerCertFeature →
        (stringsSplit w "=").length = 2 := fun w hw => hitems w (List.mem_cons_of_mem _ hw)
    by_cases hname : (stringsSplit v "=").headD "" = rotateKubeletServerCertFeature
    · have hlen := hitems v (List.mem_cons_self _ _) hname
      obtain ⟨n, v1, hs⟩ : ∃ n v1, stringsSplit v "=" = [n, v1] := by
        match hsp : stringsSplit v "=", hlen with
        | [n, v1], _ => exact ⟨n, v1, rfl⟩
      have hn : n = rotateKubeletServerCertFeature := by simpa [hs] using hname
      simp only [featureGatesLoop, List.foldl_cons, hs, List.headD_cons, hn, if_true,
        List.tail_cons, List.length_cons, List.length_nil, stringsJoin_singleton]
      have := ih (castToBoolString v1) (some (castToBoolString v1)) (Or.inr rfl) hrest
      obtain ⟨y, hy⟩ := specFlagGate_fold_some rest (castToBoolString v1)
      rw [this, if_pos ⟨trivial, by omega⟩]
      show some (Option.getD (List.foldl _ (some (castToBoolString v1)) rest) _)
        = some (Option.getD (List.foldl _ (some (castToBoolString v1)) rest) _)
      rw [hy]
      rfl
    · simp only [featureGatesLoop, List.foldl_cons, hname, if_false, false_and]
      exact ih b acc hacc hrest

/-- Where the agent agrees with the specification: when every item of `--feature-gates`
that names the feature has the form `name=value`, and the flag and the configuration do not
both set the feature (or set it to the same value), the resolved path is the rotated file
exactly when the legacy boolean and the feature gate of the specification are true. -/
theorem rotated_path_iff_spec (commands : Commands) (configData : ConfigData)
    (hpair : ¬ (tempCertPath commands configData ≠ "" ∧ tempKeyPath commands configData ≠ ""))
    (hitems : ∀ v ∈ stringsSplit (commands.get featureGatesFlag) ",",
      (stringsSplit v "=").headD "" = rotateKubeletServerCertFeature →
      (stringsSplit v "=").length = 2)
    (hone : specFlagGate (stringsSplit (commands.get featureGatesFlag) ",") = none
      ∨ specConfigGate configData = none
      ∨ specFlagGate (stringsSplit (commands.get featureGatesFlag) ",")
          = specConfigGate configData) :
    kubeletServerCertPath commands configData
        = some "/var/lib/kubelet/pki/kubelet-server-current.pem"
      ↔ specLegacyBoolean commands configData = true
        ∧ specFeatureGate commands configData = true := by
  rw [kubeletServerCertPath_rotated_iff commands configData hpair, isServerRotateCertA_eq_spec]
  have hloop := featureGatesLoop_eq_spec (stringsSplit (commands.get featureGatesFlag) ",")
    false none (Or.inl rfl) hitems
  have hB : isServerRotateCertB commands configData
      = some (specFeatureGate commands configData) := by
    unfold isServerRotateCertB specFeatureGate
    rw [hloop]
    have hfold : List.foldl
        (fun acc item =>
          let s := stringsSplit item "="
          if s.headD "" = rotateKubeletServerCertFeature ∧ s.length ≠ 1 then
            some (castToBoolString (stringsJoin s.tail "="))
          else acc)
        none (stringsSplit (commands.get featureGatesFlag) ",")
        = specFlagGate (stringsSplit (commands.get featureGatesFlag) ",") := rfl
    rw [hfold]
    simp only [Option.map_some', Option.some.injEq, featureGatesOptionStep_eq_spec]
    cases hf : specFlagGate (stringsSplit (commands.get featureGatesFlag) ",") with
    | none => rfl
    | some f =>
      cases hc : specConfigGate configData with
      | none => rfl
      | some c =>
        rw [hf, hc] at hone
        rcases hone with h1 | h1 | h1
        · exact absurd h1 (by simp)
        · exact absurd h1 (by simp)
        · simpa using (Option.some.inj h1).symm
  rw [hB]
  simp

/-- C2 (the code departs from the claim): the kubelet is started with
`--feature-gates=RotateKubeletServerCertificate=true` and a configuration that has
`serverTLSBootstrap: true` and sets the feature gate to false.  No certificate/key pair is
set, and under flag precedence the legacy boolean and the feature gate are both true, yet
the agent takes the feature gate of the configuration and resolves the default
`kubelet.crt`, not the rotated file.  With the values exchanged the agent resolves the
rotated file though the feature gate of the flag is false.  Without the feature gate in
the configuration the end-to-end command line resolves to the rotated file. -/
theorem C2_config_gate_decides_rotated_path :
    tempCertPath
        (GetCommandsFromCmdline "/usr/bin/kubelet\x00--kubeconfig=/etc/kubernetes/kubelet.conf\x00--config=/var/lib/kubelet/config.yaml\x00--feature-gates=RotateKubeletServerCertificate=true\x00")
        [(rotateServerCertOption, .bool true),
          (featureGatesOption, .map [(.str rotateKubeletServerCertFeature, .bool false)])] = ""
    ∧ specLegacyBoolean
        (GetCommandsFromCmdline "/usr/bin/kubelet\x00--kubeconfig=/etc/kubernetes/kubelet.conf\x00--config=/var/lib/kubelet/config.yaml\x00--feature-gates=RotateKubeletServerCertificate=true\x00")
        [(rotateServerCertOption, .bool true),
          (featureGatesOption, .map [(.str rotateKubeletServerCertFeature, .bool false)])] = true
    ∧ specFeatureGate
        (GetCommandsFromCmdline "/usr/bin/kubelet\x00--kubeconfig=/etc/kubernetes/kubelet.conf\x00--config=/var/lib/kubelet/config.yaml\x00--feature-gates=RotateKubeletServerCertificate=true\x00")
        [(rotateServerCertOption, .bool true),
          (featureGatesOption, .map [(.str rotateKubeletServerCertFeature, .bool false)])] = true
    ∧ resolveServerCertPath
        "/usr/bin/kubelet\x00--kubeconfig=/etc/kubernetes/kubelet.conf\x00--config=/var/lib/kubelet/config.yaml\x00--feature-gates=RotateKubeletServerCertificate=true\x00"
        [(rotateServerCertOption, .bool true),
          (featureGatesOption, .map [(.str rotateKubeletServerCertFeature, .bool false)])]
        = some "/var/lib/kubelet/pki/kubelet.crt"
    ∧ specFeatureGate
        (GetCommandsFromCmdline "/usr/bin/kubelet\x00--kubeconfig=/etc/kubernetes/kubelet.conf\x00--config=/var/lib/kubelet/config.yaml\x00--feature-gates=RotateKubeletServerCertificate=false\x00")
        [(rotateServerCertOption, .bool true),
          (featureGatesOption, .map [(.str rotateKubeletServerCertFeature, .bool true)])] = false
    ∧ resolveServerCertPath
        "/usr/bin/kubelet\x00--kubeconfig=/etc/kubernetes/kubelet.conf\x00--config=/var/lib/kubelet/config.yaml\x00--feature-gates=RotateKubeletServerCertificate=false\x00"
        [(rotateServerCertOption, .bool true),
          (featureGatesOption, .map [(.str rotateKubeletServerCertFeature, .bool true)])]
        = some "/var/lib/kubelet/pki/kubelet-server-current.pem"
    ∧ resolveServerCertPath
        "/usr/bin/kubelet\x00--kubeconfig=/etc/kubernetes/kubelet.conf\x00--config=/var/lib/kubelet/config.yaml\x00--feature-gates=RotateKubeletServerCertificate=true\x00"
        [(rotateServerCertOption, .bool true)]
        = some "/var/lib/kubelet/pki/kubelet-server-current.pem" := by
  decide

/-- C3 (the code departs from the claim): on the command line
`--tls-cert-file=/a --tls-key-file=/b --feature-gates=RotateKubeletServerCertificate`, both
flags are present and non-empty, but the loop over the feature gates reads `value[1]` of an
item that has no `=`, so the agent stops and resolves no path. -/
theorem C3_tls_pair_stopped_by_feature_gates :
    (GetCommandsFromCmdline "/usr/bin/kubelet\x00--tls-cert-file=/a\x00--tls-key-file=/b\x00--feature-gates=RotateKubeletServerCertificate\x00").lookup
        tlsCertFlag = some "/a"
    ∧ (GetCommandsFromCmdline "/usr/bin/kubelet\x00--tls-cert-file=/a\x00--tls-key-file=/b\x00--feature-gates=RotateKubeletServerCertificate\x00").lookup
        tlsKeyFlag = some "/b"
    ∧ stringsSplit "RotateKubeletServerCertificate" "=" = ["RotateKubeletServerCertificate"]
    ∧ resolveServerCertPath
        "/usr/bin/kubelet\x00--tls-cert-file=/a\x00--tls-key-file=/b\x00--feature-gates=RotateKubeletServerCertificate\x00"
        [] = none
    ∧ resolveServerCertPath
        "/usr/bin/kubelet\x00--tls-cert-file=/a\x00--tls-key-file=/b\x00--feature-gates=RotateKubeletServerCertificate=true\x00"
        [] = some "/a" := by
  decide

/-- C4: when the certificate/key pair is not both set and the rotation boolean of the agent
is false, the resolved server certificate path is the file `kubelet.crt` of the directory
given by `--cert-dir` when that flag is present (for a directory that is an absolute path of
plain names, literally the directory followed by `/kubelet.crt`; `--cert-dir=/d` gives
`/d/kubelet.crt`), and `/var/lib/kubelet/pki/kubelet.crt` otherwise. -/
theorem C4_cert_dir_or_default (commands : Commands) (configData : ConfigData)
    (hpair : ¬ (tempCertPath commands configData ≠ "" ∧ tempKeyPath commands configData ≠ ""))
    (hrot : isServerRotateCert commands configData = some false) :
    kubeletServerCertPath commands configData
      = some (match commands.lookup certDirFlag with
          | some dir => pathJoin [dir, "kubelet.crt"]
          | none => "/var/lib/kubelet/pki/kubelet.crt")
    ∧ (∀ (n : String) (ns : List String), (∀ m ∈ n :: ns, PlainName m.toList) →
        commands.lookup certDirFlag = some ("/" ++ stringsJoin (n :: ns) "/") →
        kubeletServerCertPath commands configData
          = some ("/" ++ stringsJoin (n :: ns) "/" ++ "/kubelet.crt"))
    ∧ resolveServerCertPath "/usr/bin/kubelet\x00--cert-dir=/d\x00" [] = some "/d/kubelet.crt" := by
  have hmain : kubeletServerCertPath commands configData
      = some (match commands.lookup certDirFlag with
          | some dir => pathJoin [dir, "kubelet.crt"]
          | none => "/var/lib/kubelet/pki/kubelet.crt") := by
    simp only [kubeletServerCertPath, hrot, Option.map_some', choosePath, if_neg hpair,
      Bool.false_eq_true, if_false, defaultPath_eq]
  refine ⟨hmain, ?_, by decide⟩
  intro n ns hplain hdir
  rw [hmain, hdir]
  simp only [pathJoin_plain_dir n ns hplain]

/-- Witness of C4 on the command line `--cert-dir=/d`. -/
theorem C4_cert_dir_or_default_witness :
    kubeletServerCertPath (GetCommandsFromCmdline "/usr/bin/kubelet\x00--cert-dir=/d\x00") []
      = some "/d/kubelet.crt" := by
  have h := (C4_cert_dir_or_default
    (GetCommandsFromCmdline "/usr/bin/kubelet\x00--cert-dir=/d\x00") []
    (by decide) (by decide)).1
  rw [h]
  decide

end Krawler

/-! ## The orchestrator: the order of the report (C5, C6) and the agent worker (C8 to C10) -/

namespace CheckCert

open GoLib

theorem strLt_iff (a b : String) : strLt a b = true ↔ a < b := by
  simp [strLt, String.lt_iff_toList_lt]

theorem kubelet_lt_scheduler : ("kubelet" : String) < "scheduler" :=
  String.lt_iff_toList_lt.mpr (by decide)

/-- Outside the gap between `kubelet` and `scheduler`, exchanging the two names turns the
special-cased comparison of types into the plain one. -/
theorem sortType_lt_iff (a b : String) (ha : OutsideGap a) (hb : OutsideGap b)
    (h1 : ¬ (a = "scheduler" ∧ b = "kubelet")) (h2 : ¬ (a = "kubelet" ∧ b = "scheduler")) :
    sortType a < sortType b ↔ a < b := by
  have hks := kubelet_lt_scheduler
  simp only [OutsideGap, strLt_iff, not_and, not_lt] at ha hb
  unfold sortType
  by_cases hak : a = "kubelet"
  · subst hak
    by_cases hbk : b = "kubelet"
    · subst hbk; simp
    · have hbs : b ≠ "scheduler" := fun e => h2 ⟨rfl, e⟩
      simp only [if_true, hbk, hbs, if_false]
      constructor
      · intro h; exact lt_trans hks h
      · intro h; exact lt_of_le_of_ne (hb h) (Ne.symm hbs)
  · by_cases has : a = "scheduler"
    · subst has
      have hbk : b ≠ "kubelet" := fun e => h1 ⟨rfl, e⟩
      by_cases hbs : b = "scheduler"
      · subst hbs; simp
      · simp only [hbk, hbs, if_false, if_true, (by decide : ("scheduler" : String) ≠ "kubelet")]
        constructor
        · intro h
          by_contra hn
          have hle : b ≤ "scheduler" := not_lt.mp hn
          have hlt : b < "scheduler" := lt_of_le_of_ne hle hbs
          exact absurd (hb h) (not_le.mpr hlt)
        · intro h; exact lt_trans hks h
    · simp only [hak, has, if_false]
      by_cases hbk : b = "kubelet"
      · subst hbk
        simp only [if_true]
        constructor
        · intro h
          by_contra hn
          have hle : "kubelet" ≤ a := not_lt.mp hn
          have hlt : "kubelet" < a := lt_of_le_of_ne hle (Ne.symm hak)
          exact absurd (ha hlt) (not_le.mpr h)
        · intro h; exact lt_trans h hks
      · by_cases hbs : b = "scheduler"
        · subst hbs
          simp only [if_true, (by decide : ("scheduler" : String) ≠ "kubelet"), if_false]
          constructor
          · intro h; exact lt_trans h hks
          · intro h
            by_contra hn
            have hle : "kubelet" ≤ a := not_lt.mp hn
            have hlt : "kubelet" < a := lt_of_le_of_ne hle (Ne.symm hak)
            exact absurd (ha hlt) (not_le.mpr h)
        · simp only [hbk, hbs, if_false]

theorem sortType_injective (a b : String) (h : sortType a = sortType b) : a = b := by
  unfold sortType at h
  by_cases hak : a = "kubelet" <;> by_cases has : a = "scheduler" <;>
    by_cases hbk : b = "kubelet" <;> by_cases hbs : b = "scheduler" <;>
    simp_all

/-- On types outside the gap, `less` is the strict order of the keys. -/
theorem less_iff_sortKey (x y : serverCertification)
    (hx : OutsideGap x.Entry.Type_) (hy : OutsideGap y.Entry.Type_) :
    less x y = true ↔ sortKey x < sortKey y := by
  have hks := kubelet_lt_scheduler
  have hkey : sortKey x < sortKey y ↔
      sortType x.Entry.Type_ < sortType y.Entry.Type_
        ∨ sortType x.Entry.Type_ = sortType y.Entry.Type_
          ∧ (x.Entry.Node < y.Entry.Node
              ∨ x.Entry.Node = y.Entry.Node ∧ x.Entry.Name < y.Entry.Name) := by
    simp only [sortKey, Prod.Lex.lt_iff]
  rw [hkey]
  by_cases h1 : x.Entry.Type_ = "scheduler" ∧ y.Entry.Type_ = "kubelet"
  · have : sortType x.Entry.Type_ < sortType y.Entry.Type_ := by
      rw [h1.1, h1.2]
      simp [-String.lt_iff_toList_lt, -String.le_iff_toList_le, sortType]
    have hl : less x y = true := by
      unfold less
      rw [if_pos h1]
    exact ⟨fun _ => Or.inl this, fun _ => hl⟩
  · by_cases h2 : x.Entry.Type_ = "kubelet" ∧ y.Entry.Type_ = "scheduler"
    · have hn : ¬ sortType x.Entry.Type_ < sortType y.Entry.Type_ := by
        rw [h2.1, h2.2]
        simp [-String.lt_iff_toList_lt, -String.le_iff_toList_le, sortType]
      have hne : sortType x.Entry.Type_ ≠ sortType y.Entry.Type_ := by
        rw [h2.1, h2.2]
        decide
      have hl : less x y = false := by
        unfold less
        rw [if_neg h1, if_pos h2]
      constructor
      · intro h
        rw [hl] at h
        cases h
      · rintro (h | ⟨h, -⟩)
        · exact absurd h hn
        · exact absurd h hne
    · have e1 := sortType_lt_iff _ _ hx hy h1 h2
      have e2 := sortType_lt_iff _ _ hy hx (fun h => h2 ⟨h.2, h.1⟩) (fun h => h1 ⟨h.2, h.1⟩)
      simp only [less, h1, h2, if_false, strLt_iff, e1]
      by_cases hlt : x.Entry.Type_ < y.Entry.Type_
      · simp [-String.lt_iff_toList_lt, -String.le_iff_toList_le, hlt]
      · by_cases hgt : y.Entry.Type_ < x.Entry.Type_
        · have hne : sortType x.Entry.Type_ ≠ sortType y.Entry.Type_ := by
            intro e
            have := sortType_injective _ _ e
            rw [this] at hgt
            exact lt_irrefl _ hgt
          simp [-String.lt_iff_toList_lt, -String.le_iff_toList_le, hlt, hgt, hne]
        · have heq : x.Entry.Type_ = y.Entry.Type_ :=
            le_antisymm (not_lt.mp hgt) (not_lt.mp hlt)
          simp only [hlt, hgt, if_false, heq, true_and, false_or]
          by_cases hn : x.Entry.Node < y.Entry.Node
          · simp [-String.lt_iff_toList_lt, -String.le_iff_toList_le, hn]
          · by_cases hn2 : y.Entry.Node < x.Entry.Node
            · have : x.Entry.Node ≠ y.Entry.Node := fun e => by
                rw [e] at hn2; exact lt_irrefl _ hn2
              simp [-String.lt_iff_toList_lt, -String.le_iff_toList_le, hn, hn2, this]
            · have hne : x.Entry.Node = y.Entry.Node :=
                le_antisymm (not_lt.mp hn2) (not_lt.mp hn)
              simp [-String.lt_iff_toList_lt, -String.le_iff_toList_le, hn, hn2, hne, strLt_iff]

/-- For all strings: a row `x` may come before a row `y` in the claimed order exactly when
`y` is not less than `x`. -/
theorem rowsInOrder_iff (x y : serverCertification) :
    rowsInOrder x y = true ↔ less y x = false := by
  by_cases h1 : y.Entry.Type_ = "scheduler" ∧ x.Entry.Type_ = "kubelet"
  · simp [-String.lt_iff_toList_lt, -String.le_iff_toList_le, rowsInOrder, less, h1]
  · by_cases h2 : y.Entry.Type_ = "kubelet" ∧ x.Entry.Type_ = "scheduler"
    · simp [-String.lt_iff_toList_lt, -String.le_iff_toList_le, rowsInOrder, less, h2]
    · have h1a : ¬ (x.Entry.Type_ = "kubelet" ∧ y.Entry.Type_ = "scheduler") :=
        fun h => h1 ⟨h.2, h.1⟩
      have h2a : ¬ (x.Entry.Type_ = "scheduler" ∧ y.Entry.Type_ = "kubelet") :=
        fun h => h2 ⟨h.2, h.1⟩
      have h1b : (x.Entry.Type_ == "kubelet" && y.Entry.Type_ == "scheduler") = false := by
        simpa using h1a
      have h2b : (x.Entry.Type_ == "scheduler" && y.Entry.Type_ == "kubelet") = false := by
        simpa using h2a
      simp only [rowsInOrder, h1b, h2b, Bool.not_false, Bool.true_and, Bool.false_or, less, h1,
        h2, if_false, tripleLe]
      by_cases hyx : y.Entry.Type_ < x.Entry.Type_
      · have hxy : ¬ x.Entry.Type_ < y.Entry.Type_ := lt_asymm hyx
        have hne : x.Entry.Type_ ≠ y.Entry.Type_ := fun e => by
          rw [e] at hyx; exact lt_irrefl _ hyx
        simp [-String.lt_iff_toList_lt, -String.le_iff_toList_le, strLt_iff, hyx, hxy, hne]
      · by_cases hxy : x.Entry.Type_ < y.Entry.Type_
        · simp [-String.lt_iff_toList_lt, -String.le_iff_toList_le, strLt_iff, hyx, hxy]
        · have heq : x.Entry.Type_ = y.Entry.Type_ :=
            le_antisymm (not_lt.mp hyx) (not_lt.mp hxy)
          by_cases hn : y.Entry.Node < x.Entry.Node
          · have hn2 : ¬ x.Entry.Node < y.Entry.Node := lt_asymm hn
            have hne : x.Entry.Node ≠ y.Entry.Node := fun e => by
              rw [e] at hn; exact lt_irrefl _ hn
            simp [-String.lt_iff_toList_lt, -String.le_iff_toList_le, strLt_iff, hyx, hxy, heq, hn, hn2, hne]
          · by_cases hn2 : x.Entry.Node < y.Entry.Node
            · simp [-String.lt_iff_toList_lt, -String.le_iff_toList_le, strLt_iff, hyx, hxy, heq, hn, hn2]
            · have hne : x.Entry.Node = y.Entry.Node :=
                le_antisymm (not_lt.mp hn) (not_lt.mp hn2)
              simp [-String.lt_iff_toList_lt, -String.le_iff_toList_le, strLt_iff, hyx, hxy, heq, hn, hn2, hne]

theorem insertBack_perm {α : Type} (lt : α → α → Bool) (x : α) (l : List α) :
    (insertBack lt x l).Perm (x :: l) := by
  induction l with
  | nil => exact List.Perm.refl _
  | cons y ys ih =>
    unfold insertBack
    split
    · exact (List.Perm.cons y ih).trans (List.Perm.swap x y ys)
    · exact List.Perm.refl _

/-- Inserting into a part that is in descending order of the keys keeps it so, when `lt` is
the strict order of the keys on the elements at hand. -/
theorem insertBack_sorted {α κ : Type} [LinearOrder κ] (lt : α → α → Bool) (key : α → κ)
    (P : α → Prop) (H : ∀ a b, P a → P b → (lt a b = true ↔ key a < key b))
    (x : α) (l : List α) (hx : P x) (hl : ∀ a ∈ l, P a)
    (hs : l.Pairwise (fun a b => key b ≤ key a)) :
    (insertBack lt x l).Pairwise (fun a b => key b ≤ key a) := by
  induction l with
  | nil => simp [insertBack]
  | cons y ys ih =>
    have hy : P y := hl y (by simp)
    have hys : ∀ a ∈ ys, P a := fun a ha => hl a (by simp [ha])
    rw [List.pairwise_cons] at hs
    unfold insertBack
    split
    · rename_i hlt
      have hk : key x < key y := (H x y hx hy).mp hlt
      rw [List.pairwise_cons]
      refine ⟨?_, ih hys hs.2⟩
      intro z hz
      have hz2 : z ∈ x :: ys := (insertBack_perm lt x ys).subset hz
      rcases List.mem_cons.mp hz2 with rfl | hz3
      · exact le_of_lt hk
      · exact hs.1 z hz3
    · rename_i hlt
      have hk : key y ≤ key x := not_lt.mp (fun h => hlt ((H x y hx hy).mpr h))
      rw [List.pairwise_cons]
      refine ⟨?_, List.pairwise_cons.mpr hs⟩
      intro z hz
      rcases List.mem_cons.mp hz with rfl | hz3
      · exact hk
      · exact le_trans (hs.1 z hz3) hk

theorem foldl_insertBack {α κ : Type} [LinearOrder κ] (lt : α → α → Bool) (key : α → κ)
    (P : α → Prop) (H : ∀ a b, P a → P b → (lt a b = true ↔ key a < key b))
    (l sorted : List α) (hl : ∀ a ∈ l, P a) (hacc : ∀ a ∈ sorted, P a)
    (hs : sorted.Pairwise (fun a b => key b ≤ key a)) :
    (l.foldl (fun sorted x => insertBack lt x sorted) sorted).Pairwise (fun a b => key b ≤ key a)
      ∧ (l.foldl (fun sorted x => insertBack lt x sorted) sorted).Perm (sorted ++ l) := by
  induction l generalizing sorted with
  | nil => simpa using hs
  | cons x xs ih =>
    have hx : P x := hl x (by simp)
    have hxs : ∀ a ∈ xs, P a := fun a ha => hl a (by simp [ha])
    have hp := insertBack_perm lt x sorted
    have hacc2 : ∀ a ∈ insertBack lt x sorted, P a := by
      intro a ha
      rcases List.mem_cons.mp (hp.subset ha) with rfl | h
      · exact hx
      · exact hacc a h
    obtain ⟨h1, h2⟩ := ih (insertBack lt x sorted) hxs hacc2
      (insertBack_sorted lt key P H x sorted hx hacc hs)
    refine ⟨h1, h2.trans ?_⟩
    have : (insertBack lt x sorted ++ xs).Perm ((x :: sorted) ++ xs) := hp.append_right xs
    refine this.trans ?_
    simpa using (@List.perm_middle _ x sorted xs).symm

/-- The sort returns a permutation of its input in ascending order of the keys, when `lt`
is the strict order of the keys on the elements of the input. -/
theorem sortSlice_sorted {α κ : Type} [LinearOrder κ] (lt : α → α → Bool) (key : α → κ)
    (P : α → Prop) (H : ∀ a b, P a → P b → (lt a b = true ↔ key a < key b))
    (l : List α) (hl : ∀ a ∈ l, P a) :
    (sortSlice lt l).Pairwise (fun a b => key a ≤ key b) ∧ (sortSlice lt l).Perm l := by
  obtain ⟨h1, h2⟩ := foldl_insertBack lt key P H l [] hl (by simp) List.Pairwise.nil
  refine ⟨List.pairwise_reverse.mpr h1, (List.reverse_perm _).trans ?_⟩
  simpa using h2

/-- Away from the special case, `less` is the strict lexicographic order of the triples. -/
theorem less_iff_tripleKey (x y : serverCertification)
    (h1 : ¬ (x.Entry.Type_ = "scheduler" ∧ y.Entry.Type_ = "kubelet"))
    (h2 : ¬ (x.Entry.Type_ = "kubelet" ∧ y.Entry.Type_ = "scheduler")) :
    less x y = true ↔ tripleKey x < tripleKey y := by
  have hkey : tripleKey x < tripleKey y ↔
      x.Entry.Type_ < y.Entry.Type_
        ∨ x.Entry.Type_ = y.Entry.Type_
          ∧ (x.Entry.Node < y.Entry.Node
              ∨ x.Entry.Node = y.Entry.Node ∧ x.Entry.Name < y.Entry.Name) := by
    simp only [tripleKey, Prod.Lex.lt_iff]
  rw [hkey]
  simp only [less, h1, h2, if_false, strLt_iff]
  by_cases hlt : x.Entry.Type_ < y.Entry.Type_
  · simp [-String.lt_iff_toList_lt, -String.le_iff_toList_le, hlt]
  · by_cases hgt : y.Entry.Type_ < x.Entry.Type_
    · have hne : x.Entry.Type_ ≠ y.Entry.Type_ := fun e => by
        rw [e] at hgt; exact lt_irrefl _ hgt
      simp [-String.lt_iff_toList_lt, -String.le_iff_toList_le, hlt, hgt, hne]
    · have heq : x.Entry.Type_ = y.Entry.Type_ :=
        le_antisymm (not_lt.mp hgt) (not_lt.mp hlt)
      simp only [hlt, hgt, if_false, heq, true_and, false_or]
      by_cases hn : x.Entry.Node < y.Entry.Node
      · simp [-String.lt_iff_toList_lt, -String.le_iff_toList_le, hn]
      · by_cases hn2 : y.Entry.Node < x.Entry.Node
        · have : x.Entry.Node ≠ y.Entry.Node := fun e => by
            rw [e] at hn2; exact lt_irrefl _ hn2
          simp [-String.lt_iff_toList_lt, -String.le_iff_toList_le, hn, hn2, this]
        · have hne : x.Entry.Node = y.Entry.Node :=
            le_antisymm (not_lt.mp hn2) (not_lt.mp hn)
          simp [-String.lt_iff_toList_lt, -String.le_iff_toList_le, hn, hn2, hne, strLt_iff]

/-- For all strings, no row is less than itself. -/
theorem less_irrefl (x : serverCertification) : less x x = false := by
  have h1 : ¬ (x.Entry.Type_ = "scheduler" ∧ x.Entry.Type_ = "kubelet") := by
    rintro ⟨a, b⟩
    rw [a] at b
    exact absurd b (by decide)
  have h2 : ¬ (x.Entry.Type_ = "kubelet" ∧ x.Entry.Type_ = "scheduler") :=
    fun h => h1 ⟨h.2, h.1⟩
  have := (less_iff_tripleKey x x h1 h2).not.mpr (lt_irrefl _)
  simpa using this

/-- For all strings, of two rows with different triples exactly one is less than the
other. -/
theorem less_trichotomy (x y : serverCertification)
    (hne : (x.Entry.Type_, x.Entry.Node, x.Entry.Name) ≠ (y.Entry.Type_, y.Entry.Node, y.Entry.Name)) :
    (less x y = true ∧ less y x = false) ∨ (less x y = false ∧ less y x = true) := by
  by_cases h1 : x.Entry.Type_ = "scheduler" ∧ y.Entry.Type_ = "kubelet"
  · left
    simp [less, h1]
  · by_cases h2 : x.Entry.Type_ = "kubelet" ∧ y.Entry.Type_ = "scheduler"
    · right
      simp [less, h2]
    · have e1 := less_iff_tripleKey x y h1 h2
      have e2 := less_iff_tripleKey y x (fun h => h2 ⟨h.2, h.1⟩) (fun h => h1 ⟨h.2, h.1⟩)
      have hk : tripleKey x ≠ tripleKey y := by
        intro e
        apply hne
        have := congrArg ofLex e
        simp only [tripleKey, ofLex_toLex, Prod.mk.injEq] at this
        obtain ⟨a, b⟩ := this
        have b2 := congrArg ofLex b
        simp only [ofLex_toLex, Prod.mk.injEq] at b2
        simp [a, b2.1, b2.2]
      rcases lt_or_gt_of_ne hk with h | h
      · left
        refine ⟨e1.mpr h, ?_⟩
        have := e2.not.mpr (lt_asymm h)
        simpa using this
      · right
        refine ⟨?_, e2.mpr h⟩
        have := e1.not.mpr (lt_asymm h)
        simpa using this

/-- The four types of the data model lie outside the gap. -/
theorem entry_types_outsideGap :
    OutsideGap "apiserver" ∧ OutsideGap "controller-manager" ∧ OutsideGap "scheduler"
      ∧ OutsideGap "kubelet" := by
  decide

/-- C5, counterexample: three rows of types `kubelet`, `l` and `scheduler` come out of the sort
in an order that is not the claimed one, and no arrangement of them is in the claimed order. -/
theorem C5_counterexample_gap_type :
    ¬ ReportOrder (reportRows
        [rowOf "kubelet" "n" "a", rowOf "l" "n" "a", rowOf "scheduler" "n" "a"])
    ∧ ¬ ∃ out : List serverCertification,
        out.Perm [rowOf "kubelet" "n" "a", rowOf "l" "n" "a", rowOf "scheduler" "n" "a"]
          ∧ ReportOrder out := by
  refine ⟨by decide, ?_⟩
  rintro ⟨out, hp, ho⟩
  have hmem := List.mem_permutations'.mpr hp
  have hall : ∀ l ∈ List.permutations'
      [rowOf "kubelet" "n" "a", rowOf "l" "n" "a", rowOf "scheduler" "n" "a"],
      ¬ ReportOrder l := by decide
  exact hall out hmem ho

/-- C5, amended: for every list of collected rows none of whose types sorts strictly between
`kubelet` and `scheduler` (as is the case when the types are among `apiserver`,
`controller-manager`, `scheduler` and `kubelet`), the sorted report holds the same rows,
every scheduler row precedes every kubelet row, and all other pairs of rows are in ascending
lexicographic order of (type, node, name). -/
theorem C5_report_order (rows : List serverCertification)
    (h : ∀ r ∈ rows, OutsideGap r.Entry.Type_) :
    ReportOrder (reportRows rows) ∧ (reportRows rows).Perm rows := by
  obtain ⟨hs, hp⟩ := sortSlice_sorted less sortKey (fun r => OutsideGap r.Entry.Type_)
    (fun a b ha hb => less_iff_sortKey a b ha hb) rows h
  refine ⟨?_, hp⟩
  unfold ReportOrder reportRows
  refine List.Pairwise.imp_of_mem ?_ hs
  intro a b ha hb hab
  have hPa := h a (hp.subset ha)
  have hPb := h b (hp.subset hb)
  rw [rowsInOrder_iff]
  have := (less_iff_sortKey b a hPb hPa).not.mpr (not_lt.mpr hab)
  simpa using this

/-- Witness of C5 on rows of the four types of the data model. -/
theorem C5_report_order_witness :
    reportRows [rowOf "kubelet" "n2" "server-cert", rowOf "scheduler" "n1" "client-cert",
        rowOf "apiserver" "n1" "tls-cert-file", rowOf "controller-manager" "n1" "client-cert",
        rowOf "kubelet" "n1" "server-cert"]
      = [rowOf "apiserver" "n1" "tls-cert-file", rowOf "controller-manager" "n1" "client-cert",
        rowOf "scheduler" "n1" "client-cert", rowOf "kubelet" "n1" "server-cert",
        rowOf "kubelet" "n2" "server-cert"]
    ∧ ReportOrder (reportRows [rowOf "kubelet" "n2" "server-cert",
        rowOf "scheduler" "n1" "client-cert", rowOf "apiserver" "n1" "tls-cert-file",
        rowOf "controller-manager" "n1" "client-cert", rowOf "kubelet" "n1" "server-cert"]) :=
  ⟨by decide, (C5_report_order _ (by decide)).1⟩

/-- C6, counterexample: with a type between `kubelet` and `scheduler` the comparison is not
transitive: `kubelet` is less than `l`, `l` is less than `scheduler`, and `kubelet` is not
less than `scheduler`. -/
theorem C6_counterexample_not_transitive :
    less (rowOf "kubelet" "n" "a") (rowOf "l" "n" "a") = true
    ∧ less (rowOf "l" "n" "a") (rowOf "scheduler" "n" "a") = true
    ∧ less (rowOf "kubelet" "n" "a") (rowOf "scheduler" "n" "a") = false := by
  decide

/-- C6, amended: on rows whose types do not sort strictly between `kubelet` and `scheduler`
the comparison is a strict total order on the triples (type, node, name): it is
irreflexive, of two rows with different triples exactly one is less than the other (both
for every type), and it is transitive. -/
theorem C6_less_strict_total_order (x y z : serverCertification)
    (hx : OutsideGap x.Entry.Type_) (hy : OutsideGap y.Entry.Type_)
    (hz : OutsideGap z.Entry.Type_) :
    less x x = false
    ∧ ((x.Entry.Type_, x.Entry.Node, x.Entry.Name) ≠ (y.Entry.Type_, y.Entry.Node, y.Entry.Name) →
        (less x y = true ∧ less y x = false) ∨ (less x y = false ∧ less y x = true))
    ∧ (less x y = true → less y z = true → less x z = true) := by
  refine ⟨less_irrefl x, less_trichotomy x y, ?_⟩
  intro hxy hyz
  rw [less_iff_sortKey x y hx hy] at hxy
  rw [less_iff_sortKey y z hy hz] at hyz
  rw [less_iff_sortKey x z hx hz]
  exact lt_trans hxy hyz

/-- Witness of C6 on rows of types `apiserver`, `scheduler` and `kubelet`. -/
theorem C6_less_strict_total_order_witness :
    less (rowOf "apiserver" "n" "a") (rowOf "scheduler" "n" "a") = true
    ∧ less (rowOf "scheduler" "n" "a") (rowOf "kubelet" "n" "a") = true
    ∧ less (rowOf "apiserver" "n" "a") (rowOf "kubelet" "n" "a") = true :=
  ⟨by decide, by decide,
    (C6_less_strict_total_order (rowOf "apiserver" "n" "a") (rowOf "scheduler" "n" "a")
      (rowOf "kubelet" "n" "a") (by decide) (by decide) (by decide)).2.2
      (by decide) (by decide)⟩

/-- When every attempt fails, the loop leaves the empty text in `command` (and the last
error in `err`, which the worker does not read). -/
theorem retryLoop_all_fail (outcomes : Nat → StreamOutcome) (n i : Nat)
    (state : String × Option String) (h0 : state.1 = "")
    (h : ∀ k, i ≤ k → k < i + n → (ExecPod ["krawler"] (outcomes k)).2 ≠ none) :
    (retryLoop outcomes n i state).1 = "" := by
  induction n generalizing i state with
  | zero => simpa [retryLoop] using h0
  | succ n ih =>
    unfold retryLoop
    have hi := h i (le_refl _) (by omega)
    simp only [hi, if_false]
    apply ih
    · cases ho : outcomes i with
      | executorError url msg => simp [ExecPod]
      | streamError msg => simp [ExecPod]
      | done stdout stderr => simp [ExecPod, ho] at hi
    · intro k hk1 hk2
      exact h k (by omega) (by omega)

/-- When the first attempt succeeds, the loop leaves its standard output in `command`. -/
theorem retryLoop_first_done (outcomes : Nat → StreamOutcome) (stdout stderr : String)
    (err : Option String) (h : outcomes 1 = .done stdout stderr) :
    retryLoop outcomes 5 1 ("", err) = (stdout, none) := by
  simp [retryLoop, h, ExecPod]

/-- A worker whose five attempts all fail sends exactly one row, and its warning is empty. -/
theorem agentWorker_all_fail (ca : Bool) (nodeName : String) (now : Time)
    (err : Option String) (outcomes : Nat → StreamOutcome)
    (h : ∀ k, 1 ≤ k → k ≤ 5 → (ExecPod ["krawler"] (outcomes k)).2 ≠ none) :
    agentWorker ca nodeName now err outcomes
      = [⟨⟨"kubelet", nodeName, "Error", 0, now, ""⟩, ""⟩] := by
  have hc := retryLoop_all_fail outcomes 5 1 ("", err) rfl
    (fun k hk1 hk2 => h k hk1 (by omega))
  have hj : (isJSON "").2 = false := by decide
  simp only [agentWorker, hc, hj]
  rfl

/-- C8 (the code departs from the claim): a worker whose remote stream fails with
`connection refused` at every attempt ends the loop with the error text
`krawler: connection refused` in `err`, and sends exactly one row, whose warning is the
empty text. -/
theorem C8_all_attempts_fail_empty_warning :
    (retryLoop (fun _ => .streamError "connection refused") 5 1 ("", none)).2
      = some "krawler: connection refused"
    ∧ agentWorker false "node1" Time.zero none (fun _ => .streamError "connection refused")
      = [⟨⟨"kubelet", "node1", "Error", 0, Time.zero, ""⟩, ""⟩] := by
  decide

/-- C9, counterexample: the report with the single entry (kubelet, n1, server-cert, 10,
2030-01-01T00:00:00Z, /p), received while no API server has been seen with a non-empty
`--kubelet-certificate-authority`, gives one row whose warning is not empty. -/
theorem C9_counterexample_server_cert_warning :
    agentWorker false "n1" Time.zero none
        (fun _ => .done "\x7b\"entry\":[\x7b\"type\":\"kubelet\",\"node\":\"n1\",\"name\":\"server-cert\",\"days\":10,\"due\":\"2030-01-01T00:00:00Z\",\"path\":\"/p\"\x7d]\x7d" "")
      = [⟨⟨"kubelet", "n1", "server-cert", 10, ⟨2030, 1, 1, 0, 0, 0, 0, 0⟩, "/p"⟩,
          "Can be ignored this."⟩] := by
  decide

/-- C9, amended: for every report that `isJSON` accepts, the worker sends exactly one row
per entry, in order, carrying the entry unchanged; the warning is empty, except that an
entry named `server-cert` carries `Can be ignored this.` while `checkKubeletWithCA` is
false.  The report with the single entry (kubelet, n1, server-cert, 10,
2030-01-01T00:00:00Z, /p) gives exactly one row, without warning when `checkKubeletWithCA`
is true. -/
theorem C9_report_rows (ca : Bool) (nodeName : String) (now : Time) (err : Option String)
    (outcomes : Nat → StreamOutcome) (text : String) (out : Output)
    (hcmd : (retryLoop outcomes 5 1 ("", err)).1 = text)
    (hjson : unmarshalOutput text = some out) :
    agentWorker ca nodeName now err outcomes
        = out.Entries.map (fun v =>
            ⟨v, if v.Name = "server-cert" ∧ ca = false then "Can be ignored this." else ""⟩)
    ∧ (agentWorker ca nodeName now err outcomes).length = out.Entries.length
    ∧ (agentWorker ca nodeName now err outcomes).map (fun r => r.Entry) = out.Entries
    ∧ (∀ r ∈ agentWorker ca nodeName now err outcomes,
        r.Entry.Name ≠ "server-cert" ∨ ca = true → r.Warning = "")
    ∧ agentWorker true "n1" Time.zero none
        (fun _ => .done "\x7b\"entry\":[\x7b\"type\":\"kubelet\",\"node\":\"n1\",\"name\":\"server-cert\",\"days\":10,\"due\":\"2030-01-01T00:00:00Z\",\"path\":\"/p\"\x7d]\x7d" "")
      = [⟨⟨"kubelet", "n1", "server-cert", 10, ⟨2030, 1, 1, 0, 0, 0, 0, 0⟩, "/p"⟩, ""⟩] := by
  have hw : agentWorker ca nodeName now err outcomes
      = out.Entries.map (fun v =>
          ⟨v, if v.Name = "server-cert" ∧ ca = false then "Can be ignored this." else ""⟩) := by
    simp only [agentWorker, hcmd, isJSON, hjson, if_true]
  refine ⟨hw, ?_, ?_, ?_, by decide⟩
  · rw [hw, List.length_map]
  · rw [hw, List.map_map]
    simp [Function.comp_def]
  · intro r hr hcond
    rw [hw, List.mem_map] at hr
    obtain ⟨v, -, rfl⟩ := hr
    rcases hcond with h | h
    · simp at h
      simp [h]
    · simp [h]

/-- Witness of C9 on a report with a server and a client entry. -/
theorem C9_report_rows_witness :
    agentWorker false "n1" Time.zero none
        (fun _ => .done "\x7b\"entry\":[\x7b\"type\":\"kubelet\",\"node\":\"n1\",\"name\":\"server-cert\",\"days\":10,\"due\":\"2030-01-01T00:00:00Z\",\"path\":\"/p\"\x7d,\x7b\"type\":\"kubelet\",\"node\":\"n1\",\"name\":\"client-cert\",\"days\":-3,\"due\":\"2020-05-06T07:08:09Z\",\"path\":\"/q\"\x7d]\x7d" "")
      = [⟨⟨"kubelet", "n1", "server-cert", 10, ⟨2030, 1, 1, 0, 0, 0, 0, 0⟩, "/p"⟩,
          "Can be ignored this."⟩,
         ⟨⟨"kubelet", "n1", "client-cert", -3, ⟨2020, 5, 6, 7, 8, 9, 0, 0⟩, "/q"⟩, ""⟩] :=
  (C9_report_rows false "n1" Time.zero none
    (fun _ => .done "\x7b\"entry\":[\x7b\"type\":\"kubelet\",\"node\":\"n1\",\"name\":\"server-cert\",\"days\":10,\"due\":\"2030-01-01T00:00:00Z\",\"path\":\"/p\"\x7d,\x7b\"type\":\"kubelet\",\"node\":\"n1\",\"name\":\"client-cert\",\"days\":-3,\"due\":\"2020-05-06T07:08:09Z\",\"path\":\"/q\"\x7d]\x7d" "")
    "\x7b\"entry\":[\x7b\"type\":\"kubelet\",\"node\":\"n1\",\"name\":\"server-cert\",\"days\":10,\"due\":\"2030-01-01T00:00:00Z\",\"path\":\"/p\"\x7d,\x7b\"type\":\"kubelet\",\"node\":\"n1\",\"name\":\"client-cert\",\"days\":-3,\"due\":\"2020-05-06T07:08:09Z\",\"path\":\"/q\"\x7d]\x7d"
    ⟨[⟨"kubelet", "n1", "server-cert", 10, ⟨2030, 1, 1, 0, 0, 0, 0, 0⟩, "/p"⟩,
      ⟨"kubelet", "n1", "client-cert", -3, ⟨2020, 5, 6, 7, 8, 9, 0, 0⟩, "/q"⟩]⟩
    (by decide) (by decide)).1

/-- A text that is not a JSON document is rejected by `json.Unmarshal`. -/
theorem unmarshalOutput_not_json (text : String) (h : parseJson text = none) :
    unmarshalOutput text = none := by
  simp [unmarshalOutput, h]

/-- A JSON document that is an array, a string, a number or a boolean is rejected. -/
theorem unmarshalOutput_not_object (text : String) (j : Json) (h : parseJson text = some j)
    (hobj : ∀ ms, j ≠ .obj ms) (hnull : j ≠ .null) : unmarshalOutput text = none := by
  cases j with
  | null => exact absurd rfl hnull
  | obj ms => exact absurd rfl (hobj ms)
  | bool b => simp [unmarshalOutput, h]
  | num l => simp [unmarshalOutput, h]
  | str s => simp [unmarshalOutput, h]
  | arr l => simp [unmarshalOutput, h]

/-- C10, counterexample: the agent outputs `\x7b\x7d` and `null`, which have no `entry` array, are
accepted by `isJSON` as reports without entries: the worker sends no row at all. -/
theorem C10_counterexample_empty_object :
    agentWorker false "node1" Time.zero none (fun _ => .done "\x7b\x7d" "") = []
    ∧ agentWorker false "node1" Time.zero none (fun _ => .done "null" "") = [] := by
  decide

/-- C10, amended: for every agent output text that `json.Unmarshal` cannot decode into
`Output`, the worker sends exactly one row, with type `kubelet`, the node of the pod, name
`Error`, days 0, and the raw text as warning. -/
theorem C10_diagnostic_row (ca : Bool) (nodeName : String) (now : Time) (err : Option String)
    (outcomes : Nat → StreamOutcome) (text : String)
    (hcmd : (retryLoop outcomes 5 1 ("", err)).1 = text)
    (hjson : unmarshalOutput text = none) :
    agentWorker ca nodeName now err outcomes
      = [⟨⟨"kubelet", nodeName, "Error", 0, now, ""⟩, text⟩] := by
  simp [agentWorker, hcmd, isJSON, hjson]

/-- Witness of C10 on an agent that prints a read failure. -/
theorem C10_diagnostic_row_witness :
    agentWorker false "node1" Time.zero none
        (fun _ => .done "Read file fail: /etc/hostname" "")
      = [⟨⟨"kubelet", "node1", "Error", 0, Time.zero, ""⟩, "Read file fail: /etc/hostname"⟩] :=
  C10_diagnostic_row false "node1" Time.zero none
    (fun _ => .done "Read file fail: /etc/hostname" "") "Read file fail: /etc/hostname"
    (by decide) (by decide)

end CheckCert

/-! ## float64 rounding and the days left (C7) -/

namespace GoLib

theorem roundHalfEven_le (x : ℚ) : (roundHalfEven x : ℚ) ≤ x + 1 / 2 := by
  have h1 : (⌊x⌋ : ℚ) ≤ x := Int.floor_le x
  unfold roundHalfEven
  split_ifs with a b c
  · linarith
  · push_cast; linarith [Int.lt_floor_add_one x]
  · linarith
  · push_cast
    have : x - ⌊x⌋ = 1 / 2 := le_antisymm (not_lt.mp b) (not_lt.mp a)
    linarith

theorem le_roundHalfEven (x : ℚ) : x - 1 / 2 ≤ (roundHalfEven x : ℚ) := by
  have h1 : (⌊x⌋ : ℚ) ≤ x := Int.floor_le x
  have h2 : x < ⌊x⌋ + 1 := Int.lt_floor_add_one x
  unfold roundHalfEven
  split_ifs with a b c
  · linarith
  · push_cast; linarith
  · have : x - ⌊x⌋ = 1 / 2 := le_antisymm (not_lt.mp b) (not_lt.mp a)
    linarith
  · push_cast; linarith

theorem roundHalfEven_intCast (n : ℤ) : roundHalfEven (n : ℚ) = n := by
  unfold roundHalfEven
  simp

theorem roundHalfEven_mono {x y : ℚ} (h : x ≤ y) : roundHalfEven x ≤ roundHalfEven y := by
  rcases eq_or_lt_of_le h with rfl | hlt
  · exact le_refl _
  · have h1 := roundHalfEven_le x
    have h2 := le_roundHalfEven y
    have h3 : (roundHalfEven x : ℚ) < (roundHalfEven y : ℚ) + 1 := by linarith
    have h4 : roundHalfEven x < roundHalfEven y + 1 := by exact_mod_cast h3
    omega

/-- The unit in the last place of a positive rational is positive. -/
theorem ulp_pos (x : ℚ) : (0 : ℚ) < 2 ^ (Int.log 2 x - 52) := by positivity

/-- A positive rational divided by its unit in the last place lies in `[2^52, 2^53)`. -/
theorem scaled_bounds {x : ℚ} (hx : 0 < x) :
    (2 : ℚ) ^ (52 : ℕ) ≤ x / 2 ^ (Int.log 2 x - 52)
      ∧ x / 2 ^ (Int.log 2 x - 52) < (2 : ℚ) ^ (53 : ℕ) := by
  have h1 : (2 : ℚ) ^ Int.log 2 x ≤ x := by
    have := Int.zpow_log_le_self (b := 2) (by norm_num) hx
    simpa using this
  have h2 : x < (2 : ℚ) ^ (Int.log 2 x + 1) := by
    have := Int.lt_zpow_succ_log_self (b := 2) (by norm_num) x
    simpa using this
  have hu := ulp_pos x
  have e1 : (2 : ℚ) ^ Int.log 2 x = 2 ^ (52 : ℕ) * 2 ^ (Int.log 2 x - 52) := by
    rw [← zpow_natCast, ← zpow_add₀ (by norm_num : (2 : ℚ) ≠ 0)]
    congr 1
    omega
  have e2 : (2 : ℚ) ^ (Int.log 2 x + 1) = 2 ^ (53 : ℕ) * 2 ^ (Int.log 2 x - 52) := by
    rw [← zpow_natCast, ← zpow_add₀ (by norm_num : (2 : ℚ) ≠ 0)]
    congr 1
    omega
  constructor
  · rw [le_div_iff₀ hu, ← e1]; exact h1
  · rw [div_lt_iff₀ hu, ← e2]; exact h2

theorem roundPos_lower {x : ℚ} (hx : 0 < x) : (2 : ℚ) ^ Int.log 2 x ≤ roundPos x := by
  have hu := ulp_pos x
  have hb := (scaled_bounds hx).1
  have h : ((2 ^ 52 : ℤ) : ℚ) ≤ (roundHalfEven (x / 2 ^ (Int.log 2 x - 52)) : ℚ) := by
    have := roundHalfEven_mono (x := ((2 ^ 52 : ℤ) : ℚ)) (y := x / 2 ^ (Int.log 2 x - 52))
      (by push_cast; exact hb)
    rw [roundHalfEven_intCast] at this
    exact_mod_cast this
  have e1 : (2 : ℚ) ^ Int.log 2 x = ((2 ^ 52 : ℤ) : ℚ) * 2 ^ (Int.log 2 x - 52) := by
    have hc : ((2 ^ 52 : ℤ) : ℚ) = (2 : ℚ) ^ (52 : ℕ) := by norm_num
    rw [hc, ← zpow_natCast, ← zpow_add₀ (by norm_num : (2 : ℚ) ≠ 0)]
    congr 1
    omega
  rw [e1]
  unfold roundPos
  exact mul_le_mul_of_nonneg_right h (le_of_lt hu)

theorem roundPos_upper {x : ℚ} (hx : 0 < x) : roundPos x ≤ (2 : ℚ) ^ (Int.log 2 x + 1) := by
  have hu := ulp_pos x
  have hb := (scaled_bounds hx).2
  have h : (roundHalfEven (x / 2 ^ (Int.log 2 x - 52)) : ℚ) ≤ ((2 ^ 53 : ℤ) : ℚ) := by
    have := roundHalfEven_mono (x := x / 2 ^ (Int.log 2 x - 52)) (y := ((2 ^ 53 : ℤ) : ℚ))
      (by push_cast; exact le_of_lt hb)
    rw [roundHalfEven_intCast] at this
    exact_mod_cast this
  have e2 : (2 : ℚ) ^ (Int.log 2 x + 1) = ((2 ^ 53 : ℤ) : ℚ) * 2 ^ (Int.log 2 x - 52) := by
    have hc : ((2 ^ 53 : ℤ) : ℚ) = (2 : ℚ) ^ (53 : ℕ) := by norm_num
    rw [hc, ← zpow_natCast, ← zpow_add₀ (by norm_num : (2 : ℚ) ≠ 0)]
    congr 1
    omega
  rw [e2]
  unfold roundPos
  exact mul_le_mul_of_nonneg_right h (le_of_lt hu)

theorem roundPos_pos {x : ℚ} (hx : 0 < x) : 0 < roundPos x :=
  lt_of_lt_of_le (by positivity) (roundPos_lower hx)

theorem roundPos_mono {x y : ℚ} (hx : 0 < x) (h : x ≤ y) : roundPos x ≤ roundPos y := by
  have hy : 0 < y := lt_of_lt_of_le hx h
  have hlog : Int.log 2 x ≤ Int.log 2 y := Int.log_mono_right hx h
  rcases eq_or_lt_of_le hlog with e | hlt
  · unfold roundPos
    rw [e]
    have hu := ulp_pos y
    apply mul_le_mul_of_nonneg_right _ (le_of_lt hu)
    have : x / 2 ^ (Int.log 2 y - 52) ≤ y / 2 ^ (Int.log 2 y - 52) :=
      div_le_div_of_nonneg_right h (le_of_lt hu)
    exact_mod_cast roundHalfEven_mono this
  · calc roundPos x ≤ (2 : ℚ) ^ (Int.log 2 x + 1) := roundPos_upper hx
      _ ≤ (2 : ℚ) ^ Int.log 2 y := zpow_le_zpow_right₀ (by norm_num) (by omega)
      _ ≤ roundPos y := roundPos_lower hy

theorem float64_neg (x : ℚ) : float64 (-x) = - float64 x := by
  unfold float64
  rcases lt_trichotomy x 0 with h | h | h
  · have h1 : ¬ (0 < x) := not_lt.mpr (le_of_lt h)
    have h2 : (0 : ℚ) < -x := by linarith
    simp [h.ne, h1, h2, neg_eq_zero]
  · simp [h]
  · have h1 : ¬ ((0 : ℚ) < -x) := by linarith
    simp [h.ne', h, h1, neg_eq_zero]

theorem float64_zero : float64 0 = 0 := by simp [float64]

theorem float64_nonneg {x : ℚ} (hx : 0 ≤ x) : 0 ≤ float64 x := by
  rcases eq_or_lt_of_le hx with rfl | h
  · simp [float64]
  · simp only [float64, h.ne', h, if_false, if_true]
    exact le_of_lt (roundPos_pos h)

/-- Rounding to float64 is monotone. -/
theorem float64_mono {x y : ℚ} (h : x ≤ y) : float64 x ≤ float64 y := by
  rcases lt_trichotomy x 0 with hx | hx | hx
  · rcases lt_trichotomy y 0 with hy | hy | hy
    · have := roundPos_mono (x := -y) (y := -x) (by linarith) (by linarith)
      have h1 : ¬ (0 < x) := by linarith
      have h2 : ¬ (0 < y) := by linarith
      simp only [float64, hx.ne, hy.ne, h1, h2, if_false]
      linarith
    · subst hy
      have := float64_nonneg (x := -x) (by linarith)
      rw [float64_neg] at this
      rw [float64_zero]
      linarith
    · have h1 := float64_nonneg (x := -x) (by linarith)
      rw [float64_neg] at h1
      have h2 := float64_nonneg (le_of_lt hy)
      linarith
  · subst hx
    rw [float64_zero]
    exact float64_nonneg h
  · have hy : 0 < y := lt_of_lt_of_le hx h
    simp only [float64, hx.ne', hy.ne', hx, hy, if_false, if_true]
    exact roundPos_mono hx h

/-- A positive number with a significand of at most 53 binary digits is its own float64. -/
theorem roundPos_dyadic (m : ℕ) (k : ℤ) (hm : 0 < m) (hlt : m < 2 ^ 53) :
    roundPos ((m : ℚ) * 2 ^ k) = (m : ℚ) * 2 ^ k := by
  have h2 : (2 : ℚ) ≠ 0 := by norm_num
  have hx : (0 : ℚ) < (m : ℚ) * 2 ^ k := by positivity
  have h1 : (2 : ℚ) ^ Int.log 2 ((m : ℚ) * 2 ^ k) ≤ (m : ℚ) * 2 ^ k := by
    have := Int.zpow_log_le_self (b := 2) (by norm_num) hx
    simpa using this
  have hm53 : (m : ℚ) < 2 ^ (53 : ℤ) := by
    have h5 : (m : ℚ) < ((2 ^ 53 : ℕ) : ℚ) := by exact_mod_cast hlt
    have h6 : ((2 ^ 53 : ℕ) : ℚ) = 2 ^ (53 : ℤ) := by norm_num
    rw [h6] at h5
    exact h5
  have h3 : (m : ℚ) * 2 ^ k < 2 ^ (53 + k) := by
    rw [zpow_add₀ h2]
    exact mul_lt_mul_of_pos_right hm53 (by positivity)
  have h4 : Int.log 2 ((m : ℚ) * 2 ^ k) < 53 + k := by
    have := lt_of_le_of_lt h1 h3
    exact (zpow_lt_zpow_iff_right₀ (by norm_num : (1 : ℚ) < 2)).mp this
  obtain ⟨n, hn⟩ : ∃ n : ℕ, (n : ℤ) = k - Int.log 2 ((m : ℚ) * 2 ^ k) + 52 :=
    ⟨(k - Int.log 2 ((m : ℚ) * 2 ^ k) + 52).toNat, by omega⟩
  have hdiv : (m : ℚ) * 2 ^ k / 2 ^ (Int.log 2 ((m : ℚ) * 2 ^ k) - 52)
      = (((m * 2 ^ n : ℕ) : ℤ) : ℚ) := by
    rw [mul_div_assoc, ← zpow_sub₀ h2]
    have : k - (Int.log 2 ((m : ℚ) * 2 ^ k) - 52) = (n : ℤ) := by omega
    rw [this, zpow_natCast]
    push_cast
    ring
  unfold roundPos
  rw [hdiv, roundHalfEven_intCast]
  push_cast
  rw [mul_assoc, ← zpow_natCast, ← zpow_add₀ h2]
  congr 2
  omega

/-- A number with a significand of at most 53 binary digits is its own float64. -/
theorem float64_dyadic (m k : ℤ) (hlt : |m| < 2 ^ 53) :
    float64 ((m : ℚ) * 2 ^ k) = (m : ℚ) * 2 ^ k := by
  have h2 : (0 : ℚ) < 2 ^ k := by positivity
  rcases lt_trichotomy m 0 with h | h | h
  · obtain ⟨n, hn⟩ : ∃ n : ℕ, (n : ℤ) = -m := ⟨(-m).toNat, by omega⟩
    have hn0 : 0 < n := by omega
    have hn53 : n < 2 ^ 53 := by
      have : (n : ℤ) < 2 ^ 53 := by rw [hn]; rw [abs_lt] at hlt; omega
      exact_mod_cast this
    have hx : (m : ℚ) * 2 ^ k = - ((n : ℚ) * 2 ^ k) := by
      have : (m : ℚ) = - (n : ℚ) := by
        have : (m : ℤ) = - (n : ℤ) := by omega
        exact_mod_cast this
      rw [this]; ring
    have hpos : (0 : ℚ) < (n : ℚ) * 2 ^ k := by positivity
    rw [hx, float64_neg]
    simp only [float64, hpos.ne', hpos, if_false, if_true]
    rw [roundPos_dyadic n k hn0 hn53]
  · subst h
    simp [float64]
  · obtain ⟨n, hn⟩ : ∃ n : ℕ, (n : ℤ) = m := ⟨m.toNat, by omega⟩
    have hn0 : 0 < n := by omega
    have hn53 : n < 2 ^ 53 := by
      have : (n : ℤ) < 2 ^ 53 := by rw [hn]; rw [abs_lt] at hlt; omega
      exact_mod_cast this
    have hx : (m : ℚ) * 2 ^ k = (n : ℚ) * 2 ^ k := by
      have : (m : ℚ) = (n : ℚ) := by exact_mod_cast hn.symm
      rw [this]
    have hpos : (0 : ℚ) < (n : ℚ) * 2 ^ k := by positivity
    rw [hx]
    simp only [float64, hpos.ne', hpos, if_false, if_true]
    exact roundPos_dyadic n k hn0 hn53

/-- An integer below `2 ^ 53` in absolute value is its own float64. -/
theorem float64_intCast (n : ℤ) (h : |n| < 2 ^ 53) : float64 (n : ℚ) = n := by
  have := float64_dyadic n 0 h
  simpa using this

theorem float64_one : float64 1 = 1 := by
  have := float64_intCast 1 (by norm_num)
  simpa using this

/-- The float64 of `n - 2 ^ (-j)` is exact when `n * 2 ^ j` is below `2 ^ 53`. -/
theorem float64_sub_two_pow (n : ℤ) (j : ℕ) (h0 : 0 < n) (h : n * 2 ^ j < 2 ^ 53) :
    float64 ((n : ℚ) - 2 ^ (-(j : ℤ))) = (n : ℚ) - 2 ^ (-(j : ℤ)) := by
  have hj : (0 : ℤ) < 2 ^ j := by positivity
  have e : (n : ℚ) - 2 ^ (-(j : ℤ)) = ((n * 2 ^ j - 1 : ℤ) : ℚ) * 2 ^ (-(j : ℤ)) := by
    push_cast
    rw [sub_mul, mul_assoc, ← zpow_natCast, ← zpow_add₀ (by norm_num : (2 : ℚ) ≠ 0)]
    simp
  rw [e]
  apply float64_dyadic
  rw [abs_lt]
  constructor
  · nlinarith
  · omega

/-- Bounds on `Duration.Hours` of a non-negative duration: it lies between the whole hours
and one more, it is the whole hours when no nanoseconds are left over, and it stays
`2 ^ (-j)` below the next hour when the left-over does. -/
theorem durationHours_bounds (d : ℤ) (h0 : 0 ≤ d) (hmax : d ≤ 2 ^ 63) :
    ((d / Hour : ℤ) : ℚ) ≤ durationHours d
    ∧ durationHours d ≤ ((d / Hour : ℤ) : ℚ) + 1
    ∧ (d % Hour = 0 → durationHours d = ((d / Hour : ℤ) : ℚ))
    ∧ (∀ j : ℕ, ((d % Hour : ℤ) : ℚ) / 3600000000000 ≤ 1 - 2 ^ (-(j : ℤ)) →
        (d / Hour + 1) * 2 ^ j < 2 ^ 53 →
        durationHours d ≤ ((d / Hour : ℤ) : ℚ) + 1 - 2 ^ (-(j : ℤ))) := by
  have hH : Hour = 3600000000000 := by norm_num [Hour]
  have hM : (2 : ℤ) ^ 63 = 9223372036854775808 := by norm_num
  rw [hM] at hmax
  have e1 : Int.tdiv d Hour = d / Hour := Int.tdiv_eq_ediv h0 (by rw [hH]; norm_num)
  have e2 : Int.tmod d Hour = d % Hour := Int.tmod_eq_emod h0 (by rw [hH]; norm_num)
  have hh0 : 0 ≤ d / Hour := by rw [hH]; omega
  have hh1 : d / Hour < 2562048 := by rw [hH]; omega
  have hn0 : 0 ≤ d % Hour := by rw [hH]; omega
  have hn1 : d % Hour < 3600000000000 := by rw [hH]; omega
  have fh : float64 ((d / Hour : ℤ) : ℚ) = ((d / Hour : ℤ) : ℚ) :=
    float64_intCast _ (by rw [abs_lt]; constructor <;> omega)
  have fh1 : float64 (((d / Hour : ℤ) : ℚ) + 1) = ((d / Hour : ℤ) : ℚ) + 1 := by
    have := float64_intCast (d / Hour + 1) (by rw [abs_lt]; constructor <;> omega)
    push_cast at this
    exact this
  have fn : float64 ((d % Hour : ℤ) : ℚ) = ((d % Hour : ℤ) : ℚ) :=
    float64_intCast _ (by rw [abs_lt]; constructor <;> omega)
  have hq0 : (0 : ℚ) ≤ ((d % Hour : ℤ) : ℚ) / 3600000000000 := by
    have : (0 : ℚ) ≤ ((d % Hour : ℤ) : ℚ) := by exact_mod_cast hn0
    positivity
  have hq1 : ((d % Hour : ℤ) : ℚ) / 3600000000000 ≤ 1 := by
    have : ((d % Hour : ℤ) : ℚ) ≤ 3600000000000 := by exact_mod_cast le_of_lt hn1
    rw [div_le_one (by norm_num)]
    exact this
  have hf0 : 0 ≤ float64 (((d % Hour : ℤ) : ℚ) / 3600000000000) := float64_nonneg hq0
  have hf1 : float64 (((d % Hour : ℤ) : ℚ) / 3600000000000) ≤ 1 := by
    have := float64_mono hq1
    rwa [float64_one] at this
  have hdef : durationHours d = float64 (((d / Hour : ℤ) : ℚ)
      + float64 (((d % Hour : ℤ) : ℚ) / 3600000000000)) := by
    unfold durationHours
    rw [e1, e2, fh, fn]
  refine ⟨?_, ?_, ?_, ?_⟩
  · rw [hdef]
    have := float64_mono (x := ((d / Hour : ℤ) : ℚ))
      (y := ((d / Hour : ℤ) : ℚ) + float64 (((d % Hour : ℤ) : ℚ) / 3600000000000))
      (by linarith)
    rwa [fh] at this
  · rw [hdef]
    have := float64_mono
      (x := ((d / Hour : ℤ) : ℚ) + float64 (((d % Hour : ℤ) : ℚ) / 3600000000000))
      (y := ((d / Hour : ℤ) : ℚ) + 1) (by linarith)
    rwa [fh1] at this
  · intro hz
    rw [hdef, hz]
    simp [float64_zero, fh]
  · intro j hq hm
    have hj : (0 : ℤ) < 2 ^ j := by positivity
    have hone : (1 : ℤ) * 2 ^ j < 2 ^ 53 := by nlinarith
    have f1 : float64 ((1 : ℚ) - 2 ^ (-(j : ℤ))) = 1 - 2 ^ (-(j : ℤ)) := by
      have := float64_sub_two_pow 1 j (by norm_num) hone
      simpa using this
    have hfq : float64 (((d % Hour : ℤ) : ℚ) / 3600000000000) ≤ 1 - 2 ^ (-(j : ℤ)) := by
      have := float64_mono hq
      rwa [f1] at this
    have f2 : float64 (((d / Hour : ℤ) : ℚ) + 1 - 2 ^ (-(j : ℤ)))
        = ((d / Hour : ℤ) : ℚ) + 1 - 2 ^ (-(j : ℤ)) := by
      have := float64_sub_two_pow (d / Hour + 1) j (by omega) hm
      push_cast at this
      exact this
    rw [hdef]
    have := float64_mono
      (x := ((d / Hour : ℤ) : ℚ) + float64 (((d % Hour : ℤ) : ℚ) / 3600000000000))
      (y := ((d / Hour : ℤ) : ℚ) + 1 - 2 ^ (-(j : ℤ))) (by linarith)
    rwa [f2] at this

end GoLib

namespace CheckCert

open GoLib

/-- For a non-negative duration the days lie between the whole days and one more, and are
the whole days when the hours stay `2 ^ (-j)` below the next day. -/
theorem expiresIn_nonneg_core (d : ℤ) (h0 : 0 ≤ d) (hmax : d ≤ 2 ^ 63) :
    d / (24 * Hour) ≤ expiresIn d
    ∧ expiresIn d ≤ d / (24 * Hour) + 1
    ∧ (∀ j : ℕ, (d / Hour + 1) * 2 ^ j < 2 ^ 53 → (d / (24 * Hour) + 1) * 2 ^ (j + 5) < 2 ^ 53 →
        (d / Hour = 24 * (d / (24 * Hour)) + 23 →
          ((d % Hour : ℤ) : ℚ) / 3600000000000 ≤ 1 - 2 ^ (-(j : ℤ))) →
        expiresIn d = d / (24 * Hour)) := by
  obtain ⟨b1, b2, -, b4⟩ := durationHours_bounds d h0 hmax
  have hH : Hour = 3600000000000 := by norm_num [Hour]
  have hM : (2 : ℤ) ^ 63 = 9223372036854775808 := by norm_num
  rw [hM] at hmax
  have hN0 : 0 ≤ d / (24 * Hour) := by rw [hH]; omega
  have hN1 : d / (24 * Hour) < 106752 := by rw [hH]; omega
  have k1 : 24 * (d / (24 * Hour)) ≤ d / Hour := by rw [hH]; omega
  have k2 : d / Hour ≤ 24 * (d / (24 * Hour)) + 23 := by rw [hH]; omega
  have k1q : (24 : ℚ) * ((d / (24 * Hour) : ℤ) : ℚ) ≤ ((d / Hour : ℤ) : ℚ) := by
    exact_mod_cast k1
  have k2q : ((d / Hour : ℤ) : ℚ) ≤ 24 * ((d / (24 * Hour) : ℤ) : ℚ) + 23 := by
    exact_mod_cast k2
  have fN : float64 ((d / (24 * Hour) : ℤ) : ℚ) = ((d / (24 * Hour) : ℤ) : ℚ) :=
    float64_intCast _ (by rw [abs_lt]; constructor <;> omega)
  have fN1 : float64 (((d / (24 * Hour) : ℤ) : ℚ) + 1) = ((d / (24 * Hour) : ℤ) : ℚ) + 1 := by
    have := float64_intCast (d / (24 * Hour) + 1) (by rw [abs_lt]; constructor <;> omega)
    push_cast at this
    exact this
  have lo : ((d / (24 * Hour) : ℤ) : ℚ) ≤ float64 (durationHours d / 24) := by
    have := float64_mono (x := ((d / (24 * Hour) : ℤ) : ℚ)) (y := durationHours d / 24)
      (by rw [le_div_iff₀ (by norm_num)]; linarith)
    rwa [fN] at this
  have hi : float64 (durationHours d / 24) ≤ ((d / (24 * Hour) : ℤ) : ℚ) + 1 := by
    have := float64_mono (x := durationHours d / 24) (y := ((d / (24 * Hour) : ℤ) : ℚ) + 1)
      (by rw [div_le_iff₀ (by norm_num)]; linarith)
    rwa [fN1] at this
  have hnn : (0 : ℚ) ≤ float64 (durationHours d / 24) := by
    have : (0 : ℚ) ≤ ((d / (24 * Hour) : ℤ) : ℚ) := by exact_mod_cast hN0
    linarith
  have hexp : expiresIn d = ⌊float64 (durationHours d / 24)⌋ := by
    simp [expiresIn, truncToInt, hnn]
  refine ⟨?_, ?_, ?_⟩
  · rw [hexp]
    exact Int.le_floor.mpr lo
  · rw [hexp]
    have := Int.floor_mono hi
    have e : ⌊((d / (24 * Hour) : ℤ) : ℚ) + 1⌋ = d / (24 * Hour) + 1 := by
      have : ((d / (24 * Hour) : ℤ) : ℚ) + 1 = ((d / (24 * Hour) + 1 : ℤ) : ℚ) := by push_cast; ring
      rw [this, Int.floor_intCast]
    rwa [e] at this
  · intro j hhour hN hgap
    have hj0 : (0 : ℚ) < 2 ^ (-(j : ℤ)) := by positivity
    have hj1 : (2 : ℚ) ^ (-(j : ℤ)) ≤ 1 := by
      apply zpow_le_one_of_nonpos₀ (by norm_num)
      omega
    have hhrs : durationHours d ≤ 24 * (((d / (24 * Hour) : ℤ) : ℚ) + 1) - 2 ^ (-(j : ℤ)) := by
      by_cases hc : d / Hour = 24 * (d / (24 * Hour)) + 23
      · have := b4 j (hgap hc) hhour
        have e : ((d / Hour : ℤ) : ℚ) = 24 * ((d / (24 * Hour) : ℤ) : ℚ) + 23 := by
          exact_mod_cast hc
        rw [e] at this
        linarith
      · have k3 : d / Hour ≤ 24 * (d / (24 * Hour)) + 22 := by omega
        have k3q : ((d / Hour : ℤ) : ℚ) ≤ 24 * ((d / (24 * Hour) : ℤ) : ℚ) + 22 := by
          exact_mod_cast k3
        linarith
    have e5 : (2 : ℚ) ^ (-((j + 5 : ℕ) : ℤ)) = 2 ^ (-(j : ℤ)) / 32 := by
      have : (-((j + 5 : ℕ) : ℤ)) = -(j : ℤ) - 5 := by push_cast; ring
      rw [this, zpow_sub₀ (by norm_num : (2 : ℚ) ≠ 0)]
      norm_num
    have hx : durationHours d / 24
        ≤ ((d / (24 * Hour) : ℤ) : ℚ) + 1 - 2 ^ (-((j + 5 : ℕ) : ℤ)) := by
      rw [e5, div_le_iff₀ (by norm_num)]
      linarith
    have fy : float64 (((d / (24 * Hour) : ℤ) : ℚ) + 1 - 2 ^ (-((j + 5 : ℕ) : ℤ)))
        = ((d / (24 * Hour) : ℤ) : ℚ) + 1 - 2 ^ (-((j + 5 : ℕ) : ℤ)) := by
      have := float64_sub_two_pow (d / (24 * Hour) + 1) (j + 5) (by omega) hN
      push_cast at this ⊢
      exact this
    have hfx := float64_mono hx
    rw [fy] at hfx
    have hlt : float64 (durationHours d / 24) < ((d / (24 * Hour) + 1 : ℤ) : ℚ) := by
      have : (0 : ℚ) < 2 ^ (-((j + 5 : ℕ) : ℤ)) := by positivity
      push_cast
      linarith
    have hfl : ⌊float64 (durationHours d / 24)⌋ < d / (24 * Hour) + 1 := Int.floor_lt.mpr hlt
    have hge : d / (24 * Hour) ≤ ⌊float64 (durationHours d / 24)⌋ := Int.le_floor.mpr lo
    rw [hexp]
    omega

theorem truncToInt_neg (x : ℚ) : truncToInt (-x) = - truncToInt x := by
  unfold truncToInt
  rcases lt_trichotomy x 0 with h | h | h
  · have h1 : (0 : ℚ) ≤ -x := by linarith
    have h2 : ¬ (0 : ℚ) ≤ x := by linarith
    simp only [h1, h2, if_true, if_false, Int.floor_neg]
  · subst h; simp
  · have h1 : ¬ (0 : ℚ) ≤ -x := by linarith
    have h2 : (0 : ℚ) ≤ x := by linarith
    simp only [h1, h2, if_true, if_false, Int.ceil_neg]

theorem int_neg_tmod (a b : ℤ) : Int.tmod (-a) b = - Int.tmod a b := by
  rw [Int.tmod_def, Int.tmod_def, Int.neg_tdiv]
  ring

theorem durationHours_neg (d : ℤ) : durationHours (-d) = - durationHours d := by
  unfold durationHours
  rw [Int.neg_tdiv, int_neg_tmod]
  push_cast
  rw [float64_neg, float64_neg, neg_div, float64_neg, ← neg_add, float64_neg]

/-- The days of the opposite duration are the opposite days. -/
theorem expiresIn_neg (d : ℤ) : expiresIn (-d) = - expiresIn d := by
  unfold expiresIn
  rw [durationHours_neg, neg_div, float64_neg, truncToInt_neg]

/-- The days of a non-negative duration: between the whole days and one more; the whole
days when at least a millisecond is left before the next day; zero below one day. -/
theorem expiresIn_nonneg (d : ℤ) (h0 : 0 ≤ d) (hmax : d ≤ 2 ^ 63) :
    d / (24 * Hour) ≤ expiresIn d
    ∧ expiresIn d ≤ d / (24 * Hour) + 1
    ∧ (d % (24 * Hour) ≤ 24 * Hour - 1000000 → expiresIn d = d / (24 * Hour))
    ∧ (d < 24 * Hour → expiresIn d = 0) := by
  obtain ⟨c1, c2, c3⟩ := expiresIn_nonneg_core d h0 hmax
  have hH : Hour = 3600000000000 := by norm_num [Hour]
  have hM : (2 : ℤ) ^ 63 = 9223372036854775808 := by norm_num
  rw [hM] at hmax
  refine ⟨c1, c2, ?_, ?_⟩
  · intro hr
    apply c3 22
    · have : d / Hour < 2562048 := by rw [hH]; omega
      norm_num
      omega
    · have : d / (24 * Hour) < 106752 := by rw [hH]; omega
      norm_num
      omega
    · intro hc
      have hn : d % Hour ≤ 3599999000000 := by rw [hH] at hr hc ⊢; omega
      have hnq : ((d % Hour : ℤ) : ℚ) ≤ 3599999000000 := by exact_mod_cast hn
      have : ((d % Hour : ℤ) : ℚ) / 3600000000000 ≤ 3599999000000 / 3600000000000 :=
        div_le_div_of_nonneg_right hnq (by norm_num)
      refine le_trans this ?_
      norm_num [zpow_neg]
  · intro hd
    have hN : d / (24 * Hour) = 0 := by rw [hH] at hd ⊢; omega
    rw [← hN]
    apply c3 42
    · have : d / Hour < 24 := by rw [hH] at hd ⊢; omega
      norm_num
      omega
    · rw [hN]; norm_num
    · intro _
      have hn : d % Hour ≤ 3599999999999 := by rw [hH]; omega
      have hnq : ((d % Hour : ℤ) : ℚ) ≤ 3599999999999 := by exact_mod_cast hn
      have : ((d % Hour : ℤ) : ℚ) / 3600000000000 ≤ 3599999999999 / 3600000000000 :=
        div_le_div_of_nonneg_right hnq (by norm_num)
      refine le_trans this ?_
      norm_num [zpow_neg]

/-- The days of every duration: between the floor and the ceiling of the exact quotient by
24 hours; the quotient truncated towards zero when at least a millisecond is left before
the next whole day; zero for less than a day either way. -/
theorem expiresIn_bounds (d : ℤ) (hmin : minDuration ≤ d) (hmax : d ≤ maxDuration) :
    Int.fdiv d (24 * Hour) ≤ expiresIn d
    ∧ expiresIn d ≤ - Int.fdiv (-d) (24 * Hour)
    ∧ (|Int.tmod d (24 * Hour)| ≤ 24 * Hour - 1000000 → expiresIn d = Int.tdiv d (24 * Hour))
    ∧ (|d| < 24 * Hour → expiresIn d = 0) := by
  have hH : Hour = 3600000000000 := by norm_num [Hour]
  have hMin : minDuration = -9223372036854775808 := by norm_num [minDuration]
  have hMax : maxDuration = 9223372036854775807 := by norm_num [maxDuration]
  have hD : (0 : ℤ) ≤ 24 * Hour := by rw [hH]; norm_num
  rw [hMin] at hmin
  rw [hMax] at hmax
  rcases le_or_lt 0 d with h0 | h0
  · obtain ⟨a1, a2, a3, a4⟩ := expiresIn_nonneg d h0 (by norm_num; omega)
    have e1 : Int.fdiv d (24 * Hour) = d / (24 * Hour) := Int.fdiv_eq_ediv d hD
    have e2 : Int.tdiv d (24 * Hour) = d / (24 * Hour) := Int.tdiv_eq_ediv h0 hD
    have e3 : Int.tmod d (24 * Hour) = d % (24 * Hour) := Int.tmod_eq_emod h0 hD
    have e4 : Int.fdiv (-d) (24 * Hour) = (-d) / (24 * Hour) := Int.fdiv_eq_ediv (-d) hD
    have hr0 : 0 ≤ d % (24 * Hour) := by rw [hH]; omega
    refine ⟨by rw [e1]; exact a1, ?_, ?_, ?_⟩
    · rw [e4]
      by_cases hz : d % (24 * Hour) = 0
      · have := a3 (by rw [hz, hH]; norm_num)
        rw [this]
        rw [hH] at hz ⊢
        omega
      · have : d / (24 * Hour) + 1 ≤ - ((-d) / (24 * Hour)) := by
          rw [hH] at hz ⊢
          omega
        omega
    · intro hr
      rw [e3, abs_of_nonneg hr0] at hr
      rw [e2]
      exact a3 hr
    · intro hd
      rw [abs_of_nonneg h0] at hd
      exact a4 hd
  · obtain ⟨a1, a2, a3, a4⟩ := expiresIn_nonneg (-d) (by omega) (by norm_num; omega)
    have hneg : expiresIn d = - expiresIn (-d) := by
      have := expiresIn_neg (-d)
      rw [neg_neg] at this
      rw [this]
    have e1 : Int.fdiv d (24 * Hour) = d / (24 * Hour) := Int.fdiv_eq_ediv d hD
    have e4 : Int.fdiv (-d) (24 * Hour) = (-d) / (24 * Hour) := Int.fdiv_eq_ediv (-d) hD
    have e2 : Int.tdiv (-d) (24 * Hour) = (-d) / (24 * Hour) :=
      Int.tdiv_eq_ediv (by omega) hD
    have e3 : Int.tmod (-d) (24 * Hour) = (-d) % (24 * Hour) :=
      Int.tmod_eq_emod (by omega) hD
    have hr0 : 0 ≤ (-d) % (24 * Hour) := by rw [hH]; omega
    refine ⟨?_, ?_, ?_, ?_⟩
    · rw [e1, hneg]
      by_cases hz : (-d) % (24 * Hour) = 0
      · have := a3 (by rw [hz, hH]; norm_num)
        rw [this]
        rw [hH] at hz ⊢
        omega
      · have : d / (24 * Hour) ≤ - ((-d) / (24 * Hour) + 1) := by
          rw [hH] at hz ⊢
          omega
        omega
    · rw [e4, hneg]
      omega
    · intro hr
      have ht : Int.tmod d (24 * Hour) = - Int.tmod (-d) (24 * Hour) := by
        rw [int_neg_tmod, neg_neg]
      have hq : Int.tdiv d (24 * Hour) = - Int.tdiv (-d) (24 * Hour) := by
        rw [Int.neg_tdiv, neg_neg]
      rw [ht, abs_neg, e3, abs_of_nonneg hr0] at hr
      rw [hq, e2, hneg, a3 hr]
    · intro hd
      rw [abs_of_neg h0] at hd
      rw [hneg, a4 hd]
      rfl

/-- The duration `Time.Sub` returns is in the range of `Duration`, and is the exact
difference when that is in range. -/
theorem Sub_range (t u : Time) :
    minDuration ≤ t.Sub u ∧ t.Sub u ≤ maxDuration
    ∧ (minDuration ≤ t.unixNano - u.unixNano → t.unixNano - u.unixNano ≤ maxDuration →
        t.Sub u = t.unixNano - u.unixNano)
    ∧ (t.unixNano < u.unixNano → t.Sub u < 0) := by
  have hMin : minDuration = -9223372036854775808 := by norm_num [minDuration]
  have hMax : maxDuration = 9223372036854775807 := by norm_num [maxDuration]
  unfold Time.Sub
  rw [hMin, hMax]
  refine ⟨?_, ?_, ?_, ?_⟩ <;> split_ifs <;> intros <;> omega

/-- C7, counterexample: for a certificate whose `notAfter` is 2030-01-01T00:00:00Z, read at
2030-01-01T01:00:00Z, one hour after it expired, the function returns days 0, while the
floor of (notAfter - now) / 24h is -1: the days are not negative although `notAfter` is
earlier than now. -/
theorem C7_counterexample_expired_one_hour :
    (GetDateAndDaysFromCert (fun _ => .cert ⟨2030, 1, 1, 0, 0, 0, 0, 0⟩)
        ⟨2030, 1, 1, 1, 0, 0, 0, 0⟩ "cert").2.1 = 0
    ∧ specDays ⟨2030, 1, 1, 0, 0, 0, 0, 0⟩ ⟨2030, 1, 1, 1, 0, 0, 0, 0⟩ = -1
    ∧ (⟨2030, 1, 1, 0, 0, 0, 0, 0⟩ : Time).unixNano < (⟨2030, 1, 1, 1, 0, 0, 0, 0⟩ : Time).unixNano := by
  have hd : (⟨2030, 1, 1, 0, 0, 0, 0, 0⟩ : Time).Sub ⟨2030, 1, 1, 1, 0, 0, 0, 0⟩
      = -3600000000000 := by decide
  refine ⟨?_, by decide, by decide⟩
  show expiresIn ((⟨2030, 1, 1, 0, 0, 0, 0, 0⟩ : Time).Sub ⟨2030, 1, 1, 1, 0, 0, 0, 0⟩) = 0
  rw [hd]
  exact (expiresIn_bounds (-3600000000000) (by decide) (by decide)).2.2.2 (by decide)

/-- C7, amended: for every successfully parsed certificate and every current time, with
`d = notAfter.Sub(now)` (the exact difference when it fits a `Duration`), the function
returns `notAfter`, no error, and days that are the float64 quotient of the hours by 24
truncated towards zero: they lie between the floor and the ceiling of `d / 24h`, they are
`d / 24h` truncated towards zero whenever at least a millisecond is left before the next
whole day, they are 0 whenever `|d| < 24h`, and they are never positive when `notAfter` is
earlier than now.  The agent's function returns the same date and days. -/
theorem C7_days_truncated (parse : String → CertParse) (now : Time) (cert : String)
    (notAfter : Time) (h : parse cert = .cert notAfter) :
    (GetDateAndDaysFromCert parse now cert).1 = notAfter
    ∧ (GetDateAndDaysFromCert parse now cert).2.2 = none
    ∧ (minDuration ≤ notAfter.unixNano - now.unixNano →
        notAfter.unixNano - now.unixNano ≤ maxDuration →
        notAfter.Sub now = notAfter.unixNano - now.unixNano)
    ∧ Int.fdiv (notAfter.Sub now) (24 * Hour) ≤ (GetDateAndDaysFromCert parse now cert).2.1
    ∧ (GetDateAndDaysFromCert parse now cert).2.1 ≤ - Int.fdiv (- notAfter.Sub now) (24 * Hour)
    ∧ (|Int.tmod (notAfter.Sub now) (24 * Hour)| ≤ 24 * Hour - 1000000 →
        (GetDateAndDaysFromCert parse now cert).2.1 = Int.tdiv (notAfter.Sub now) (24 * Hour))
    ∧ (|notAfter.Sub now| < 24 * Hour → (GetDateAndDaysFromCert parse now cert).2.1 = 0)
    ∧ (notAfter.unixNano < now.unixNano → (GetDateAndDaysFromCert parse now cert).2.1 ≤ 0)
    ∧ Krawler.GetDateAndDaysFromCert parse now cert
        = some (notAfter, (GetDateAndDaysFromCert parse now cert).2.1) := by
  obtain ⟨r1, r2, r3, r4⟩ := Sub_range notAfter now
  obtain ⟨b1, b2, b3, b4⟩ := expiresIn_bounds (notAfter.Sub now) r1 r2
  have hg : GetDateAndDaysFromCert parse now cert
      = (notAfter, expiresIn (notAfter.Sub now), none) := by
    simp [GetDateAndDaysFromCert, h]
  have hk : Krawler.GetDateAndDaysFromCert parse now cert
      = some (notAfter, expiresIn (notAfter.Sub now)) := by
    simp [Krawler.GetDateAndDaysFromCert, h]
  rw [hg]
  refine ⟨rfl, rfl, r3, b1, b2, b3, b4, ?_, hk⟩
  intro hlt
  have hneg := r4 hlt
  have hH : Hour = 3600000000000 := by norm_num [Hour]
  have : 0 ≤ Int.fdiv (- notAfter.Sub now) (24 * Hour) := by
    rw [Int.fdiv_eq_ediv _ (by rw [hH]; norm_num)]
    rw [hH]
    omega
  show expiresIn (notAfter.Sub now) ≤ 0
  omega

/-- Witness of C7: a certificate with `notAfter` 2030-01-01T00:00:00Z read at
2029-12-01T12:00:00Z, thirty days and a half earlier, has 30 days left. -/
theorem C7_days_truncated_witness :
    (GetDateAndDaysFromCert (fun _ => .cert ⟨2030, 1, 1, 0, 0, 0, 0, 0⟩)
        ⟨2029, 12, 1, 12, 0, 0, 0, 0⟩ "cert").2.1 = 30 := by
  have h := (C7_days_truncated (fun _ => .cert ⟨2030, 1, 1, 0, 0, 0, 0, 0⟩)
    ⟨2029, 12, 1, 12, 0, 0, 0, 0⟩ "cert" ⟨2030, 1, 1, 0, 0, 0, 0, 0⟩ rfl).2.2.2.2.2.1
    (by decide)
  rw [h]
  decide

end CheckCert

/-! ## The JSON reader: enough nested calls -/

namespace GoLib

theorem skipWs_length (cs : List Char) : (skipWs cs).length ≤ cs.length := by
  induction cs with
  | nil => simp [skipWs]
  | cons c cs ih =>
    unfold skipWs
    split
    · exact Nat.le_succ_of_le ih
    · exact le_refl _

theorem unicodeEscape_length (cs rest : List Char) (n : Nat)
    (h : unicodeEscape cs = some (n, rest)) : rest.length < cs.length := by
  unfold unicodeEscape at h
  split at h
  · simp only [Option.map_eq_some'] at h
    obtain ⟨_, _, h2⟩ := h
    have : rest = _ := (Prod.mk.inj h2).2.symm
    subst this
    simp only [List.length_cons]
    omega
  · cases h

/-- The step of the string reader calls `rec` only on shorter texts. -/
theorem stringStep_congr (f g : List Char → Option (List Char × List Char)) (c : Char)
    (rest : List Char) (h : ∀ r : List Char, r.length ≤ rest.length → f r = g r) :
    stringStep f c rest = stringStep g c rest := by
  unfold stringStep
  by_cases h1 : c = '"'
  · simp [h1]
  · by_cases h2 : c = '\\'
    · simp only [h1, h2, if_false, if_true]
      cases rest with
      | nil => rfl
      | cons e rest1 =>
        have hr1 : f rest1 = g rest1 := h rest1 (by simp)
        simp only [hr1]
        by_cases hu : e = 'u'
        · subst hu
          cases hue : unicodeEscape ('\\' :: 'u' :: rest1) with
          | none => simp
          | some p =>
            obtain ⟨n, rest2⟩ := p
            have hl2 : rest2.length < ('\\' :: 'u' :: rest1).length :=
              unicodeEscape_length _ _ _ hue
            have hr2 : f rest2 = g rest2 := h rest2 (by simp at hl2 ⊢; omega)
            cases hue2 : unicodeEscape rest2 with
            | none => simp [hr2, hue2]
            | some q =>
              obtain ⟨m, rest3⟩ := q
              have hl3 : rest3.length < rest2.length := unicodeEscape_length _ _ _ hue2
              have hr3 : f rest3 = g rest3 := h rest3 (by simp at hl2 ⊢; omega)
              simp [hr2, hr3, hue2]
        · simp [hu]
    · have hr : f rest = g rest := h rest (le_refl _)
      simp [h1, h2, hr]

/-- With as many steps as characters, one more step does not change the string read. -/
theorem parseStringAux_stable (fuel : Nat) (cs : List Char) (h : cs.length ≤ fuel) :
    parseStringAux (fuel + 1) cs = parseStringAux fuel cs := by
  induction fuel generalizing cs with
  | zero =>
    cases cs with
    | nil => simp [parseStringAux]
    | cons c rest => simp at h
  | succ n ih =>
    cases cs with
    | nil => simp [parseStringAux]
    | cons c rest =>
      rw [parseStringAux, parseStringAux]
      apply stringStep_congr
      intro r hr
      exact ih r (by simp at h; omega)

theorem parseStringAux_stable_le (fuel more : Nat) (cs : List Char) (h : cs.length ≤ fuel) :
    parseStringAux (fuel + more) cs = parseStringAux fuel cs := by
  induction more with
  | zero => rfl
  | succ k ih =>
    rw [← Nat.add_assoc, parseStringAux_stable (fuel + k) cs (by omega), ih]

/-- The step of the string reader leaves less than it was given, when `rec` does. -/
theorem stringStep_rest (f : List Char → Option (List Char × List Char)) (c : Char)
    (rest : List Char)
    (hf : ∀ (r : List Char) (x : List Char × List Char), f r = some x → x.2.length < r.length)
    (x : List Char × List Char) (h : stringStep f c rest = some x) :
    x.2.length < (c :: rest).length := by
  have key : ∀ (r : List Char) (g : List Char × List Char → List Char × List Char),
      (f r).map g = some x → (∀ y, (g y).2 = y.2) → r.length ≤ rest.length →
      x.2.length < (c :: rest).length := by
    intro r g hm hg hr
    rw [Option.map_eq_some'] at hm
    obtain ⟨y, hy, rfl⟩ := hm
    have := hf r y hy
    rw [hg]
    simp only [List.length_cons]
    omega
  unfold stringStep at h
  by_cases h1 : c = '"'
  · simp only [h1, if_true, Option.some.injEq] at h
    subst h
    simp
  · by_cases h2 : c = '\\'
    · subst h2
      have h1b : ¬ ('\\' = '"') := by decide
      simp only [h1b, if_false, if_true] at h
      cases rest with
      | nil => cases h
      | cons e rest1 =>
        simp only at h
        by_cases hu : e = 'u'
        · subst hu
          simp only [Char.reduceEq, if_false, if_true, reduceCtorEq] at h
          cases hue : unicodeEscape ('\\' :: 'u' :: rest1) with
          | none => simp [hue] at h
          | some p =>
            obtain ⟨n, rest2⟩ := p
            have hl2 : rest2.length < ('\\' :: 'u' :: rest1).length :=
              unicodeEscape_length _ _ _ hue
            simp only [List.length_cons] at hl2
            simp only [hue] at h
            cases hue2 : unicodeEscape rest2 with
            | none =>
              simp only [hue2] at h
              split_ifs at h
              · exact key rest2 _ h (fun _ => rfl) (by simp; omega)
              · exact key rest2 _ h (fun _ => rfl) (by simp; omega)
            | some q =>
              obtain ⟨m, rest3⟩ := q
              have hl3 : rest3.length < rest2.length := unicodeEscape_length _ _ _ hue2
              simp only [hue2] at h
              split_ifs at h
              · exact key rest3 _ h (fun _ => rfl) (by simp; omega)
              · exact key rest2 _ h (fun _ => rfl) (by simp; omega)
              · exact key rest2 _ h (fun _ => rfl) (by simp; omega)
        · simp only [hu, if_false] at h
          split_ifs at h <;> exact key rest1 _ h (fun _ => rfl) (by simp)
    · simp only [h1, h2, if_false] at h
      split_ifs at h
      exact key rest _ h (fun _ => rfl) (le_refl _)

theorem parseStringAux_rest (fuel : Nat) (cs : List Char) (x : List Char × List Char)
    (h : parseStringAux fuel cs = some x) : x.2.length < cs.length := by
  induction fuel generalizing cs x with
  | zero => simp [parseStringAux] at h
  | succ n ih =>
    cases cs with
    | nil => simp [parseStringAux] at h
    | cons c rest =>
      rw [parseStringAux] at h
      exact stringStep_rest _ c rest (fun r y hy => ih r y hy) x h

theorem parseString_rest (cs : List Char) (x : List Char × List Char)
    (h : parseString cs = some x) : x.2.length < cs.length :=
  parseStringAux_rest _ cs x h

theorem spanDigits_length (cs : List Char) : (spanDigits cs).2.length ≤ cs.length := by
  induction cs with
  | nil => simp [spanDigits]
  | cons c cs ih =>
    unfold spanDigits
    split
    · simp only [List.length_cons]; omega
    · simp

theorem parseExponent_rest (lit rest : List Char) (x : List Char × List Char)
    (h : parseExponent lit rest = some x) : x.2.length ≤ rest.length := by
  unfold parseExponent at h
  split at h
  · rename_i e r
    split_ifs at h
    · split at h
      · rename_i s r2
        split_ifs at h
        · have := spanDigits_length r2
          split at h
          · cases h
          · rename_i ds r3 _ heq
            simp only [Option.some.injEq] at h
            subst h
            have e3 : (spanDigits r2).2 = r3 := by rw [heq]
            simp only [List.length_cons]
            rw [← e3]
            omega
        · have := spanDigits_length (s :: r2)
          split at h
          · cases h
          · rename_i ds r3 _ heq
            simp only [Option.some.injEq] at h
            subst h
            have e3 : (spanDigits (s :: r2)).2 = r3 := by rw [heq]
            simp only [List.length_cons] at this ⊢
            rw [← e3]
            omega
      · cases h
    · simp only [Option.some.injEq] at h
      subst h
      exact le_refl _
  · simp only [Option.some.injEq] at h
    subst h
    exact le_refl _

theorem parseFraction_rest (lit rest : List Char) (x : List Char × List Char)
    (h : parseFraction lit rest = some x) : x.2.length ≤ rest.length := by
  unfold parseFraction at h
  split at h
  · rename_i r
    have := spanDigits_length r
    split at h
    · cases h
    · rename_i ds r2 _ heq
      have e3 : (spanDigits r).2 = r2 := by rw [heq]
      have := parseExponent_rest _ _ _ h
      simp only [List.length_cons]
      rw [← e3] at this
      omega
  · exact parseExponent_rest _ _ _ h

theorem numberBody_rest (sign body : List Char) (x : List Char × List Char)
    (h : numberBody sign body = some x) : x.2.length < body.length := by
  unfold numberBody at h
  split at h
  · rename_i r
    have := parseFraction_rest _ _ _ h
    simp only [List.length_cons]
    omega
  · rename_i c r _
    split_ifs at h
    have := parseFraction_rest _ _ _ h
    have := spanDigits_length r
    simp only [List.length_cons]
    omega
  · cases h

theorem parseNumber_rest (cs : List Char) (x : List Char × List Char)
    (h : parseNumber cs = some x) : x.2.length < cs.length := by
  unfold parseNumber at h
  split at h
  · rename_i r
    have := numberBody_rest _ _ _ h
    simp only [List.length_cons]
    omega
  · exact numberBody_rest _ _ _ h

theorem closes_length (close : Char) (cs r : List Char) (h : closes close cs = some r) :
    r.length + 1 = cs.length := by
  cases cs with
  | nil => cases h
  | cons c rest =>
    simp only [closes] at h
    split_ifs at h
    simp only [Option.some.injEq] at h
    subst h
    rfl

theorem valueStep_rest (m : List Char → Option (List (String × Json) × List Char))
    (e : List Char → Option (List Json × List Char)) (cs : List Char)
    (hm : ∀ r y, m r = some y → y.2.length < r.length)
    (he : ∀ r y, e r = some y → y.2.length < r.length)
    (x : Json × List Char) (h : valueStep m e cs = some x) : x.2.length < cs.length := by
  have hws := skipWs_length cs
  unfold valueStep at h
  cases hs : skipWs cs with
  | nil => simp [hs] at h
  | cons c r =>
    rw [hs] at hws
    simp only [List.length_cons] at hws
    have hws2 := skipWs_length r
    simp only [hs] at h
    split_ifs at h
    · cases hc : closes '}' (skipWs r) with
      | some r2 =>
        have := closes_length _ _ _ hc
        simp only [hc, Option.some.injEq] at h
        subst h
        simp only
        omega
      | none =>
        simp only [hc, Option.map_eq_some'] at h
        obtain ⟨y, hy, rfl⟩ := h
        have := hm _ y hy
        simp only
        omega
    · cases hc : closes ']' (skipWs r) with
      | some r2 =>
        have := closes_length _ _ _ hc
        simp only [hc, Option.some.injEq] at h
        subst h
        simp only
        omega
      | none =>
        simp only [hc, Option.map_eq_some'] at h
        obtain ⟨y, hy, rfl⟩ := h
        have := he _ y hy
        simp only
        omega
    · rw [Option.map_eq_some'] at h
      obtain ⟨y, hy, rfl⟩ := h
      have := parseString_rest _ y hy
      simp only
      omega
    · simp only [Option.some.injEq] at h
      subst h
      simp only [List.length_drop]
      omega
    · simp only [Option.some.injEq] at h
      subst h
      simp only [List.length_drop]
      omega
    · simp only [Option.some.injEq] at h
      subst h
      simp only [List.length_drop]
      omega
    · rw [Option.map_eq_some'] at h
      obtain ⟨y, hy, rfl⟩ := h
      have := parseNumber_rest _ y hy
      simp only [List.length_cons] at this ⊢
      omega

theorem valueStep_congr (m m2 : List Char → Option (List (String × Json) × List Char))
    (e e2 : List Char → Option (List Json × List Char)) (cs : List Char)
    (hm : ∀ r : List Char, r.length < cs.length → m r = m2 r)
    (he : ∀ r : List Char, r.length < cs.length → e r = e2 r) :
    valueStep m e cs = valueStep m2 e2 cs := by
  have hws := skipWs_length cs
  unfold valueStep
  cases hs : skipWs cs with
  | nil => rfl
  | cons c r =>
    rw [hs] at hws
    simp only [List.length_cons] at hws
    have hws2 := skipWs_length r
    simp only
    rw [hm (skipWs r) (by omega), he (skipWs r) (by omega)]

theorem elementsStep_rest (v : List Char → Option (Json × List Char))
    (e : List Char → Option (List Json × List Char)) (cs : List Char)
    (hv : ∀ r y, v r = some y → y.2.length < r.length)
    (he : ∀ r y, e r = some y → y.2.length < r.length)
    (x : List Json × List Char) (h : elementsStep v e cs = some x) :
    x.2.length < cs.length := by
  unfold elementsStep at h
  cases hval : v cs with
  | none => simp [hval] at h
  | some p =>
    obtain ⟨val, r⟩ := p
    have h1 := hv _ _ hval
    have hws := skipWs_length r
    simp only at h1
    simp only [hval] at h
    cases hc : closes ',' (skipWs r) with
    | some r2 =>
      have := closes_length _ _ _ hc
      simp only [hc, Option.map_eq_some'] at h
      obtain ⟨y, hy, rfl⟩ := h
      have := he _ y hy
      simp only
      omega
    | none =>
      simp only [hc] at h
      cases hc2 : closes ']' (skipWs r) with
      | some r2 =>
        have := closes_length _ _ _ hc2
        simp only [hc2, Option.some.injEq] at h
        subst h
        simp only
        omega
      | none => simp [hc2] at h

theorem elementsStep_congr (v v2 : List Char → Option (Json × List Char))
    (e e2 : List Char → Option (List Json × List Char)) (cs : List Char)
    (hv : v cs = v2 cs) (hvr : ∀ y, v cs = some y → y.2.length < cs.length)
    (he : ∀ r : List Char, r.length + 1 < cs.length → e r = e2 r) :
    elementsStep v e cs = elementsStep v2 e2 cs := by
  unfold elementsStep
  rw [← hv]
  cases hval : v cs with
  | none => rfl
  | some p =>
    obtain ⟨val, r⟩ := p
    have h1 := hvr _ hval
    have hws := skipWs_length r
    simp only at h1
    simp only
    cases hc : closes ',' (skipWs r) with
    | some r2 =>
      have := closes_length _ _ _ hc
      simp only
      rw [he r2 (by omega)]
    | none => rfl

theorem membersStep_rest (v : List Char → Option (Json × List Char))
    (m : List Char → Option (List (String × Json) × List Char)) (cs : List Char)
    (hv : ∀ r y, v r = some y → y.2.length < r.length)
    (hm : ∀ r y, m r = some y → y.2.length < r.length)
    (x : List (String × Json) × List Char) (h : membersStep v m cs = some x) :
    x.2.length < cs.length := by
  have hws := skipWs_length cs
  unfold membersStep at h
  cases hq : closes '"' (skipWs cs) with
  | none => simp [hq] at h
  | some r =>
    have l0 := closes_length _ _ _ hq
    simp only [hq] at h
    cases hk : parseString r with
    | none => simp [hk] at h
    | some p =>
      obtain ⟨k, r1⟩ := p
      have l1 := parseString_rest _ _ hk
      have hws1 := skipWs_length r1
      simp only at l1
      simp only [hk] at h
      cases hcol : closes ':' (skipWs r1) with
      | none => simp [hcol] at h
      | some r2 =>
        have l2 := closes_length _ _ _ hcol
        simp only [hcol] at h
        cases hval : v r2 with
        | none => simp [hval] at h
        | some q =>
          obtain ⟨val, r3⟩ := q
          have l3 := hv _ _ hval
          have hws3 := skipWs_length r3
          simp only at l3
          simp only [hval] at h
          cases hc : closes ',' (skipWs r3) with
          | some r4 =>
            have := closes_length _ _ _ hc
            simp only [hc, Option.map_eq_some'] at h
            obtain ⟨y, hy, rfl⟩ := h
            have := hm _ y hy
            simp only
            omega
          | none =>
            simp only [hc] at h
            cases hc2 : closes '}' (skipWs r3) with
            | some r4 =>
              have := closes_length _ _ _ hc2
              simp only [hc2, Option.some.injEq] at h
              subst h
              simp only
              omega
            | none => simp [hc2] at h

theorem membersStep_congr (v v2 : List Char → Option (Json × List Char))
    (m m2 : List Char → Option (List (String × Json) × List Char)) (cs : List Char)
    (hv : ∀ r : List Char, r.length < cs.length → v r = v2 r)
    (hvr : ∀ r y, v r = some y → y.2.length < r.length)
    (hm : ∀ r : List Char, r.length + 1 < cs.length → m r = m2 r) :
    membersStep v m cs = membersStep v2 m2 cs := by
  have hws := skipWs_length cs
  unfold membersStep
  cases hq : closes '"' (skipWs cs) with
  | none => rfl
  | some r =>
    have l0 := closes_length _ _ _ hq
    simp only
    cases hk : parseString r with
    | none => rfl
    | some p =>
      obtain ⟨k, r1⟩ := p
      have l1 := parseString_rest _ _ hk
      have hws1 := skipWs_length r1
      simp only at l1
      simp only
      cases hcol : closes ':' (skipWs r1) with
      | none => rfl
      | some r2 =>
        have l2 := closes_length _ _ _ hcol
        simp only
        rw [← hv r2 (by omega)]
        cases hval : v r2 with
        | none => rfl
        | some q =>
          obtain ⟨val, r3⟩ := q
          have l3 := hvr _ _ hval
          have hws3 := skipWs_length r3
          simp only at l3
          simp only
          cases hc : closes ',' (skipWs r3) with
          | some r4 =>
            have := closes_length _ _ _ hc
            simp only
            rw [hm r4 (by omega)]
          | none => rfl

/-- Every successful read of a value, of elements or of members consumes a character. -/
theorem parse_rest (fuel : Nat) :
    (∀ cs x, parseValue fuel cs = some x → x.2.length < cs.length)
    ∧ (∀ cs x, parseElements fuel cs = some x → x.2.length < cs.length)
    ∧ (∀ cs x, parseMembers fuel cs = some x → x.2.length < cs.length) := by
  induction fuel with
  | zero =>
    refine ⟨?_, ?_, ?_⟩ <;> intro cs x h
    · simp [parseValue] at h
    · simp [parseElements] at h
    · simp [parseMembers] at h
  | succ n ih =>
    obtain ⟨ihv, ihe, ihm⟩ := ih
    refine ⟨?_, ?_, ?_⟩ <;> intro cs x h
    · rw [parseValue] at h
      exact valueStep_rest _ _ cs ihm ihe x h
    · rw [parseElements] at h
      exact elementsStep_rest _ _ cs ihv ihe x h
    · rw [parseMembers] at h
      exact membersStep_rest _ _ cs ihv ihm x h

/-- With a bound on the nested calls above twice the length of the text, one more nested
call does not change what is read. -/
theorem parse_stable (fuel : Nat) :
    (∀ cs : List Char, 2 * cs.length < fuel → parseValue (fuel + 1) cs = parseValue fuel cs)
    ∧ (∀ cs : List Char, 2 * cs.length + 1 < fuel →
        parseElements (fuel + 1) cs = parseElements fuel cs)
    ∧ (∀ cs : List Char, 2 * cs.length + 1 < fuel →
        parseMembers (fuel + 1) cs = parseMembers fuel cs) := by
  induction fuel with
  | zero =>
    refine ⟨?_, ?_, ?_⟩ <;> intro cs h <;> omega
  | succ n ih =>
    obtain ⟨ihv, ihe, ihm⟩ := ih
    refine ⟨?_, ?_, ?_⟩ <;> intro cs h
    · rw [parseValue, parseValue]
      apply valueStep_congr
      · intro r hr
        exact ihm r (by omega)
      · intro r hr
        exact ihe r (by omega)
    · rw [parseElements, parseElements]
      apply elementsStep_congr
      · exact ihv cs (by omega)
      · intro y hy
        exact (parse_rest (n + 1)).1 cs y hy
      · intro r hr
        exact ihe r (by omega)
    · rw [parseMembers, parseMembers]
      apply membersStep_congr
      · intro r hr
        exact ihv r (by omega)
      · intro r y hy
        exact (parse_rest (n + 1)).1 r y hy
      · intro r hr
        exact ihm r (by omega)

/-- The value read does not depend on the bound on the nested calls, once the bound is
above twice the length of the text. -/
theorem parseValue_stable (fuel more : Nat) (cs : List Char) (h : 2 * cs.length < fuel) :
    parseValue (fuel + more) cs = parseValue fuel cs := by
  induction more with
  | zero => rfl
  | succ k ih =>
    rw [← Nat.add_assoc, (parse_stable (fuel + k)).1 cs (by omega), ih]

end GoLib

/-! ## The control-plane workers (C11, C12, C15) -/

namespace CheckCert

open GoLib

theorem kubeconfigScan_no_flag (typ : String) (load : String → Except String RawConfig)
    (parse : String → CertParse) (now : Time) (exec : List String → StreamOutcome)
    (node : String) (cmd : List String) (h : NoKubeconfigFlag cmd) :
    kubeconfigScan typ load parse now exec node cmd = ⟨[], false, false⟩ := by
  induction cmd with
  | nil => rfl
  | cons c cs ih =>
    have hcs : NoKubeconfigFlag cs := fun d hd => h d (List.mem_cons_of_mem _ hd)
    cases hs : optionPieces c with
    | none => simp only [kubeconfigScan, hs, ih hcs]
    | some s =>
      have := h c (List.mem_cons_self _ _) s hs
      simp only [kubeconfigScan, hs, if_neg this, ih hcs]

theorem kubeconfigScan_first_flag (typ : String) (load : String → Except String RawConfig)
    (parse : String → CertParse) (now : Time) (exec : List String → StreamOutcome)
    (node : String) (pre : List String) (c : String) (post : List String)
    (s : List String) (path0 : String)
    (hpre : NoKubeconfigFlag pre) (hs : optionPieces c = some s)
    (hflag : s.headD "" = kubeConfigFlag) (hval : s[1]? = some path0) :
    kubeconfigScan typ load parse now exec node (pre ++ c :: post)
      = ⟨(kubeconfigBody typ load parse now exec node path0).1, false,
          (kubeconfigBody typ load parse now exec node path0).2⟩ := by
  induction pre with
  | nil => simp only [List.nil_append, kubeconfigScan, hs, if_pos hflag, hval]
  | cons d ds ih =>
    have hds : NoKubeconfigFlag ds := fun e he => hpre e (List.mem_cons_of_mem _ he)
    cases hd : optionPieces d with
    | none =>
      rw [List.cons_append]
      simp only [kubeconfigScan, hd]
      exact ih hds
    | some t =>
      have := hpre d (List.mem_cons_self _ _) t hd
      rw [List.cons_append]
      simp only [kubeconfigScan, hd, if_neg this]
      exact ih hds

theorem kubeconfigBody_success (typ : String) (load : String → Except String RawConfig)
    (parse : String → CertParse) (now : Time) (exec : List String → StreamOutcome)
    (node path0 kc se : String) (raw : RawConfig) (user : String) (u : AuthInfo)
    (cert path : String) (notAfter : Time)
    (hexec : exec ["cat", path0] = .done kc se) (hload : load kc = .ok raw)
    (hctx : raw.Contexts.lookup raw.CurrentContext = some user)
    (huser : raw.AuthInfos.lookup user = some u)
    (hcert : (u.ClientCertificateData ≠ "" ∧ cert = u.ClientCertificateData ∧ path = path0)
      ∨ (u.ClientCertificateData = "" ∧ u.ClientCertificate ≠ ""
        ∧ (∃ se2, exec ["cat", u.ClientCertificate] = .done cert se2)
        ∧ path = u.ClientCertificate))
    (hparse : parse cert = .cert notAfter) :
    kubeconfigBody typ load parse now exec node path0
      = ([⟨⟨typ, node, "client-cert", expiresIn (notAfter.Sub now), notAfter, path⟩, ""⟩],
          false) := by
  rcases hcert with ⟨h1, rfl, rfl⟩ | ⟨h1, h2, ⟨se2, h3⟩, rfl⟩
  · simp [kubeconfigBody, ExecPod, hexec, hload, hctx, huser, h1, GetDateAndDaysFromCert,
      hparse]
  · simp [kubeconfigBody, ExecPod, hexec, hload, hctx, huser, h1, h2, h3,
      GetDateAndDaysFromCert, hparse]

/-- C11, counterexample: a scheduler pod that is started with a configuration file and no
`--kubeconfig` argument yields zero rows. -/
theorem C11_counterexample_no_kubeconfig_flag :
    (schedulerWorker (fun _ => .ok ⟨"", [], []⟩) (fun _ => .noBlock) Time.zero
        (fun _ => .done "" "")
        ⟨"master-1", ["kube-scheduler", "--config=/etc/kubernetes/scheduler-config.yaml"]⟩).rows.length
      = 0
    ∧ (controllerManagerWorker (fun _ => .ok ⟨"", [], []⟩) (fun _ => .noBlock) Time.zero
        (fun _ => .done "" "")
        ⟨"master-1", ["kube-controller-manager", "--leader-elect=true"]⟩).rows.length = 0 := by
  decide

/-- C11, amended: a controller-manager or scheduler pod whose command has no `--kubeconfig`
argument yields no row; a pod whose first `--kubeconfig` argument has a value yields exactly
one row, with an empty warning, the certificate's date and days, and the path of the
certificate, when the kubeconfig is retrieved and decoded, names the user of its current
context, and the certificate (embedded, or else retrieved from the file the user names)
parses. -/
theorem C11_client_cert_rows (load : String → Except String RawConfig)
    (parse : String → CertParse) (now : Time) (exec : List String → StreamOutcome)
    (p : Pod) :
    (NoKubeconfigFlag p.Command →
      controllerManagerWorker load parse now exec p = ⟨[], false, false⟩
      ∧ schedulerWorker load parse now exec p = ⟨[], false, false⟩)
    ∧ (∀ (pre : List String) (c : String) (post s : List String) (path0 kc se : String)
        (raw : RawConfig) (user : String) (u : AuthInfo) (cert path : String)
        (notAfter : Time),
        p.Command = pre ++ c :: post → NoKubeconfigFlag pre → optionPieces c = some s →
        s.headD "" = kubeConfigFlag → s[1]? = some path0 →
        exec ["cat", path0] = .done kc se → load kc = .ok raw →
        raw.Contexts.lookup raw.CurrentContext = some user →
        raw.AuthInfos.lookup user = some u →
        ((u.ClientCertificateData ≠ "" ∧ cert = u.ClientCertificateData ∧ path = path0)
          ∨ (u.ClientCertificateData = "" ∧ u.ClientCertificate ≠ ""
            ∧ (∃ se2, exec ["cat", u.ClientCertificate] = .done cert se2)
            ∧ path = u.ClientCertificate)) →
        parse cert = .cert notAfter →
        controllerManagerWorker load parse now exec p
            = ⟨[⟨⟨"controller-manager", p.NodeName, "client-cert",
                  expiresIn (notAfter.Sub now), notAfter, path⟩, ""⟩], false, false⟩
        ∧ schedulerWorker load parse now exec p
            = ⟨[⟨⟨"scheduler", p.NodeName, "client-cert",
                  expiresIn (notAfter.Sub now), notAfter, path⟩, ""⟩], false, false⟩) := by
  refine ⟨fun h => ⟨kubeconfigScan_no_flag _ _ _ _ _ _ _ h, kubeconfigScan_no_flag _ _ _ _ _ _ _ h⟩,
    ?_⟩
  intro pre c post s path0 kc se raw user u cert path notAfter hcmd hpre hs hflag hval hexec
    hload hctx huser hcert hparse
  simp only [controllerManagerWorker, schedulerWorker, hcmd]
  rw [kubeconfigScan_first_flag _ _ _ _ _ _ pre c post s path0 hpre hs hflag hval,
    kubeconfigScan_first_flag _ _ _ _ _ _ pre c post s path0 hpre hs hflag hval,
    kubeconfigBody_success _ load parse now exec _ path0 kc se raw user u cert path notAfter
      hexec hload hctx huser hcert hparse,
    kubeconfigBody_success _ load parse now exec _ path0 kc se raw user u cert path notAfter
      hexec hload hctx huser hcert hparse]
  exact ⟨rfl, rfl⟩

/-- Witness of C11: a controller-manager pod without the flag, and a scheduler pod whose
kubeconfig embeds a certificate that parses. -/
theorem C11_client_cert_rows_witness :
    controllerManagerWorker (fun _ => .error "unused") (fun _ => .noBlock) Time.zero
        (fun _ => .streamError "unused")
        ⟨"master-1", ["kube-controller-manager", "--leader-elect=true"]⟩ = ⟨[], false, false⟩
    ∧ schedulerWorker
        (fun kc => if kc = "KUBECONFIG"
          then .ok ⟨"ctx", [("ctx", "system:kube-scheduler")],
            [("system:kube-scheduler", ⟨"PEM", ""⟩)]⟩
          else .error "bad")
        (fun c => if c = "PEM" then .cert ⟨2030, 1, 1, 0, 0, 0, 0, 0⟩ else .noBlock)
        ⟨2026, 1, 1, 0, 0, 0, 0, 0⟩
        (fun cmd => if cmd = ["cat", "/etc/kubernetes/scheduler.conf"]
          then .done "KUBECONFIG" "" else .streamError "no such file")
        ⟨"master-1", ["kube-scheduler", "--bind-address=127.0.0.1",
          "--kubeconfig=/etc/kubernetes/scheduler.conf", "--leader-elect=true"]⟩
      = ⟨[⟨⟨"scheduler", "master-1", "client-cert",
            expiresIn (Time.Sub ⟨2030, 1, 1, 0, 0, 0, 0, 0⟩ ⟨2026, 1, 1, 0, 0, 0, 0, 0⟩),
            ⟨2030, 1, 1, 0, 0, 0, 0, 0⟩, "/etc/kubernetes/scheduler.conf"⟩, ""⟩],
          false, false⟩ :=
  ⟨((C11_client_cert_rows _ _ _ _
      ⟨"master-1", ["kube-controller-manager", "--leader-elect=true"]⟩).1 (by decide)).1,
   ((C11_client_cert_rows _ _ _ _
      ⟨"master-1", ["kube-scheduler", "--bind-address=127.0.0.1",
        "--kubeconfig=/etc/kubernetes/scheduler.conf", "--leader-elect=true"]⟩).2
      ["kube-scheduler", "--bind-address=127.0.0.1"]
      "--kubeconfig=/etc/kubernetes/scheduler.conf" ["--leader-elect=true"]
      ["kubeconfig", "/etc/kubernetes/scheduler.conf"] "/etc/kubernetes/scheduler.conf"
      "KUBECONFIG" "" ⟨"ctx", [("ctx", "system:kube-scheduler")],
            [("system:kube-scheduler", ⟨"PEM", ""⟩)]⟩ "system:kube-scheduler" ⟨"PEM", ""⟩
      "PEM" "/etc/kubernetes/scheduler.conf" ⟨2030, 1, 1, 0, 0, 0, 0, 0⟩
      (by decide) (by decide) (by decide) (by decide) (by decide) (by simp) (by simp)
      (by decide) (by decide) (Or.inl ⟨by decide, rfl, rfl⟩) (by simp)).2⟩

theorem apiServerCert_unparsable (parse : String → CertParse) (now : Time)
    (exec : List String → StreamOutcome) (node name path text se : String)
    (hexec : exec ["cat", path] = .done text se) (hparse : ∀ t, parse text ≠ .cert t) :
    apiServerCert parse now exec node name path = ([], true) := by
  cases hp : parse text with
  | noBlock =>
    simp [apiServerCert, ExecPod, hexec, GetDateAndDaysFromCert, hp]
  | invalid msg =>
    have hne : "failed to parse certificate: " ++ msg ≠ "" := by
      intro h
      have := congrArg String.length h
      simp only [String.length_append] at this
      have h1 : "failed to parse certificate: ".length = 29 := by decide
      have h2 : "".length = 0 := rfl
      omega
    simp [apiServerCert, ExecPod, hexec, GetDateAndDaysFromCert, hp, hne]
  | cert t => exact absurd hp (hparse t)

/-- C12 (code defect): with a certificate text that is not PEM, or not a certificate, the
api-server worker stops in a panic without sending a row, and the controller-manager and
scheduler workers send a row whose warning is empty. -/
theorem C12_parse_failure_rows :
    apiServerWorker (fun _ => .noBlock) ⟨2026, 1, 1, 0, 0, 0, 0, 0⟩
        (fun _ => .done "not a certificate" "")
        ⟨"master-1", ["kube-apiserver", "--tls-cert-file=/etc/kubernetes/pki/apiserver.crt"]⟩
      = ⟨[], false, true⟩
    ∧ apiServerWorker (fun _ => .invalid "x509: malformed certificate")
        ⟨2026, 1, 1, 0, 0, 0, 0, 0⟩ (fun _ => .done "not a certificate" "")
        ⟨"master-1", ["kube-apiserver", "--etcd-certfile=/etc/kubernetes/pki/etcd.crt"]⟩
      = ⟨[], false, true⟩
    ∧ controllerManagerWorker
        (fun _ => .ok ⟨"ctx", [("ctx", "user")], [("user", ⟨"not a certificate", ""⟩)]⟩)
        (fun _ => .noBlock) ⟨2026, 1, 1, 0, 0, 0, 0, 0⟩ (fun _ => .done "KUBECONFIG" "")
        ⟨"master-1", ["kube-controller-manager",
          "--kubeconfig=/etc/kubernetes/controller-manager.conf"]⟩
      = ⟨[⟨⟨"controller-manager", "master-1", "client-cert", 0, Time.zero,
            "/etc/kubernetes/controller-manager.conf"⟩, ""⟩], false, false⟩
    ∧ schedulerWorker
        (fun _ => .ok ⟨"ctx", [("ctx", "user")], [("user", ⟨"not a certificate", ""⟩)]⟩)
        (fun _ => .noBlock) ⟨2026, 1, 1, 0, 0, 0, 0, 0⟩ (fun _ => .done "KUBECONFIG" "")
        ⟨"master-1", ["kube-scheduler", "--kubeconfig=/etc/kubernetes/scheduler.conf"]⟩
      = ⟨[⟨⟨"scheduler", "master-1", "client-cert", 0, Time.zero,
            "/etc/kubernetes/scheduler.conf"⟩, ""⟩], false, false⟩ := by
  decide

/-- C15 (code defect): on an api-server command in which `kubelet-certificate-authority` or
one of the four certificate flags stands without `=value`, the worker reads the element 1
of a one-element slice and stops in a panic, whatever the pod answers. -/
theorem C15_bare_flag_index_out_of_range (parse : String → CertParse) (now : Time)
    (exec : List String → StreamOutcome) (node : String) :
    (apiServerWorker parse now exec
        ⟨node, ["kube-apiserver", "--kubelet-certificate-authority"]⟩).panicked = true
    ∧ (apiServerWorker parse now exec
        ⟨node, ["kube-apiserver", "--etcd-certfile"]⟩).panicked = true
    ∧ (apiServerWorker parse now exec
        ⟨node, ["kube-apiserver", "--tls-cert-file"]⟩).panicked = true
    ∧ (apiServerWorker parse now exec
        ⟨node, ["kube-apiserver", "--kubelet-client-certificate"]⟩).panicked = true
    ∧ (apiServerWorker parse now exec
        ⟨node, ["kube-apiserver", "--proxy-client-cert-file"]⟩).panicked = true :=
  ⟨rfl, rfl, rfl, rfl, rfl⟩

end CheckCert

/-! ## The node of the agent's entries (C16) -/

namespace Krawler

open GoLib

/-- C16: whenever the agent emits its entries, they are the two entries `server-cert` and
`client-cert`, and the node of both is the value of `NODENAME`, whatever `/etc/hostname`
holds: with an empty `NODENAME` the node is the empty string. -/
theorem C16_node_is_NODENAME (env : Env) (es : List Entry) (h : mainEntries env = some es) :
    es.map Entry.Name = ["server-cert", "client-cert"]
    ∧ es.map Entry.Node = [env.nodeName, env.nodeName] := by
  unfold mainEntries at h
  simp only at h
  split at h
  · exact absurd h (by simp)
  · split at h
    · exact absurd h (by simp)
    · split at h
      · exact absurd h (by simp)
      · split at h
        · exact absurd h (by simp)
        · split at h
          · exact absurd h (by simp)
          · split at h
            · exact absurd h (by simp)
            · split at h
              · exact absurd h (by simp)
              · simp only [Option.some.injEq] at h
                subst h
                simp [NewEntry]

/-- Witness of C16 on a node with an empty `NODENAME` and the host name `worker-7`. -/
theorem C16_node_is_NODENAME_witness :
    mainEntries sampleEnv
      = some [NewEntry "" "server-cert"
          (CheckCert.expiresIn
            (CheckCert.Time.Sub ⟨2030, 1, 1, 0, 0, 0, 0, 0⟩ ⟨2026, 1, 1, 0, 0, 0, 0, 0⟩))
          ⟨2030, 1, 1, 0, 0, 0, 0, 0⟩ "/var/lib/kubelet/pki/kubelet.crt",
        NewEntry "" "client-cert"
          (CheckCert.expiresIn
            (CheckCert.Time.Sub ⟨2030, 1, 1, 0, 0, 0, 0, 0⟩ ⟨2026, 1, 1, 0, 0, 0, 0, 0⟩))
          ⟨2030, 1, 1, 0, 0, 0, 0, 0⟩ "/etc/kubernetes/kubelet.conf"]
    ∧ [NewEntry "" "server-cert"
          (CheckCert.expiresIn
            (CheckCert.Time.Sub ⟨2030, 1, 1, 0, 0, 0, 0, 0⟩ ⟨2026, 1, 1, 0, 0, 0, 0, 0⟩))
          ⟨2030, 1, 1, 0, 0, 0, 0, 0⟩ "/var/lib/kubelet/pki/kubelet.crt",
        NewEntry "" "client-cert"
          (CheckCert.expiresIn
            (CheckCert.Time.Sub ⟨2030, 1, 1, 0, 0, 0, 0, 0⟩ ⟨2026, 1, 1, 0, 0, 0, 0, 0⟩))
          ⟨2030, 1, 1, 0, 0, 0, 0, 0⟩ "/etc/kubernetes/kubelet.conf"].map Entry.Node
      = ["", ""] :=
  ⟨rfl, (C16_node_is_NODENAME sampleEnv _ rfl).2⟩

end Krawler

/-! ## Parsing of the kubelet command line (C13) -/

namespace GoLib

theorem splitGo_zero_cons (sep : List Char) (c : Char) (cs : List Char) :
    splitGo sep 0 (c :: cs)
      = if startsWith sep (c :: cs) then [] :: splitGo sep (sep.length - 1) cs
        else
          match splitGo sep 0 cs with
          | w :: ws => (c :: w) :: ws
          | [] => [[c]] := by
  rw [splitGo]

theorem intercalate_cons_cons (sep x y : List Char) (ys : List (List Char)) :
    List.intercalate sep (x :: y :: ys) = x ++ sep ++ List.intercalate sep (y :: ys) := by
  simp [List.intercalate, List.intersperse]

/-- Cutting at a character and joining with it gives the text back. -/
theorem intercalate_splitGo (c : Char) (v : List Char) :
    List.intercalate [c] (splitGo [c] 0 v) = v := by
  induction v with
  | nil => simp [splitGo, List.intercalate]
  | cons d ds ih =>
    rw [splitGo_zero_cons]
    by_cases hd : c = d
    · subst hd
      have h1 : startsWith [c] (c :: ds) = true := by simp [startsWith]
      rw [if_pos h1]
      obtain ⟨w, ws, hw⟩ := List.exists_cons_of_ne_nil (splitGo_ne_nil [c] 0 ds)
      simp only [List.length_singleton, Nat.sub_self]
      rw [hw, intercalate_cons_cons, ← hw, ih]
      simp
    · have h1 : startsWith [c] (d :: ds) = false := by simp [startsWith, hd]
      rw [if_neg (by simp [h1])]
      obtain ⟨w, ws, hw⟩ := List.exists_cons_of_ne_nil (splitGo_ne_nil [c] 0 ds)
      rw [hw] at ih ⊢
      simp only
      cases ws with
      | nil =>
        simp [List.intercalate] at ih ⊢
        exact ih
      | cons y ys =>
        rw [intercalate_cons_cons] at ih ⊢
        rw [List.cons_append, List.cons_append, ih]

/-- A text without the character `c` is one piece. -/
theorem splitGo_char_free (c : Char) (x : List Char) (h : c ∉ x) : splitGo [c] 0 x = [x] := by
  induction x with
  | nil => simp [splitGo]
  | cons d ds ih =>
    have hd : c ≠ d := fun e => h (by simp [e])
    have hds : c ∉ ds := fun e => h (by simp [e])
    have h1 : startsWith [c] (d :: ds) = false := by simp [startsWith, hd]
    rw [splitGo_zero_cons, if_neg (by simp [h1]), ih hds]

/-- The first piece of a text is what stands before the first `c`. -/
theorem splitGo_char_append (c : Char) (x v : List Char) (h : c ∉ x) :
    splitGo [c] 0 (x ++ c :: v) = x :: splitGo [c] 0 v := by
  induction x with
  | nil => simp [splitGo, startsWith]
  | cons d ds ih =>
    have hd : c ≠ d := fun e => h (by simp [e])
    have hds : c ∉ ds := fun e => h (by simp [e])
    have h1 : startsWith [c] (d :: (ds ++ c :: v)) = false := by simp [startsWith, hd]
    rw [List.cons_append, splitGo_zero_cons, if_neg (by simp [h1]), ih hds]

end GoLib

namespace Krawler

open GoLib

theorem noDashDash_iff_chain (l : List Char) :
    NoDashDash l ↔ l.Chain' (fun a b => ¬ (a = '-' ∧ b = '-')) := by
  unfold NoDashDash
  induction l with
  | nil => simp
  | cons c l ih =>
    cases l with
    | nil =>
      simp only [List.chain'_singleton, iff_true]
      intro h
      have := h.length_le
      simp at this
    | cons d l =>
      rw [List.infix_cons_iff, List.chain'_cons, ← ih]
      simp only [List.cons_prefix_cons, List.nil_prefix, and_true, not_or, not_and]
      constructor
      · rintro ⟨h1, h2⟩
        exact ⟨fun hc hd => h1 hc.symm hd.symm, h2⟩
      · rintro ⟨h1, h2⟩
        exact ⟨fun hc hd => h1 hc.symm hd.symm, h2⟩

theorem noDashDash_tail {c : Char} {l : List Char} (h : NoDashDash (c :: l)) : NoDashDash l :=
  fun hi => h (List.infix_cons hi)

theorem startsWith_dashes_false (c : Char) (cs rest : List Char) (h : NoDashDash (c :: cs))
    (hl : (c :: cs).getLast? ≠ some '-') :
    startsWith ['-', '-'] (c :: (cs ++ '-' :: '-' :: rest)) = false := by
  cases cs with
  | nil =>
    have hc : c ≠ '-' := by simpa using hl
    simp [startsWith, Ne.symm hc]
  | cons d ds =>
    have : ¬ ('-' = c ∧ '-' = d) := by
      rintro ⟨rfl, rfl⟩
      exact h ⟨[], ds, rfl⟩
    simp only [List.cons_append, startsWith, Bool.and_true, Bool.and_eq_false_imp, beq_iff_eq]
    intro hc
    exact beq_eq_false_iff_ne.mpr (fun hd => this ⟨hc, hd⟩)

/-- A piece without two hyphens in a row that does not end in a hyphen is cut off at the
two hyphens that follow it. -/
theorem splitGo_dashes (p rest : List Char) (h : NoDashDash p)
    (hl : p.getLast? ≠ some '-') :
    splitGo ['-', '-'] 0 (p ++ '-' :: '-' :: rest) = p :: splitGo ['-', '-'] 0 rest := by
  induction p with
  | nil =>
    rw [List.nil_append, splitGo_zero_cons, if_pos (by simp [startsWith])]
    simp [splitGo]
  | cons c cs ih =>
    have hl2 : cs.getLast? ≠ some '-' := by
      cases cs with
      | nil => simp
      | cons d ds => simpa [List.getLast?_cons_cons] using hl
    rw [List.cons_append, splitGo_zero_cons,
      if_neg (by simp [startsWith_dashes_false c cs rest h hl]), ih (noDashDash_tail h) hl2]

/-- A text without two hyphens in a row is one piece. -/
theorem splitGo_dashes_last (p : List Char) (h : NoDashDash p) :
    splitGo ['-', '-'] 0 p = [p] := by
  induction p with
  | nil => simp [splitGo]
  | cons c cs ih =>
    have hs : startsWith ['-', '-'] (c :: cs) = false := by
      cases cs with
      | nil => simp [startsWith]
      | cons d ds =>
        have : ¬ ('-' = c ∧ '-' = d) := by
          rintro ⟨rfl, rfl⟩
          exact h ⟨[], ds, rfl⟩
        simp only [startsWith, Bool.and_true, Bool.and_eq_false_imp, beq_iff_eq]
        intro hc
        exact beq_eq_false_iff_ne.mpr (fun hd => this ⟨hc, hd⟩)
    rw [splitGo_zero_cons, if_neg (by simp [hs]), ih (noDashDash_tail h)]

/-- The pieces of a command line are found again by the cut at two hyphens. -/
theorem splitGo_pieces (p0 : List Char) (ps : List (List Char))
    (h : ∀ p ∈ p0 :: ps, NoDashDash p)
    (hl : ∀ p ∈ (p0 :: ps).dropLast, p.getLast? ≠ some '-') :
    splitGo ['-', '-'] 0 (p0 ++ (ps.map (fun p => '-' :: '-' :: p)).flatten) = p0 :: ps := by
  induction ps generalizing p0 with
  | nil => simpa using splitGo_dashes_last p0 (h p0 (by simp))
  | cons q qs ih =>
    have e : p0 ++ ((q :: qs).map (fun p => '-' :: '-' :: p)).flatten
        = p0 ++ '-' :: '-' :: (q ++ (qs.map (fun p => '-' :: '-' :: p)).flatten) := by simp
    rw [e, splitGo_dashes p0 _ (h p0 (by simp)) (hl p0 (by simp)),
      ih q (fun p hp => h p (List.mem_cons_of_mem _ hp))
        (fun p hp => hl p (by
          rw [List.dropLast_cons₂]
          exact List.mem_cons_of_mem _ hp))]

theorem dropWhile_replicate_append (x : Char) (n : Nat) (l : List Char) :
    (List.replicate n x ++ l).dropWhile (fun c => [x].contains c)
      = l.dropWhile (fun c => [x].contains c) := by
  induction n with
  | zero => simp
  | succ k ih => simp [List.replicate_succ, ih]

/-- Trimming removes the padding of a text that has no `x` at its ends. -/
theorem trimChars_pad (x : Char) (body : List Char) (n : Nat)
    (h1 : body.head? ≠ some x) (h2 : body.getLast? ≠ some x) :
    trimChars [x] (body ++ List.replicate n x) = body := by
  unfold trimChars
  cases body with
  | nil =>
    have := dropWhile_replicate_append x n []
    simp only [List.append_nil, List.dropWhile_nil] at this
    simp [this]
  | cons b bs =>
    have hb : b ≠ x := by simpa using h1
    have hfront : (b :: bs ++ List.replicate n x).dropWhile (fun c => [x].contains c)
        = b :: bs ++ List.replicate n x := by
      simp [List.dropWhile, hb]
    rw [hfront, List.reverse_append, List.reverse_replicate, dropWhile_replicate_append]
    cases hr : (b :: bs).reverse with
    | nil => simp at hr
    | cons r rs =>
      have hr2 : (b :: bs).reverse.head? = some r := by rw [hr]; rfl
      rw [List.head?_reverse] at hr2
      have hrx : r ≠ x := by
        intro e
        exact h2 (by rw [hr2, e])
      have : (r :: rs).dropWhile (fun c => [x].contains c) = r :: rs := by
        simp [List.dropWhile, hrx]
      rw [this, ← hr, List.reverse_reverse]

theorem head_append_cons_ne (x c : Char) (k v : List Char) (h1 : k.head? ≠ some x)
    (hc : c ≠ x) : (k ++ c :: v).head? ≠ some x := by
  cases k with
  | nil => simpa using hc
  | cons a as => simpa using h1

theorem last_append_cons_ne (x c : Char) (k v : List Char) (h1 : v.getLast? ≠ some x)
    (hc : c ≠ x) : (k ++ c :: v).getLast? ≠ some x := by
  cases v with
  | nil => simpa [List.getLast?_append] using hc
  | cons a as =>
    rw [List.getLast?_append, List.getLast?_cons_cons]
    cases h : (a :: as).getLast? with
    | none => simp at h
    | some z =>
      rw [h] at h1
      simpa using h1

theorem chain_replicate (n : Nat) :
    (List.replicate n '\x00').Chain' (fun a b => ¬ (a = '-' ∧ b = '-')) := by
  induction n with
  | zero => simp
  | succ k ih =>
    rw [List.replicate_succ, List.chain'_cons']
    exact ⟨fun y _ hxy => absurd hxy.1 (by decide), ih⟩

theorem mk_toList (s : String) : String.mk s.toList = s := rfl

theorem valueOk_some {o : Option String} {v : String} (h : ValueOk o) (e : o = some v) :
    NoDashDash v.toList ∧ v.toList.getLast? ≠ some '\x00'
      ∧ v.toList.head? ≠ some '\n' ∧ v.toList.getLast? ≠ some '\n' := by
  rw [e] at h
  exact h

theorem noDashDash_piece (t : FlagToken) (h : t.WellFormed) : NoDashDash t.piece := by
  obtain ⟨_, hk, _, _, hv0⟩ := h
  have hv := fun v (e : t.value = some v) => valueOk_some hv0 e
  unfold FlagToken.piece
  rw [noDashDash_iff_chain] at hk ⊢
  have hpadhead : ∀ y ∈ (List.replicate t.pad '\x00').head?, y ≠ '-' := by
    intro y hy
    cases hn : t.pad with
    | zero => simp [hn] at hy
    | succ k =>
      simp only [hn, List.replicate_succ, List.head?_cons, Option.mem_def,
        Option.some.injEq] at hy
      rw [← hy]
      decide
  cases hval : t.value with
  | none =>
    simp only [List.append_nil]
    exact hk.append (chain_replicate _) (fun x _ y hy hxy => hpadhead y hy hxy.2)
  | some v =>
    have hvv := (hv v hval).1
    rw [noDashDash_iff_chain] at hvv
    simp only
    refine List.Chain'.append (hk.append ?_ ?_) (chain_replicate _)
      (fun x _ y hy hxy => hpadhead y hy hxy.2)
    · rw [List.chain'_cons']
      exact ⟨fun y _ hxy => absurd hxy.1 (by decide), hvv⟩
    · intro x _ y hy hxy
      simp only [List.head?_cons, Option.mem_def, Option.some.injEq] at hy
      rw [← hy] at hxy
      exact absurd hxy.2 (by decide)

theorem stringsTrim_mk (body : List Char) (x : Char) (n : Nat)
    (h1 : body.head? ≠ some x) (h2 : body.getLast? ≠ some x) :
    stringsTrim (String.mk (body ++ List.replicate n x)) (String.mk [x]) = String.mk body := by
  unfold stringsTrim
  show String.mk (trimChars [x] (body ++ List.replicate n x)) = String.mk body
  rw [trimChars_pad x body n h1 h2]

/-- The loop body of `GetCommandsFromCmdline` on the piece of a well-formed part enters the
key with the value, `true` for a part without value. -/
theorem commandStep_piece (cmds : Commands) (t : FlagToken) (h : t.WellFormed) :
    commandStep cmds (String.mk t.piece) = (t.key, t.value.getD "true") :: cmds := by
  obtain ⟨heq, _, hk1, hk2, hv0⟩ := h
  have hv := fun v (e : t.value = some v) => valueOk_some hv0 e
  cases hval : t.value with
  | none =>
    have htrim : stringsTrim (String.mk t.piece) "\x00" = t.key := by
      have e : t.piece = t.key.toList ++ List.replicate t.pad '\x00' := by
        unfold FlagToken.piece
        rw [hval, List.append_nil]
      rw [e]
      exact (stringsTrim_mk _ '\x00' _ hk1 hk2).trans (mk_toList _)
    have hsplit : stringsSplit t.key "=" = [t.key] := by
      unfold stringsSplit
      show (splitGo ['='] 0 t.key.toList).map String.mk = [t.key]
      rw [splitGo_char_free '=' _ heq]
      rfl
    unfold commandStep
    simp only [htrim, hsplit, List.length_singleton, if_true, List.headD_cons, Option.getD_none]
    rfl
  | some v =>
    obtain ⟨_, hv2, hv3, hv4⟩ := hv v hval
    have htrim : stringsTrim (String.mk t.piece) "\x00"
        = String.mk (t.key.toList ++ '=' :: v.toList) := by
      have e : t.piece = (t.key.toList ++ '=' :: v.toList) ++ List.replicate t.pad '\x00' := by
        unfold FlagToken.piece
        rw [hval]
      rw [e]
      exact stringsTrim_mk _ '\x00' _
        (head_append_cons_ne _ _ _ _ hk1 (by decide))
        (last_append_cons_ne _ _ _ _ hv2 (by decide))
    have hsplit : stringsSplit (String.mk (t.key.toList ++ '=' :: v.toList)) "="
        = t.key :: (splitGo ['='] 0 v.toList).map String.mk := by
      unfold stringsSplit
      show (splitGo ['='] 0 (t.key.toList ++ '=' :: v.toList)).map String.mk = _
      rw [splitGo_char_append '=' _ _ heq]
      rfl
    have hlen : (t.key :: (splitGo ['='] 0 v.toList).map String.mk).length ≠ 1 := by
      have := List.length_pos.mpr (splitGo_ne_nil ['='] 0 v.toList)
      simp only [List.length_cons, List.length_map]
      omega
    have hjoin : stringsJoin ((splitGo ['='] 0 v.toList).map String.mk) "=" = v := by
      unfold stringsJoin
      have e : ((splitGo ['='] 0 v.toList).map String.mk).map String.toList
          = splitGo ['='] 0 v.toList := by
        rw [List.map_map]
        exact List.map_id _
      rw [e]
      show String.mk (List.intercalate ['='] (splitGo ['='] 0 v.toList)) = v
      rw [intercalate_splitGo]
      exact mk_toList v
    have hnl : stringsTrim v "\n" = v := by
      have := stringsTrim_mk v.toList '\n' 0 hv3 hv4
      simpa [mk_toList] using this
    unfold commandStep
    simp only [htrim, hsplit, if_neg hlen, List.tail_cons, hjoin, hnl, List.headD_cons,
      Option.getD_some]

theorem foldl_commandStep (ts : List FlagToken) (cmds : Commands)
    (h : ∀ t ∈ ts, t.WellFormed) :
    (ts.map (fun t => String.mk t.piece)).foldl commandStep cmds
      = (ts.map (fun t => (t.key, t.value.getD "true"))).reverse ++ cmds := by
  induction ts generalizing cmds with
  | nil => rfl
  | cons t ts ih =>
    simp only [List.map_cons, List.foldl_cons, List.reverse_cons, List.append_assoc,
      List.singleton_append]
    rw [commandStep_piece cmds t (h t (by simp)), ih _ (fun u hu => h u (by simp [hu]))]

/-- The map `GetCommandsFromCmdline` returns on a command line made of well-formed parts:
the keys with their values, the last part first. -/
theorem GetCommandsFromCmdline_cmdlineOf (prog : FlagToken) (toks : List FlagToken)
    (hwf : ∀ t ∈ prog :: toks, t.WellFormed)
    (hsep : ∀ t ∈ (prog :: toks).dropLast, t.piece.getLast? ≠ some '-') :
    GetCommandsFromCmdline (cmdlineOf prog toks)
      = ((prog :: toks).map (fun t => (t.key, t.value.getD "true"))).reverse := by
  have hsplit : stringsSplit (cmdlineOf prog toks) "--"
      = (prog :: toks).map (fun t => String.mk t.piece) := by
    unfold stringsSplit cmdlineOf
    show (splitGo ['-', '-'] 0
      (prog.piece ++ (toks.map (fun t => '-' :: '-' :: t.piece)).flatten)).map String.mk = _
    have e : toks.map (fun t => '-' :: '-' :: t.piece)
        = (toks.map FlagToken.piece).map (fun p => '-' :: '-' :: p) := by
      rw [List.map_map]
      rfl
    rw [e, splitGo_pieces prog.piece (toks.map FlagToken.piece)]
    · simp [List.map_map, Function.comp_def]
    · intro p hp
      rw [← List.map_cons, List.mem_map] at hp
      obtain ⟨t, ht, rfl⟩ := hp
      exact noDashDash_piece t (hwf t ht)
    · intro p hp
      rw [← List.map_cons, ← List.map_dropLast, List.mem_map] at hp
      obtain ⟨t, ht, rfl⟩ := hp
      exact hsep t ht
  unfold GetCommandsFromCmdline
  rw [hsplit, foldl_commandStep _ _ hwf, List.append_nil]

theorem lookup_of_mem_nodup (l : List (String × String)) (k v : String)
    (hn : (l.map Prod.fst).Nodup) (hm : (k, v) ∈ l) : l.lookup k = some v := by
  induction l with
  | nil => simp at hm
  | cons e es ih =>
    obtain ⟨a, b⟩ := e
    simp only [List.map_cons, List.nodup_cons] at hn
    rcases List.mem_cons.mp hm with h | h
    · obtain ⟨rfl, rfl⟩ := Prod.mk.inj h
      simp [List.lookup]
    · have hne : k ≠ a := by
        rintro rfl
        exact hn.1 (List.mem_map.mpr ⟨(k, v), h, rfl⟩)
      have : (k == a) = false := beq_eq_false_iff_ne.mpr hne
      simp only [List.lookup, this]
      exact ih hn.2 h

theorem lookup_of_not_mem (l : List (String × String)) (k : String)
    (hm : k ∉ l.map Prod.fst) : l.lookup k = none := by
  induction l with
  | nil => rfl
  | cons e es ih =>
    obtain ⟨a, b⟩ := e
    simp only [List.map_cons, List.mem_cons, not_or] at hm
    have : (k == a) = false := beq_eq_false_iff_ne.mpr hm.1
    simp only [List.lookup, this]
    exact ih hm.2

/-- C13, counterexample: a command line made of the program name and the flags
`--node-labels=rack=r1-` and `--v=2`.  The value that ends in a hyphen loses it to the next
key, which is entered as `-v`, and the program name is a key of the map, with the value
`true`, though no such flag occurs. -/
theorem C13_counterexample_hyphen_and_program_name :
    cmdlineOf ⟨"/usr/bin/kubelet", none, 0⟩
        [⟨"node-labels", some "rack=r1-", 0⟩, ⟨"v", some "2", 0⟩]
      = "/usr/bin/kubelet--node-labels=rack=r1---v=2"
    ∧ (GetCommandsFromCmdline "/usr/bin/kubelet--node-labels=rack=r1---v=2").get "node-labels"
      = "rack=r1"
    ∧ (GetCommandsFromCmdline "/usr/bin/kubelet--node-labels=rack=r1---v=2").get "v" = ""
    ∧ (GetCommandsFromCmdline "/usr/bin/kubelet--node-labels=rack=r1---v=2").get
        "/usr/bin/kubelet" = "true"
    ∧ (GetCommandsFromCmdline "/usr/bin/kubelet\x00--node-labels=rack=r1-\x00--v=2\x00").get
        "/usr/bin/kubelet" = "true" := by
  decide

/-- C13, amended: on a command line made of well-formed parts (the program name, then the
flags, each possibly followed by NUL characters) with distinct keys, where no part that is
directly followed by the two hyphens of the next flag ends in a hyphen,
`GetCommandsFromCmdline` maps the key of each `--k=v` to exactly `v`, the key of each bare
`--k` to `true`, the program name to `true` (or, when it has an `=`, what stands before it
to what stands after it), and every other name to the empty string. -/
theorem C13_flags_parsed (prog : FlagToken) (toks : List FlagToken)
    (hwf : ∀ t ∈ prog :: toks, t.WellFormed)
    (hsep : ∀ t ∈ (prog :: toks).dropLast, t.piece.getLast? ≠ some '-')
    (hnodup : ((prog :: toks).map FlagToken.key).Nodup) :
    (∀ t ∈ prog :: toks, ∀ v, t.value = some v →
        (GetCommandsFromCmdline (cmdlineOf prog toks)).lookup t.key = some v
        ∧ (GetCommandsFromCmdline (cmdlineOf prog toks)).get t.key = v)
    ∧ (∀ t ∈ prog :: toks, t.value = none →
        (GetCommandsFromCmdline (cmdlineOf prog toks)).lookup t.key = some "true"
        ∧ (GetCommandsFromCmdline (cmdlineOf prog toks)).get t.key = "true")
    ∧ (∀ name, name ∉ (prog :: toks).map FlagToken.key →
        (GetCommandsFromCmdline (cmdlineOf prog toks)).lookup name = none
        ∧ (GetCommandsFromCmdline (cmdlineOf prog toks)).get name = "") := by
  rw [GetCommandsFromCmdline_cmdlineOf prog toks hwf hsep]
  have hkeys : (((prog :: toks).map (fun t => (t.key, t.value.getD "true"))).reverse).map
      Prod.fst = ((prog :: toks).map FlagToken.key).reverse := by
    rw [List.map_reverse, List.map_map]
    rfl
  have hn : ((((prog :: toks).map (fun t => (t.key, t.value.getD "true"))).reverse).map
      Prod.fst).Nodup := by
    rw [hkeys]
    exact List.nodup_reverse.mpr hnodup
  have hall : ∀ t ∈ prog :: toks,
      (((prog :: toks).map (fun t => (t.key, t.value.getD "true"))).reverse).lookup t.key
        = some (t.value.getD "true") := by
    intro t ht
    refine lookup_of_mem_nodup _ _ _ hn ?_
    rw [List.mem_reverse]
    exact List.mem_map.mpr ⟨t, ht, rfl⟩
  refine ⟨?_, ?_, ?_⟩
  · intro t ht v hv
    have := hall t ht
    rw [hv] at this
    exact ⟨this, by unfold Commands.get; rw [this]; rfl⟩
  · intro t ht hv
    have := hall t ht
    rw [hv] at this
    exact ⟨this, by unfold Commands.get; rw [this]; rfl⟩
  · intro name hname
    have : (((prog :: toks).map (fun t => (t.key, t.value.getD "true"))).reverse).lookup name
        = none := by
      refine lookup_of_not_mem _ _ ?_
      rw [hkeys, List.mem_reverse]
      exact hname
    exact ⟨this, by unfold Commands.get; rw [this]; rfl⟩

/-- Witness of C13 on a command line in the form of `/proc/<pid>/cmdline`. -/
theorem C13_flags_parsed_witness :
    cmdlineOf sampleProgram sampleFlags
      = "/usr/bin/kubelet\x00--kubeconfig=/etc/kubernetes/kubelet.conf\x00--feature-gates=RotateKubeletServerCertificate=true\x00--rotate-certificates\x00"
    ∧ (GetCommandsFromCmdline (cmdlineOf sampleProgram sampleFlags)).get "feature-gates"
      = "RotateKubeletServerCertificate=true"
    ∧ (GetCommandsFromCmdline (cmdlineOf sampleProgram sampleFlags)).get "rotate-certificates"
      = "true"
    ∧ (GetCommandsFromCmdline (cmdlineOf sampleProgram sampleFlags)).get "cert-dir" = "" :=
  ⟨by decide,
    ((C13_flags_parsed sampleProgram sampleFlags (by decide) (by decide) (by decide)).1
      ⟨"feature-gates", some "RotateKubeletServerCertificate=true", 1⟩ (by decide)
      "RotateKubeletServerCertificate=true" rfl).2,
    ((C13_flags_parsed sampleProgram sampleFlags (by decide) (by decide) (by decide)).2.1
      ⟨"rotate-certificates", none, 1⟩ (by decide) rfl).2,
    ((C13_flags_parsed sampleProgram sampleFlags (by decide) (by decide) (by decide)).2.2
      "cert-dir" (by decide)).2⟩

end Krawler

/-! ## The agent's document is read back by the orchestrator (C14) -/

namespace GoLib

theorem digitChar_digit : ∀ k < 10, (Nat.digitChar k).isDigit = true
    ∧ (Nat.digitChar k).toNat - 48 = k := by
  decide

theorem hex4_digitChar : ∀ n < 128,
    hex4 '0' '0' (Nat.digitChar (n / 16)) (Nat.digitChar (n % 16)) = some n := by
  decide

theorem char_lt_128 (c : Char) (h : c.toNat < 32 ∨ c = '<' ∨ c = '>' ∨ c = '&') :
    c.toNat < 128 := by
  rcases h with h | rfl | rfl | rfl
  · omega
  all_goals decide

/-- One step of the string reader on the escape of a character gives the character back. -/
theorem parseStringAux_escapeChar (f : Nat) (c : Char) (rest : List Char) :
    parseStringAux (f + 1) (escapeChar c ++ rest)
      = (parseStringAux f rest).map (fun r => (c :: r.1, r.2)) := by
  unfold escapeChar
  split_ifs with h1 h2 h3 h4 h5 h6 h7 h8
  · subst h1
    simp [parseStringAux, stringStep]
  · subst h2
    simp [parseStringAux, stringStep]
  · subst h3
    simp [parseStringAux, stringStep]
  · subst h4
    simp [parseStringAux, stringStep]
  · subst h5
    simp [parseStringAux, stringStep]
  · have hlt := char_lt_128 c h6
    have hx := hex4_digitChar c.toNat hlt
    simp [parseStringAux, stringStep, unicodeEscape, hx]
    intro h
    omega
  · subst h7
    have hx : hex4 '2' '0' '2' '8' = some 8232 := by decide
    simp [parseStringAux, stringStep, unicodeEscape, hx]
  · subst h8
    have hx : hex4 '2' '0' '2' '9' = some 8233 := by decide
    simp [parseStringAux, stringStep, unicodeEscape, hx]
  · simp [parseStringAux, stringStep, h1, h2]
    intro h
    exact absurd (Or.inl h) h6

/-- The string reader gives back the text of an encoded string, with enough steps. -/
theorem parseStringAux_escape (s rest : List Char) (f : Nat) (hf : s.length + 1 ≤ f) :
    parseStringAux f (s.flatMap escapeChar ++ '"' :: rest) = some (s, rest) := by
  induction s generalizing f with
  | nil =>
    obtain ⟨g, rfl⟩ : ∃ g, f = g + 1 := ⟨f - 1, by simp at hf; omega⟩
    simp [parseStringAux, stringStep]
  | cons c s ih =>
    obtain ⟨g, rfl⟩ : ∃ g, f = g + 1 := ⟨f - 1, by simp at hf; omega⟩
    rw [List.flatMap_cons, List.append_assoc, parseStringAux_escapeChar,
      ih g (by simp at hf; omega)]
    rfl

theorem escapeChar_ne_nil (c : Char) : escapeChar c ≠ [] := by
  unfold escapeChar
  split_ifs <;> simp

theorem length_le_flatMap_escapeChar (s : List Char) :
    s.length ≤ (s.flatMap escapeChar).length := by
  induction s with
  | nil => simp
  | cons c s ih =>
    have := List.length_pos.mpr (escapeChar_ne_nil c)
    simp only [List.flatMap_cons, List.length_append, List.length_cons]
    omega

/-- The reader of a JSON string gives back the text of an encoded string. -/
theorem parseString_escape (s rest : List Char) :
    parseString (s.flatMap escapeChar ++ '"' :: rest) = some (s, rest) := by
  unfold parseString
  refine parseStringAux_escape s rest _ ?_
  have := length_le_flatMap_escapeChar s
  simp only [List.length_append, List.length_cons]
  omega

end GoLib

namespace GoLib

theorem digitsVal_toDigitsCore (f n : Nat) (acc : List Char) (h : n < f) :
    digitsVal (Nat.toDigitsCore 10 f n acc) 0 = digitsVal acc n := by
  induction f generalizing n acc with
  | zero => omega
  | succ g ih =>
    have hd := digitChar_digit (n % 10) (Nat.mod_lt _ (by norm_num))
    unfold Nat.toDigitsCore
    simp only
    split_ifs with h0
    · have hn : n % 10 = n := by omega
      simp only [digitsVal, hd.1, if_true, hd.2]
      congr 1
      omega
    · rw [ih (n / 10) _ (by omega)]
      simp only [digitsVal, hd.1, if_true, hd.2]
      congr 1
      omega

theorem toDigitsCore_all_digits (f n : Nat) (acc : List Char)
    (hacc : ∀ c ∈ acc, c.isDigit = true) :
    ∀ c ∈ Nat.toDigitsCore 10 f n acc, c.isDigit = true := by
  induction f generalizing n acc with
  | zero => simpa [Nat.toDigitsCore] using hacc
  | succ g ih =>
    have hd := digitChar_digit (n % 10) (Nat.mod_lt _ (by norm_num))
    have hacc2 : ∀ c ∈ Nat.digitChar (n % 10) :: acc, c.isDigit = true := by
      intro c hc
      rcases List.mem_cons.mp hc with rfl | hc
      · exact hd.1
      · exact hacc c hc
    unfold Nat.toDigitsCore
    simp only
    split_ifs with h0
    · exact hacc2
    · exact ih _ _ hacc2

theorem digitChar_ne_zero : ∀ k < 10, 0 < k → Nat.digitChar k ≠ '0' := by
  decide

theorem toDigitsCore_head (f n : Nat) (acc : List Char) (h : n < f) (hn : 0 < n) :
    ∃ c rest, Nat.toDigitsCore 10 f n acc = c :: rest ∧ c ≠ '0' := by
  induction f generalizing n acc with
  | zero => omega
  | succ g ih =>
    unfold Nat.toDigitsCore
    simp only
    split_ifs with h0
    · refine ⟨_, _, rfl, ?_⟩
      have hn2 : n % 10 = n := by omega
      rw [hn2]
      exact digitChar_ne_zero n (by omega) hn
    · exact ih (n / 10) _ (by omega) (by omega)

/-- The decimal digits of a number: all digits, the value is the number, and the first is
zero for the number zero only. -/
theorem toDigits_spec (n : Nat) :
    (∀ c ∈ Nat.toDigits 10 n, c.isDigit = true)
    ∧ digitsVal (Nat.toDigits 10 n) 0 = some n
    ∧ ∃ c rest, Nat.toDigits 10 n = c :: rest ∧ (c = '0' → rest = []) := by
  refine ⟨toDigitsCore_all_digits _ _ _ (by simp), ?_, ?_⟩
  · unfold Nat.toDigits
    rw [digitsVal_toDigitsCore _ _ _ (by omega)]
    rfl
  · rcases Nat.eq_zero_or_pos n with rfl | hn
    · exact ⟨'0', [], rfl, fun _ => rfl⟩
    · obtain ⟨c, rest, h1, h2⟩ := toDigitsCore_head (n + 1) n [] (by omega) hn
      exact ⟨c, rest, h1, fun e => absurd e h2⟩

theorem spanDigits_append (ds rest : List Char) (h : ∀ c ∈ ds, c.isDigit = true)
    (hr : ∀ c ∈ rest.head?, c.isDigit = false) :
    spanDigits (ds ++ rest) = (ds, rest) := by
  induction ds with
  | nil =>
    cases rest with
    | nil => rfl
    | cons r rs =>
      have := hr r (by simp)
      simp [spanDigits, this]
  | cons d ds ih =>
    have hd := h d (by simp)
    have := ih (fun c hc => h c (by simp [hc]))
    simp [spanDigits, hd, this]

theorem parseFraction_comma (lit r : List Char) :
    parseFraction lit (',' :: r) = some (lit, ',' :: r) := by
  simp [parseFraction, parseExponent]

theorem numberBody_toDigits (sign : List Char) (n : Nat) (r : List Char) :
    numberBody sign (Nat.toDigits 10 n ++ ',' :: r)
      = some (sign ++ Nat.toDigits 10 n, ',' :: r) := by
  obtain ⟨hall, _, c, rest, hc, hz⟩ := toDigits_spec n
  rw [hc] at hall ⊢
  have hcd : c.isDigit = true := hall c (by simp)
  have hspan : spanDigits (rest ++ ',' :: r) = (rest, ',' :: r) :=
    spanDigits_append rest (',' :: r) (fun d hd => hall d (by simp [hd]))
      (by simp)
  by_cases h0 : c = '0'
  · subst h0
    rw [hz rfl]
    simp [numberBody, parseFraction_comma]
  · rw [List.cons_append]
    unfold numberBody
    split
    · rename_i heq
      simp only [List.cons.injEq] at heq
      exact absurd heq.1 h0
    · rename_i c2 r2 _ heq
      simp only [List.cons.injEq] at heq
      obtain ⟨rfl, rfl⟩ := heq
      simp [hcd, hspan, parseFraction_comma]
    · rename_i heq
      simp at heq

theorem digit_ne_of_not_digit {c x : Char} (h : c.isDigit = true) (hx : x.isDigit = false) :
    c ≠ x := by
  rintro rfl
  rw [h] at hx
  exact Bool.noConfusion hx

theorem toDigits_head_digit (n : Nat) :
    ∃ c rest, Nat.toDigits 10 n = c :: rest ∧ c.isDigit = true := by
  obtain ⟨hall, _, c, rest, hc, _⟩ := toDigits_spec n
  exact ⟨c, rest, hc, hall c (by simp [hc])⟩

/-- The number reader gives back the literal of an encoded `int` that a comma follows. -/
theorem parseNumber_formatInt (i : Int) (r : List Char) :
    parseNumber (formatInt i ++ ',' :: r) = some (formatInt i, ',' :: r) := by
  unfold formatInt
  split_ifs with h
  · simp [parseNumber, numberBody_toDigits]
  · obtain ⟨c, rest, hc, hd⟩ := toDigits_head_digit i.toNat
    have hne : c ≠ '-' := digit_ne_of_not_digit hd (by decide)
    have := numberBody_toDigits [] i.toNat r
    rw [hc] at this ⊢
    unfold parseNumber
    split
    · rename_i heq
      simp only [List.cons_append, List.cons.injEq] at heq
      exact absurd heq.1 hne
    · simpa using this

/-- A value that starts with a digit or a minus sign is read as a number. -/
theorem valueStep_number (members : List Char → Option (List (String × Json) × List Char))
    (elements : List Char → Option (List Json × List Char)) (c : Char) (r : List Char)
    (hc : c.isDigit = true ∨ c = '-') :
    valueStep members elements (c :: r)
      = (parseNumber (c :: r)).map (fun p => (.num p.1, p.2)) := by
  have hne : ∀ x : Char, x.isDigit = false → x ≠ '-' → c ≠ x := by
    intro x hx hx2
    rcases hc with hc | rfl
    · exact digit_ne_of_not_digit hc hx
    · exact fun e => hx2 e.symm
  have h1 := hne ' ' (by decide) (by decide)
  have h2 := hne '\t' (by decide) (by decide)
  have h3 := hne '\r' (by decide) (by decide)
  have h4 := hne '\n' (by decide) (by decide)
  have h5 := hne '{' (by decide) (by decide)
  have h6 := hne '[' (by decide) (by decide)
  have h7 := hne '"' (by decide) (by decide)
  have h8 := hne 't' (by decide) (by decide)
  have h9 := hne 'f' (by decide) (by decide)
  have h10 := hne 'n' (by decide) (by decide)
  have hws : skipWs (c :: r) = c :: r := by simp [skipWs, h1, h2, h3, h4]
  unfold valueStep
  rw [hws]
  simp [h5, h6, h7, startsWith, Ne.symm h8, Ne.symm h9, Ne.symm h10]

theorem formatInt_head (i : Int) :
    ∃ c rest, formatInt i = c :: rest ∧ (c.isDigit = true ∨ c = '-') := by
  unfold formatInt
  split_ifs with h
  · exact ⟨'-', _, rfl, Or.inr rfl⟩
  · obtain ⟨c, rest, hc, hd⟩ := toDigits_head_digit i.toNat
    exact ⟨c, rest, hc, Or.inl hd⟩

/-- The value reader on an encoded `int` that a comma follows. -/
theorem parseValue_formatInt (f : Nat) (i : Int) (r : List Char) :
    parseValue (f + 1) (formatInt i ++ ',' :: r) = some (.num (formatInt i), ',' :: r) := by
  obtain ⟨c, rest, hc, hd⟩ := formatInt_head i
  have := parseNumber_formatInt i r
  rw [hc] at this ⊢
  rw [parseValue, List.cons_append, valueStep_number _ _ c _ hd]
  rw [List.cons_append] at this
  rw [this]
  rfl

/-- The conversion of the literal of an encoded `int` gives the `int` back. -/
theorem parseInt_formatInt (i : Int) (h1 : -2 ^ 63 ≤ i) (h2 : i < 2 ^ 63) :
    parseInt (formatInt i) = some i := by
  unfold formatInt
  split_ifs with h
  · obtain ⟨_, hval, c, rest, hc, _⟩ := toDigits_spec i.natAbs
    have hle : i.natAbs ≤ 2 ^ 63 := by omega
    have hneg : -(i.natAbs : Int) = i := by omega
    unfold parseInt
    rw [hc] at hval ⊢
    simp only [hval, hle, if_true, hneg]
  · obtain ⟨c, rest, hc, hd⟩ := toDigits_head_digit i.toNat
    obtain ⟨_, hval, _⟩ := toDigits_spec i.toNat
    have hne : c ≠ '-' := digit_ne_of_not_digit hd (by decide)
    have hlt : i.toNat < 2 ^ 63 := by omega
    have hpos : (i.toNat : Int) = i := by omega
    rw [hc] at hval ⊢
    unfold parseInt
    split
    · rename_i heq
      simp at heq
    · rename_i heq
      simp only [List.cons.injEq] at heq
      exact absurd heq.1 hne
    · simp only [hval, hlt, if_true, hpos]

end GoLib

namespace GoLib

theorem twoDigits_digitChar (a b : Nat) (ha : a < 10) (hb : b < 10) :
    CheckCert.twoDigits (Nat.digitChar a) (Nat.digitChar b) = some (a * 10 + b) := by
  have h1 := digitChar_digit a ha
  have h2 := digitChar_digit b hb
  simp [CheckCert.twoDigits, h1.1, h2.1, h1.2, h2.2]

theorem padDigits_two (n : Nat) :
    padDigits 2 n = [Nat.digitChar (n / 10 % 10), Nat.digitChar (n % 10)] := by
  simp [padDigits]

theorem padDigits_four (n : Nat) :
    padDigits 4 n = [Nat.digitChar (n / 10 / 10 / 10 % 10), Nat.digitChar (n / 10 / 10 % 10),
      Nat.digitChar (n / 10 % 10), Nat.digitChar (n % 10)] := by
  simp [padDigits]

theorem padDigits_all_digits (w n : Nat) : ∀ c ∈ padDigits w n, c.isDigit = true := by
  induction w generalizing n with
  | zero => simp [padDigits]
  | succ k ih =>
    intro c hc
    simp only [padDigits, List.mem_append, List.mem_singleton] at hc
    rcases hc with hc | rfl
    · exact ih _ c hc
    · exact (digitChar_digit _ (Nat.mod_lt _ (by norm_num))).1

theorem padDigits_length (w n : Nat) : (padDigits w n).length = w := by
  induction w generalizing n with
  | zero => rfl
  | succ k ih => simp [padDigits, ih]

theorem foldl_padDigits (w n a : Nat) :
    (padDigits w n).foldl (fun acc c => acc * 10 + (c.toNat - 48)) a
      = a * 10 ^ w + n % 10 ^ w := by
  induction w generalizing n a with
  | zero => simp [padDigits, Nat.mod_one]
  | succ k ih =>
    have hd := (digitChar_digit (n % 10) (Nat.mod_lt _ (by norm_num))).2
    simp only [padDigits, List.foldl_append, List.foldl_cons, List.foldl_nil, ih, hd]
    have e : n % 10 ^ (k + 1) = n % 10 + 10 * (n / 10 % 10 ^ k) := by
      rw [pow_succ, mul_comm, Nat.mod_mul]
    rw [e, pow_succ]
    ring

theorem stripZeros_append_zeros (l : List Char) :
    stripZeros l ++ List.replicate (l.length - (stripZeros l).length) '0' = l := by
  unfold stripZeros
  have h := List.takeWhile_append_dropWhile (fun c => decide (c = '0')) l.reverse
  have hz : l.reverse.takeWhile (fun c => decide (c = '0'))
      = List.replicate (l.reverse.takeWhile (fun c => decide (c = '0'))).length '0' := by
    rw [List.eq_replicate_iff]
    refine ⟨rfl, fun c hc => ?_⟩
    simpa using List.mem_takeWhile_imp hc
  have hl : l = (l.reverse.dropWhile (fun c => decide (c = '0'))).reverse
      ++ List.replicate (l.reverse.takeWhile (fun c => decide (c = '0'))).length '0' := by
    have := congrArg List.reverse h
    rw [List.reverse_append, List.reverse_reverse] at this
    have hz2 : (l.reverse.takeWhile (fun c => decide (c = '0'))).reverse
        = List.replicate (l.reverse.takeWhile (fun c => decide (c = '0'))).length '0' := by
      conv_lhs => rw [hz]
      simp
    rw [← hz2]
    exact this.symm
  have hlen : l.length - (l.reverse.dropWhile (fun c => decide (c = '0'))).reverse.length
      = (l.reverse.takeWhile (fun c => decide (c = '0'))).length := by
    have := congrArg List.length h
    simp only [List.length_append, List.length_reverse] at this ⊢
    omega
  rw [hlen]
  exact hl.symm

theorem stripZeros_sublist (l : List Char) : ∀ c ∈ stripZeros l, c ∈ l := by
  intro c hc
  unfold stripZeros at hc
  rw [List.mem_reverse] at hc
  exact List.mem_reverse.mp ((List.dropWhile_sublist _).subset hc)

theorem stripZeros_length (l : List Char) : (stripZeros l).length ≤ l.length := by
  unfold stripZeros
  rw [List.length_reverse]
  exact (List.dropWhile_sublist _).length_le.trans (by simp)

theorem padDigits_two_spec (n : Nat) (h : n < 100) :
    ∃ a b, padDigits 2 n = [a, b] ∧ CheckCert.twoDigits a b = some n := by
  refine ⟨_, _, padDigits_two n, ?_⟩
  rw [twoDigits_digitChar _ _ (Nat.mod_lt _ (by norm_num)) (Nat.mod_lt _ (by norm_num))]
  congr 1
  omega

theorem padDigits_four_spec (n : Nat) (h : n < 10000) :
    ∃ a b c d, padDigits 4 n = [a, b, c, d] ∧ CheckCert.twoDigits a b = some (n / 100)
      ∧ CheckCert.twoDigits c d = some (n % 100) := by
  refine ⟨_, _, _, _, padDigits_four n, ?_, ?_⟩
  · rw [twoDigits_digitChar _ _ (Nat.mod_lt _ (by norm_num)) (Nat.mod_lt _ (by norm_num))]
    congr 1
    omega
  · rw [twoDigits_digitChar _ _ (Nat.mod_lt _ (by norm_num)) (Nat.mod_lt _ (by norm_num))]
    congr 1
    omega

end GoLib

namespace CheckCert
open GoLib

theorem parseRFC3339_cons (y1 y2 y3 y4 mo1 mo2 d1 d2 h1 h2 mi1 mi2 s1 s2 : Char)
    (rest : List Char) :
    parseRFC3339 (String.mk (y1 :: y2 :: y3 :: y4 :: '-' :: mo1 :: mo2 :: '-' :: d1 :: d2 :: 'T'
      :: h1 :: h2 :: ':' :: mi1 :: mi2 :: ':' :: s1 :: s2 :: rest))
    = match twoDigits y1 y2, twoDigits y3 y4, twoDigits mo1 mo2, twoDigits d1 d2,
        twoDigits h1 h2, twoDigits mi1 mi2, twoDigits s1 s2 with
    | some yh, some yl, some mo, some d, some h, some mi, some sec =>
      if 1 ≤ mo ∧ mo ≤ 12 ∧ 1 ≤ d ∧ d ≤ daysIn ((yh * 100 + yl : Nat) : Int) mo ∧ h < 24
          ∧ mi < 60 ∧ sec < 60 then
        match rest with
        | '.' :: r =>
          match spanDigits r with
          | ([], _) => none
          | (ds, r2) =>
            (parseZone r2).map
              (fun off => ⟨((yh * 100 + yl : Nat) : Int), mo, d, h, mi, sec, fracNanos ds, off⟩)
        | r =>
          (parseZone r).map (fun off => ⟨((yh * 100 + yl : Nat) : Int), mo, d, h, mi, sec, 0, off⟩)
      else none
    | _, _, _, _, _, _, _ => none := by
  rfl

end CheckCert

namespace Krawler

open GoLib CheckCert

theorem fracNanos_stripZeros (n : Nat) (h : n < 1000000000) :
    fracNanos (stripZeros (padDigits 9 n)) = n := by
  unfold fracNanos
  have hlen := stripZeros_length (padDigits 9 n)
  rw [padDigits_length] at hlen
  have h1 : (stripZeros (padDigits 9 n)).take 9 = stripZeros (padDigits 9 n) :=
    List.take_of_length_le hlen
  have h2 := stripZeros_append_zeros (padDigits 9 n)
  rw [padDigits_length] at h2
  rw [h1, h2, foldl_padDigits]
  simp only [Nat.zero_mul, Nat.zero_add]
  exact Nat.mod_eq_of_lt (by norm_num; exact h)

theorem stripZeros_nil_iff (n : Nat) (h : n < 1000000000)
    (he : stripZeros (padDigits 9 n) = []) : n = 0 := by
  have := fracNanos_stripZeros n h
  rw [he] at this
  rw [← this]
  decide

theorem tdiv_sixty_neg_iff (off : Int) (h1 : off % 60 = 0) :
    Int.tdiv off 60 < 0 ↔ off < 0 := by
  constructor
  · intro h
    by_contra hge
    have := Int.tdiv_eq_ediv (not_lt.mp hge) (by norm_num : (0 : Int) ≤ 60)
    rw [this] at h
    omega
  · intro h
    have e : off = -(-off) := by ring
    rw [e, Int.neg_tdiv, Int.tdiv_eq_ediv (by omega) (by norm_num)]
    omega

/-- The zone of an encoded time is `Z` for the offset zero, else a sign and four digits,
from which the reader gets the offset back. -/
theorem renderZone_spec (off : Int) (h1 : off % 60 = 0) (h2 : off.natAbs < 86400) :
    (off = 0 ∧ renderZone off = ['Z'])
    ∨ ∃ sg a b c d, renderZone off = [sg, a, b, ':', c, d] ∧ (sg = '+' ∨ sg = '-')
        ∧ parseZone [sg, a, b, ':', c, d] = some off := by
  by_cases h0 : off = 0
  · left
    exact ⟨h0, by simp [renderZone, h0]⟩
  · right
    obtain ⟨a, b, hab, habv⟩ := padDigits_two_spec (off.natAbs / 60 / 60) (by omega)
    obtain ⟨c, d, hcd, hcdv⟩ := padDigits_two_spec (off.natAbs / 60 % 60) (by omega)
    have hh : off.natAbs / 60 / 60 < 24 := by omega
    have hm : off.natAbs / 60 % 60 < 60 := Nat.mod_lt _ (by norm_num)
    have hsum : off.natAbs / 60 / 60 * 3600 + off.natAbs / 60 % 60 * 60 = off.natAbs := by
      omega
    by_cases hneg : Int.tdiv off 60 < 0
    · refine ⟨'-', a, b, c, d, ?_, Or.inr rfl, ?_⟩
      · simp [renderZone, h0, hneg, hab, hcd]
      · have hlt : off < 0 := (tdiv_sixty_neg_iff off h1).mp hneg
        simp only [parseZone, habv, hcdv, hh, hm, and_self, if_true]
        simp only [show ('-' : Char) ≠ '+' by decide, if_false, hsum]
        congr 1
        omega
    · refine ⟨'+', a, b, c, d, ?_, Or.inl rfl, ?_⟩
      · simp [renderZone, h0, hneg, hab, hcd]
      · have hge : 0 ≤ off := by
          by_contra hlt
          exact hneg ((tdiv_sixty_neg_iff off h1).mpr (not_le.mp hlt))
        simp only [parseZone, habv, hcdv, hh, hm, and_self, if_true, hsum]
        congr 1
        omega

theorem daysIn_le (y : Int) (m : Nat) : daysIn y m ≤ 31 := by
  unfold daysIn
  split_ifs <;> omega

theorem spanDigits_stripZeros (n : Nat) (zone : List Char)
    (hz : ∀ c ∈ zone.head?, c.isDigit = false) :
    spanDigits (stripZeros (padDigits 9 n) ++ zone) = (stripZeros (padDigits 9 n), zone) :=
  spanDigits_append _ _
    (fun c hc => padDigits_all_digits 9 n c (stripZeros_sublist _ c hc)) hz

/-- The reader of RFC 3339 gives back a time from its rendering. -/
theorem parseRFC3339_renderTime (t : Time) (hmo1 : 1 ≤ t.month) (hmo2 : t.month ≤ 12)
    (hd1 : 1 ≤ t.day) (hd2 : t.day ≤ daysIn t.year t.month) (hh : t.hour < 24)
    (hmi : t.minute < 60) (hs : t.second < 60) (hn : t.nsec < 1000000000)
    (hm : Marshalable t) :
    parseRFC3339 (String.mk (renderTime t)) = some t := by
  obtain ⟨hy0, hy1, ho1, ho2⟩ := hm
  have hday := daysIn_le t.year t.month
  obtain ⟨y1, y2, y3, y4, hy, hyv1, hyv2⟩ := padDigits_four_spec t.year.toNat (by omega)
  obtain ⟨mo1, mo2, hmo, hmov⟩ := padDigits_two_spec t.month (by omega)
  obtain ⟨d1, d2, hd, hdv⟩ := padDigits_two_spec t.day (by omega)
  obtain ⟨h1, h2, hhr, hhv⟩ := padDigits_two_spec t.hour (by omega)
  obtain ⟨mi1, mi2, hmin, hminv⟩ := padDigits_two_spec t.minute (by omega)
  obtain ⟨s1, s2, hsec, hsecv⟩ := padDigits_two_spec t.second (by omega)
  have hyear : ((t.year.toNat / 100 * 100 + t.year.toNat % 100 : Nat) : Int) = t.year := by
    omega
  have hcond : 1 ≤ t.month ∧ t.month ≤ 12 ∧ 1 ≤ t.day ∧ t.day ≤ daysIn t.year t.month
      ∧ t.hour < 24 ∧ t.minute < 60 ∧ t.second < 60 := ⟨hmo1, hmo2, hd1, hd2, hh, hmi, hs⟩
  have e : renderTime t = y1 :: y2 :: y3 :: y4 :: '-' :: mo1 :: mo2 :: '-' :: d1 :: d2 :: 'T'
      :: h1 :: h2 :: ':' :: mi1 :: mi2 :: ':' :: s1 :: s2
      :: (renderFraction t.nsec ++ renderZone t.offset) := by
    unfold renderTime
    rw [hy, hmo, hd, hhr, hmin, hsec]
    rfl
  have hzone := renderZone_spec t.offset ho1 ho2
  have hfrac := fracNanos_stripZeros t.nsec hn
  have hnil := stripZeros_nil_iff t.nsec hn
  have hspan := spanDigits_stripZeros t.nsec (renderZone t.offset)
  have hrf : renderFraction t.nsec = if stripZeros (padDigits 9 t.nsec) = [] then []
      else '.' :: stripZeros (padDigits 9 t.nsec) := rfl
  rw [e, hrf]
  clear e hrf
  generalize stripZeros (padDigits 9 t.nsec) = st at hfrac hnil hspan ⊢
  generalize renderZone t.offset = zone at hzone hspan ⊢
  obtain ⟨year, month, day, hour, minute, second, nsec, offset⟩ := t
  simp only at *
  have hres : ∀ (rest : List Char) (r : Option Time),
      (match rest with
        | '.' :: r =>
          match spanDigits r with
          | ([], _) => none
          | (ds, r2) =>
            (parseZone r2).map (fun off => (⟨year, month, day, hour, minute, second,
              fracNanos ds, off⟩ : Time))
        | r => (parseZone r).map (fun off => (⟨year, month, day, hour, minute, second, 0,
              off⟩ : Time))) = r →
      parseRFC3339 (String.mk (y1 :: y2 :: y3 :: y4 :: '-' :: mo1 :: mo2 :: '-' :: d1 :: d2
        :: 'T' :: h1 :: h2 :: ':' :: mi1 :: mi2 :: ':' :: s1 :: s2 :: rest)) = r := by
    intro rest r hr
    rw [parseRFC3339_cons]
    simp only [hyv1, hyv2, hmov, hdv, hhv, hminv, hsecv, hyear, hcond, and_self, if_true]
    exact hr
  apply hres
  have hzhead : ∀ c ∈ zone.head?, c.isDigit = false := by
    intro c hc
    rcases hzone with ⟨_, hz⟩ | ⟨sg, a, b, c2, d, hz, hsg, _⟩
    · rw [hz] at hc
      simp only [List.head?_cons, Option.mem_def, Option.some.injEq] at hc
      subst hc
      decide
    · rw [hz] at hc
      simp only [List.head?_cons, Option.mem_def, Option.some.injEq] at hc
      subst hc
      rcases hsg with rfl | rfl <;> decide
  have hzparse : parseZone zone = some offset := by
    rcases hzone with ⟨h0, hz⟩ | ⟨sg, a, b, c2, d, hz, _, hp⟩
    · rw [hz, h0]
      rfl
    · rw [hz, hp]
  cases st with
  | nil =>
    have hn0 : nsec = 0 := hnil rfl
    subst hn0
    rcases hzone with ⟨_, hz⟩ | ⟨sg, a, b, c2, d, hz, hsg, _⟩
    · subst hz
      simp [hzparse]
    · subst hz
      rcases hsg with rfl | rfl <;> simp [hzparse]
  | cons c cs =>
    have := hspan hzhead
    simp only [List.cons_append] at this
    simp [this, hzparse, hfrac]

theorem isDigit_not_control (c : Char) (h : c.isDigit = true) : ¬ c.toNat < 32 := by
  intro hlt
  have hall : ∀ n < 32, (Char.ofNat n).isDigit = false := by decide
  have := hall c.toNat hlt
  rw [Char.ofNat_toNat] at this
  rw [h] at this
  exact Bool.noConfusion this

theorem escapeChar_timeChar (c : Char) (h : TimeChar c) : escapeChar c = [c] := by
  rcases h with h | rfl | rfl | rfl | rfl | rfl | rfl
  · have h1 := digit_ne_of_not_digit h (show ('"' : Char).isDigit = false by decide)
    have h2 := digit_ne_of_not_digit h (show ('\\' : Char).isDigit = false by decide)
    have h3 := digit_ne_of_not_digit h (show ('\n' : Char).isDigit = false by decide)
    have h4 := digit_ne_of_not_digit h (show ('\r' : Char).isDigit = false by decide)
    have h5 := digit_ne_of_not_digit h (show ('\t' : Char).isDigit = false by decide)
    have h6 := digit_ne_of_not_digit h (show ('<' : Char).isDigit = false by decide)
    have h7 := digit_ne_of_not_digit h (show ('>' : Char).isDigit = false by decide)
    have h8 := digit_ne_of_not_digit h (show ('&' : Char).isDigit = false by decide)
    have h9 := digit_ne_of_not_digit h (show (Char.ofNat 0x2028).isDigit = false by decide)
    have h10 := digit_ne_of_not_digit h (show (Char.ofNat 0x2029).isDigit = false by decide)
    have h11 := isDigit_not_control c h
    simp [escapeChar, h1, h2, h3, h4, h5, h6, h7, h8, h9, h10, h11]
  all_goals decide

theorem flatMap_escapeChar_eq (l : List Char) (h : ∀ c ∈ l, TimeChar c) :
    l.flatMap escapeChar = l := by
  induction l with
  | nil => rfl
  | cons c cs ih =>
    rw [List.flatMap_cons, escapeChar_timeChar c (h c (by simp)),
      ih (fun d hd => h d (by simp [hd]))]
    rfl

theorem timeChar_padDigits (w n : Nat) : ∀ c ∈ padDigits w n, TimeChar c :=
  fun c hc => Or.inl (padDigits_all_digits w n c hc)

theorem timeChar_renderTime (t : Time) : ∀ c ∈ renderTime t, TimeChar c := by
  intro c hc
  unfold renderTime renderFraction renderZone at hc
  simp only [List.mem_append, List.mem_cons] at hc
  have hpad := fun w n (h : c ∈ padDigits w n) => timeChar_padDigits w n c h
  have hstrip : c ∈ stripZeros (padDigits 9 t.nsec) → TimeChar c :=
    fun h => hpad 9 _ (stripZeros_sublist _ c h)
  unfold TimeChar at *
  rcases hc with hc | hc | hc | hc | hc | hc | hc | hc | hc | hc | hc | hc | hc
  · exact hpad _ _ hc
  · exact Or.inr (Or.inl hc)
  · exact hpad _ _ hc
  · exact Or.inr (Or.inl hc)
  · exact hpad _ _ hc
  · exact Or.inr (Or.inr (Or.inr (Or.inl hc)))
  · exact hpad _ _ hc
  · exact Or.inr (Or.inr (Or.inl hc))
  · exact hpad _ _ hc
  · exact Or.inr (Or.inr (Or.inl hc))
  · exact hpad _ _ hc
  · split_ifs at hc with h1
    · simp at hc
    · rcases List.mem_cons.mp hc with rfl | hc
      · simp
      · exact hstrip hc
  · split_ifs at hc with h1 h2
    · simp only [List.mem_singleton] at hc
      simp [hc]
    · simp only [List.mem_cons, List.mem_append] at hc
      rcases hc with rfl | hc | rfl | hc
      · simp
      · exact hpad _ _ hc
      · simp
      · exact hpad _ _ hc
    · simp only [List.mem_cons, List.mem_append] at hc
      rcases hc with rfl | hc | rfl | hc
      · simp
      · exact hpad _ _ hc
      · simp
      · exact hpad _ _ hc

/-- The encoded time is the JSON string of its rendering. -/
theorem marshalTime_eq (t : Time) (h : Marshalable t) :
    marshalTime t = some (encodeString (renderTime t)) := by
  obtain ⟨h1, h2, h3, h4⟩ := h
  unfold marshalTime encodeString
  rw [if_neg (by omega), flatMap_escapeChar_eq _ (timeChar_renderTime t)]

end Krawler

namespace GoLib

/-- The value reader on an encoded string. -/
theorem parseValue_encodeString (f : Nat) (s rest : List Char) :
    parseValue (f + 1) (encodeString s ++ rest) = some (.str (String.mk s), rest) := by
  have e : encodeString s ++ rest = '"' :: (s.flatMap escapeChar ++ '"' :: rest) := by
    simp [encodeString]
  rw [e, parseValue]
  unfold valueStep
  have hws : skipWs ('"' :: (s.flatMap escapeChar ++ '"' :: rest))
      = '"' :: (s.flatMap escapeChar ++ '"' :: rest) := by
    simp [skipWs]
  rw [hws]
  simp [parseString_escape]

theorem skipWs_of_not_ws (c : Char) (r : List Char)
    (h : c ≠ ' ' ∧ c ≠ '\t' ∧ c ≠ '\r' ∧ c ≠ '\n') : skipWs (c :: r) = c :: r := by
  simp [skipWs, h.1, h.2.1, h.2.2.1, h.2.2.2]

/-- The member reader on an encoded member that a comma follows. -/
theorem membersStep_comma (value : List Char → Option (Json × List Char))
    (members : List Char → Option (List (String × Json) × List Char)) (key : String)
    (vtext : List Char) (v : Json) (r : List Char)
    (hk : key.toList.flatMap escapeChar = key.toList)
    (hv : value (vtext ++ ',' :: r) = some (v, ',' :: r)) :
    membersStep value members (memberText key vtext ++ ',' :: r)
      = (members r).map (fun p => ((key, v) :: p.1, p.2)) := by
  have e : memberText key vtext ++ ',' :: r
      = '"' :: (key.toList.flatMap escapeChar ++ '"' :: ':' :: (vtext ++ ',' :: r)) := by
    rw [hk]
    simp [memberText]
  rw [e]
  unfold membersStep
  rw [skipWs_of_not_ws '"' _ (by decide)]
  simp only [closes, if_true, parseString_escape]
  rw [skipWs_of_not_ws ':' _ (by decide)]
  simp only [closes, if_true, hv]
  rw [skipWs_of_not_ws ',' _ (by decide)]
  simp only [closes, if_true]
  rfl

/-- The member reader on the last encoded member, which a closing brace follows. -/
theorem membersStep_last (value : List Char → Option (Json × List Char))
    (members : List Char → Option (List (String × Json) × List Char)) (key : String)
    (vtext : List Char) (v : Json) (r : List Char)
    (hk : key.toList.flatMap escapeChar = key.toList)
    (hv : value (vtext ++ '}' :: r) = some (v, '}' :: r)) :
    membersStep value members (memberText key vtext ++ '}' :: r) = some ([(key, v)], r) := by
  have e : memberText key vtext ++ '}' :: r
      = '"' :: (key.toList.flatMap escapeChar ++ '"' :: ':' :: (vtext ++ '}' :: r)) := by
    rw [hk]
    simp [memberText]
  rw [e]
  unfold membersStep
  rw [skipWs_of_not_ws '"' _ (by decide)]
  simp only [closes, if_true, parseString_escape]
  rw [skipWs_of_not_ws ':' _ (by decide)]
  simp only [closes, if_true, hv]
  rw [skipWs_of_not_ws '}' _ (by decide)]
  simp only [closes, if_true]
  simp

/-- The value reader on an object whose text starts with a member. -/
theorem parseValue_object (f : Nat) (key : String) (vtext rest : List Char) :
    parseValue (f + 1) ('{' :: (memberText key vtext ++ rest))
      = (parseMembers f (memberText key vtext ++ rest)).map (fun p => (.obj p.1, p.2)) := by
  rw [parseValue]
  unfold valueStep
  rw [skipWs_of_not_ws '{' _ (by decide)]
  have e : memberText key vtext ++ rest = '"' :: (key.toList ++ '"' :: ':' :: vtext ++ rest) := by
    simp [memberText]
  rw [e]
  simp only [if_true]
  rw [skipWs_of_not_ws '"' _ (by decide)]
  simp [closes]

theorem parseMembers_comma (f : Nat) (key : String) (vtext : List Char) (v : Json)
    (r : List Char) (hk : key.toList.flatMap escapeChar = key.toList)
    (hv : parseValue f (vtext ++ ',' :: r) = some (v, ',' :: r)) :
    parseMembers (f + 1) (memberText key vtext ++ ',' :: r)
      = (parseMembers f r).map (fun p => ((key, v) :: p.1, p.2)) := by
  rw [parseMembers, membersStep_comma _ _ key vtext v r hk hv]

theorem parseMembers_last (f : Nat) (key : String) (vtext : List Char) (v : Json)
    (r : List Char) (hk : key.toList.flatMap escapeChar = key.toList)
    (hv : parseValue f (vtext ++ '}' :: r) = some (v, '}' :: r)) :
    parseMembers (f + 1) (memberText key vtext ++ '}' :: r) = some ([(key, v)], r) := by
  rw [parseMembers, membersStep_last _ _ key vtext v r hk hv]

end GoLib

namespace Krawler

open GoLib CheckCert

theorem entryText_append (e : Entry) (due rest : List Char) :
    entryText e due ++ rest
      = '{' :: (memberText "type" (encodeString e.Type_.toList) ++ ',' ::
        (memberText "node" (encodeString e.Node.toList) ++ ',' ::
        (memberText "name" (encodeString e.Name.toList) ++ ',' ::
        (memberText "days" (formatInt e.Days) ++ ',' ::
        (memberText "due" due ++ ',' ::
        (memberText "path" (encodeString e.Path.toList) ++ '}' :: rest)))))) := by
  simp [entryText]

/-- The value reader on the encoding of an entry gives the value `entryJson`. -/
theorem parseValue_entry (f : Nat) (e : Entry) (rest : List Char) :
    parseValue (f + 8) (entryText e (encodeString (renderTime e.Due)) ++ rest)
      = some (entryJson e, rest) := by
  rw [entryText_append]
  have h6 := parseMembers_last (f + 1) "path" (encodeString e.Path.toList)
    (.str (String.mk e.Path.toList)) rest (by decide) (parseValue_encodeString f _ _)
  have h5 := parseMembers_comma (f + 2) "due" (encodeString (renderTime e.Due))
    (.str (String.mk (renderTime e.Due))) _ (by decide)
    (parseValue_encodeString (f + 1) _
      (',' :: (memberText "path" (encodeString e.Path.toList) ++ '}' :: rest)))
  rw [h6] at h5
  have h4 := parseMembers_comma (f + 3) "days" (formatInt e.Days) (.num (formatInt e.Days)) _
    (by decide)
    (parseValue_formatInt (f + 2) e.Days
      (memberText "due" (encodeString (renderTime e.Due)) ++ ',' ::
        (memberText "path" (encodeString e.Path.toList) ++ '}' :: rest)))
  rw [h5] at h4
  have h3 := parseMembers_comma (f + 4) "name" (encodeString e.Name.toList)
    (.str (String.mk e.Name.toList)) _ (by decide)
    (parseValue_encodeString (f + 3) _
      (',' :: (memberText "days" (formatInt e.Days) ++ ',' ::
        (memberText "due" (encodeString (renderTime e.Due)) ++ ',' ::
        (memberText "path" (encodeString e.Path.toList) ++ '}' :: rest)))))
  rw [h4] at h3
  have h2 := parseMembers_comma (f + 5) "node" (encodeString e.Node.toList)
    (.str (String.mk e.Node.toList)) _ (by decide)
    (parseValue_encodeString (f + 4) _
      (',' :: (memberText "name" (encodeString e.Name.toList) ++ ',' ::
        (memberText "days" (formatInt e.Days) ++ ',' ::
        (memberText "due" (encodeString (renderTime e.Due)) ++ ',' ::
        (memberText "path" (encodeString e.Path.toList) ++ '}' :: rest))))))
  rw [h3] at h2
  have h1 := parseMembers_comma (f + 6) "type" (encodeString e.Type_.toList)
    (.str (String.mk e.Type_.toList)) _ (by decide)
    (parseValue_encodeString (f + 5) _
      (',' :: (memberText "node" (encodeString e.Node.toList) ++ ',' ::
        (memberText "name" (encodeString e.Name.toList) ++ ',' ::
        (memberText "days" (formatInt e.Days) ++ ',' ::
        (memberText "due" (encodeString (renderTime e.Due)) ++ ',' ::
        (memberText "path" (encodeString e.Path.toList) ++ '}' :: rest)))))))
  rw [h2] at h1
  have h0 := parseValue_object (f + 7) "type" (encodeString e.Type_.toList)
    (',' :: (memberText "node" (encodeString e.Node.toList) ++ ',' ::
        (memberText "name" (encodeString e.Name.toList) ++ ',' ::
        (memberText "days" (formatInt e.Days) ++ ',' ::
        (memberText "due" (encodeString (renderTime e.Due)) ++ ',' ::
        (memberText "path" (encodeString e.Path.toList) ++ '}' :: rest))))))
  rw [h1] at h0
  exact h0

theorem encodeEntry_eq (e : Entry) (h : Marshalable e.Due) :
    encodeEntry e = some (entryText e (encodeString (renderTime e.Due))) := by
  unfold encodeEntry
  rw [marshalTime_eq _ h]
  rfl

/-- The element reader on the encoded entries of a non-empty list. -/
theorem parseElements_entries (es : List Entry) (hne : es ≠ [])
    (h : ∀ e ∈ es, Marshalable e.Due) :
    ∃ body, encodeEntries es = some body ∧ es.length ≤ body.length
      ∧ (∃ tail, body = '{' :: tail)
      ∧ ∀ (f : Nat) (rest : List Char),
          parseElements (f + es.length + 8) (body ++ ']' :: rest)
            = some (es.map entryJson, rest) := by
  induction es with
  | nil => exact absurd rfl hne
  | cons e es ih =>
    have he := encodeEntry_eq e (h e (by simp))
    cases es with
    | nil =>
      refine ⟨_, he, ?_, ⟨_, rfl⟩, ?_⟩
      · simp [entryText]
      · intro f rest
        show parseElements ((f + 8) + 1) _ = _
        rw [parseElements]
        unfold elementsStep
        rw [parseValue_entry]
        simp only
        rw [skipWs_of_not_ws ']' _ (by decide)]
        simp [closes]
    | cons e2 es2 =>
      obtain ⟨b, hb, hlen, htail, hparse⟩ := ih (by simp) (fun x hx => h x (by simp [hx]))
      refine ⟨entryText e (encodeString (renderTime e.Due)) ++ ',' :: b, ?_, ?_, ⟨_, rfl⟩, ?_⟩
      · simp only [encodeEntries, he, hb]
      · simp only [List.length_append, List.length_cons] at hlen ⊢
        omega
      · intro f rest
        show parseElements ((f + (e2 :: es2).length + 8) + 1) _ = _
        rw [parseElements]
        unfold elementsStep
        rw [List.append_assoc]
        have := parseValue_entry (f + (e2 :: es2).length) e ((',' :: b) ++ ']' :: rest)
        rw [this]
        simp only [List.cons_append]
        rw [skipWs_of_not_ws ',' _ (by decide)]
        simp only [closes, if_true, hparse f rest]
        rfl

/-- The value reader on the array of the encoded entries. -/
theorem parseValue_entries (es : List Entry) (h : ∀ e ∈ es, Marshalable e.Due) :
    ∃ body, encodeEntries es = some body ∧ es.length ≤ body.length
      ∧ ∀ (f : Nat) (rest : List Char),
          parseValue (f + es.length + 9) ('[' :: (body ++ ']' :: rest))
            = some (.arr (es.map entryJson), rest) := by
  by_cases hne : es = []
  · subst hne
    refine ⟨[], rfl, le_refl _, ?_⟩
    intro f rest
    show parseValue ((f + 8) + 1) _ = _
    rw [parseValue]
    unfold valueStep
    rw [skipWs_of_not_ws '[' _ (by decide)]
    simp only [List.nil_append]
    rw [skipWs_of_not_ws ']' _ (by decide)]
    simp [closes]
  · obtain ⟨body, hb, hlen, ⟨tail, htail⟩, hparse⟩ := parseElements_entries es hne h
    refine ⟨body, hb, hlen, ?_⟩
    intro f rest
    show parseValue ((f + es.length + 8) + 1) _ = _
    rw [parseValue]
    unfold valueStep
    rw [skipWs_of_not_ws '[' _ (by decide)]
    have hsk : skipWs (body ++ ']' :: rest) = body ++ ']' :: rest := by
      rw [htail, List.cons_append]
      exact skipWs_of_not_ws '{' _ (by decide)
    have hcl : closes ']' (body ++ ']' :: rest) = none := by
      rw [htail, List.cons_append]
      simp [closes]
    simp only [show ('[' : Char) ≠ '{' by decide, if_false, if_true, hsk, hcl, hparse f rest]
    rfl

end Krawler

namespace Krawler

open GoLib CheckCert

/-- The decoder of the orchestrator makes of the value `entryJson` the entry itself. -/
theorem decodeEntry_entryJson (e : Entry) (hr : e.InRange) (hm : Marshalable e.Due) :
    decodeEntry (entryJson e) = some e.toRow := by
  obtain ⟨h1, h2, h3, h4, h5, h6, h7, h8, h9, h10⟩ := hr
  have ht := parseRFC3339_renderTime e.Due h1 h2 h3 h4 h5 h6 h7 h8 hm
  have hi := parseInt_formatInt e.Days h9 h10
  have k1 : keyMatches "type" "type" = true := by decide
  have k2 : keyMatches "type" "node" = false := by decide
  have k3 : keyMatches "node" "node" = true := by decide
  have k4 : keyMatches "type" "name" = false := by decide
  have k5 : keyMatches "node" "name" = false := by decide
  have k6 : keyMatches "name" "name" = true := by decide
  have k7 : keyMatches "type" "days" = false := by decide
  have k8 : keyMatches "node" "days" = false := by decide
  have k9 : keyMatches "name" "days" = false := by decide
  have k10 : keyMatches "days" "days" = true := by decide
  have k11 : keyMatches "type" "due" = false := by decide
  have k12 : keyMatches "node" "due" = false := by decide
  have k13 : keyMatches "name" "due" = false := by decide
  have k14 : keyMatches "days" "due" = false := by decide
  have k15 : keyMatches "due" "due" = true := by decide
  have k16 : keyMatches "type" "path" = false := by decide
  have k17 : keyMatches "node" "path" = false := by decide
  have k18 : keyMatches "name" "path" = false := by decide
  have k19 : keyMatches "days" "path" = false := by decide
  have k20 : keyMatches "due" "path" = false := by decide
  have k21 : keyMatches "path" "path" = true := by decide
  simp [decodeEntry, entryJson, decodeEntryMembers, decodeEntryMember, decodeString, k1, k2,
    k3, k4, k5, k6, k7, k8, k9, k10, k11, k12, k13, k14, k15, k16, k17, k18, k19, k20, k21,
    ht, hi, Entry.zero, Entry.toRow]

theorem decodeEntryList_entryJson (es : List Entry) (hr : ∀ e ∈ es, e.InRange)
    (hm : ∀ e ∈ es, Marshalable e.Due) :
    decodeEntryList (es.map entryJson) = some (es.map Entry.toRow) := by
  induction es with
  | nil => rfl
  | cons e es ih =>
    simp only [List.map_cons, decodeEntryList,
      decodeEntry_entryJson e (hr e (by simp)) (hm e (by simp)),
      ih (fun x hx => hr x (by simp [hx])) (fun x hx => hm x (by simp [hx]))]

theorem encodeEntries_eq (es : List Entry) (h : ∀ e ∈ es, Marshalable e.Due) :
    encodeEntries es = some (List.intercalate [',']
      (es.map (fun e => entryText e (encodeString (renderTime e.Due))))) := by
  induction es with
  | nil => rfl
  | cons e es ih =>
    have he := encodeEntry_eq e (h e (by simp))
    cases es with
    | nil => simpa [encodeEntries, List.intercalate] using he
    | cons e2 es2 =>
      have := ih (fun x hx => h x (by simp [hx]))
      simp only [encodeEntries, he, this, List.map_cons, intercalate_cons_cons]
      simp

/-- The encoding of an entry of type `kubelet` is the object the claim describes. -/
theorem entryText_claimed (e : Entry) (h : e.Type_ = entryType) :
    entryText e (encodeString (renderTime e.Due)) = claimedEntry e := by
  have hk : encodeString e.Type_.toList = ['"', 'k', 'u', 'b', 'e', 'l', 'e', 't', '"'] := by
    rw [h]
    decide
  have l0 : "\x7b\"type\":\"kubelet\",\"node\":".toList
      = ['{', '"', 't', 'y', 'p', 'e', '"', ':', '"', 'k', 'u', 'b', 'e', 'l', 'e', 't', '"',
        ',', '"', 'n', 'o', 'd', 'e', '"', ':'] := rfl
  have l1 : ",\"name\":".toList
      = [',', '"', 'n', 'a', 'm', 'e', '"', ':'] := rfl
  have l2 : ",\"days\":".toList
      = [',', '"', 'd', 'a', 'y', 's', '"', ':'] := rfl
  have l3 : ",\"due\":\"".toList
      = [',', '"', 'd', 'u', 'e', '"', ':', '"'] := rfl
  have l4 : "\",\"path\":".toList
      = ['"', ',', '"', 'p', 'a', 't', 'h', '"', ':'] := rfl
  have l5 : "\x7d".toList
      = ['}'] := rfl
  have l8 : "type".toList
      = ['t', 'y', 'p', 'e'] := rfl
  have l9 : "node".toList
      = ['n', 'o', 'd', 'e'] := rfl
  have l10 : "name".toList
      = ['n', 'a', 'm', 'e'] := rfl
  have l11 : "days".toList
      = ['d', 'a', 'y', 's'] := rfl
  have l12 : "due".toList
      = ['d', 'u', 'e'] := rfl
  have l13 : "path".toList
      = ['p', 'a', 't', 'h'] := rfl
  unfold entryText claimedEntry memberText
  rw [hk, l0, l1, l2, l3, l4, l5, l8, l9, l10, l11, l12, l13]
  simp [encodeString, flatMap_escapeChar_eq _ (timeChar_renderTime e.Due)]

theorem claimedDocument_eq (es : List Entry) (hm : ∀ e ∈ es, Marshalable e.Due)
    (ht : ∀ e ∈ es, e.Type_ = entryType) :
    ∃ body, encodeEntries es = some body
      ∧ claimedDocument es
        = String.mk ('{' :: (memberText "entry" ('[' :: (body ++ [']'])) ++ ['}', '\n'])) := by
  refine ⟨_, encodeEntries_eq es hm, ?_⟩
  have hmap : es.map (fun e => entryText e (encodeString (renderTime e.Due)))
      = es.map claimedEntry :=
    List.map_congr_left (fun e he => entryText_claimed e (ht e he))
  have l6 : "\x7b\"entry\":[".toList
      = ['{', '"', 'e', 'n', 't', 'r', 'y', '"', ':', '['] := rfl
  have l7 : "]\x7d\n".toList
      = [']', '}', '\n'] := rfl
  have l14 : "entry".toList
      = ['e', 'n', 't', 'r', 'y'] := rfl
  unfold claimedDocument memberText
  rw [hmap, l6, l7, l14]
  simp

/-- The orchestrator's `isJSON` on the document of the encoded entries. -/
theorem isJSON_document (es : List Entry) (hr : ∀ e ∈ es, e.InRange)
    (hm : ∀ e ∈ es, Marshalable e.Due) (body : List Char)
    (hb : encodeEntries es = some body) :
    isJSON (String.mk ('{' :: (memberText "entry" ('[' :: (body ++ [']'])) ++ ['}', '\n'])))
      = (⟨es.map Entry.toRow⟩, true) := by
  obtain ⟨body2, hb2, hlen, hparse⟩ := parseValue_entries es hm
  rw [hb] at hb2
  obtain rfl : body = body2 := Option.some.inj hb2
  have hdoclen : ('{' :: (memberText "entry" ('[' :: (body ++ [']'])) ++ ['}', '\n'])).length
      = body.length + 13 := by
    have : "entry".toList.length = 5 := rfl
    simp only [memberText, List.length_cons, List.length_append, this, List.length_nil]
    omega
  obtain ⟨f, hf⟩ : ∃ f, 2 * (body.length + 13) + 1 = f + es.length + 11 :=
    ⟨2 * (body.length + 13) + 1 - es.length - 11, by omega⟩
  have hv : parseValue (f + es.length + 9) (('[' :: (body ++ [']'])) ++ '}' :: ['\n'])
      = some (.arr (es.map entryJson), '}' :: ['\n']) := by
    have := hparse f ('}' :: ['\n'])
    simpa using this
  have hmem := parseMembers_last (f + es.length + 9) "entry" ('[' :: (body ++ [']']))
    (.arr (es.map entryJson)) ['\n'] (by decide) hv
  have hobj := parseValue_object (f + es.length + 10) "entry" ('[' :: (body ++ [']']))
    ['}', '\n']
  rw [hmem] at hobj
  have hjson : parseJson
      (String.mk ('{' :: (memberText "entry" ('[' :: (body ++ [']'])) ++ ['}', '\n'])))
      = some (.obj [("entry", .arr (es.map entryJson))]) := by
    unfold parseJson
    have e1 : (String.mk ('{' :: (memberText "entry" ('[' :: (body ++ [']'])) ++ ['}', '\n']))).length
        = body.length + 13 := hdoclen
    have e2 : (String.mk ('{' :: (memberText "entry" ('[' :: (body ++ [']']))
        ++ ['}', '\n']))).toList
        = '{' :: (memberText "entry" ('[' :: (body ++ [']'])) ++ ['}', '\n']) := rfl
    rw [e1, e2, hf]
    have hobj2 : parseValue (f + es.length + 11)
        ('{' :: (memberText "entry" ('[' :: (body ++ [']'])) ++ ['}', '\n']))
        = some (.obj [("entry", .arr (es.map entryJson))], ['\n']) := hobj
    rw [hobj2]
    simp [skipWs]
  have hk : keyMatches "entry" "entry" = true := by decide
  unfold isJSON unmarshalOutput
  rw [hjson]
  simp [decodeOutputMembers, hk, decodeEntryList_entryJson es hr hm]

/-- C14, counterexample: an entry built with `NewEntry` whose time is in the year 10000 is
not encoded, the encoder returns an error; and an entry whose zone has an offset of 30
seconds is encoded with the zone `+00:00` and decoded as another entry. -/
theorem C14_counterexample_year_and_zone :
    encodeOutput ⟨[NewEntry "node" "name" 1 ⟨10000, 1, 1, 0, 0, 0, 0, 0⟩ "path"]⟩ = none
    ∧ encodeOutput ⟨[NewEntry "node" "name" 1 ⟨2019, 1, 1, 0, 0, 0, 0, 30⟩ "path"]⟩
      = some "\x7b\"entry\":[\x7b\"type\":\"kubelet\",\"node\":\"node\",\"name\":\"name\",\"days\":1,\"due\":\"2019-01-01T00:00:00+00:00\",\"path\":\"path\"\x7d]\x7d\n"
    ∧ isJSON "\x7b\"entry\":[\x7b\"type\":\"kubelet\",\"node\":\"node\",\"name\":\"name\",\"days\":1,\"due\":\"2019-01-01T00:00:00+00:00\",\"path\":\"path\"\x7d]\x7d\n"
      = (⟨[⟨"kubelet", "node", "name", 1, ⟨2019, 1, 1, 0, 0, 0, 0, 0⟩, "path"⟩]⟩, true) := by
  decide

/-- C14, amended: for every list of entries built with `NewEntry` whose times have a year
from 0 to 9999 and a zone of whole minutes, less than 24 hours, the agent's encoding of
`Output` is the single document `\x7b"entry":[...]\x7d` followed by a line feed, in which each
entry is an object with the keys `type`, `node`, `name`, `days`, `due`, `path` in that
order, the type `kubelet` and the time in its RFC 3339 rendering; and the orchestrator's
`isJSON` decodes that document with success into the same entries. -/
theorem C14_encode_decode (es : List Entry)
    (hnew : ∀ e ∈ es, e = NewEntry e.Node e.Name e.Days e.Due e.Path)
    (hr : ∀ e ∈ es, e.InRange) (hm : ∀ e ∈ es, Marshalable e.Due) :
    encodeOutput ⟨es⟩ = some (claimedDocument es)
    ∧ isJSON (claimedDocument es) = (⟨es.map Entry.toRow⟩, true) := by
  have ht : ∀ e ∈ es, e.Type_ = entryType := by
    intro e he
    have := hnew e he
    rw [this]
    rfl
  obtain ⟨body, hb, hdoc⟩ := claimedDocument_eq es hm ht
  refine ⟨?_, ?_⟩
  · unfold encodeOutput
    rw [hdoc]
    simp only [hb, Option.map_some']
  · rw [hdoc]
    exact isJSON_document es hr hm body hb

/-- Witness of C14 on the entry of `TestJsonEncode` (krawler_test.go:126-138). -/
theorem C14_encode_decode_witness :
    encodeOutput ⟨[NewEntry "node" "name" 1 ⟨2019, 1, 1, 0, 0, 0, 0, 0⟩ "path"]⟩
      = some (claimedDocument [NewEntry "node" "name" 1 ⟨2019, 1, 1, 0, 0, 0, 0, 0⟩ "path"])
    ∧ isJSON (claimedDocument [NewEntry "node" "name" 1 ⟨2019, 1, 1, 0, 0, 0, 0, 0⟩ "path"])
      = (⟨[⟨"kubelet", "node", "name", 1, ⟨2019, 1, 1, 0, 0, 0, 0, 0⟩, "path"⟩]⟩, true)
    ∧ claimedDocument [NewEntry "node" "name" 1 ⟨2019, 1, 1, 0, 0, 0, 0, 0⟩ "path"]
      = "\x7b\"entry\":[\x7b\"type\":\"kubelet\",\"node\":\"node\",\"name\":\"name\",\"days\":1,\"due\":\"2019-01-01T00:00:00Z\",\"path\":\"path\"\x7d]\x7d\n" :=
  ⟨(C14_encode_decode [NewEntry "node" "name" 1 ⟨2019, 1, 1, 0, 0, 0, 0, 0⟩ "path"]
      (by decide) (by decide) (by decide)).1,
    (C14_encode_decode [NewEntry "node" "name" 1 ⟨2019, 1, 1, 0, 0, 0, 0, 0⟩ "path"]
      (by decide) (by decide) (by decide)).2,
    by decide⟩

end Krawler
